import Mathlib

/-!
# Agent Factory web backend: batch orchestrator

A shallow embedding of `server/index.mjs` (summary parser, buffered and
streaming batch endpoints) together with the properties proved about it.

JavaScript strings are modelled as lists of characters, byte buffers as lists
of natural numbers below 256, and JavaScript numbers (IEEE-754 doubles) by the
type `JSNumber` below.
-/

namespace AgentFactory

/-- A JavaScript string, as the list of its characters. -/
abbrev Str := List Char

/-! ## JavaScript primitives used by the server -/

/-- The code points matched by the regular expression class `\s` and removed by
`String.prototype.trim`: ECMAScript WhiteSpace and LineTerminator. -/
def isJsSpace (c : Char) : Bool :=
  let n := c.toNat
  n == 9 || n == 10 || n == 11 || n == 12 || n == 13 || n == 32 || n == 160 ||
  n == 5760 || (8192 ≤ n && n ≤ 8202) || n == 8232 || n == 8233 || n == 8239 ||
  n == 8287 || n == 12288 || n == 65279

/-- `s.trim()`. -/
def jsTrim (s : Str) : Str :=
  ((s.dropWhile isJsSpace).reverse.dropWhile isJsSpace).reverse

/-- Prepend a character to the first piece of a split result. -/
def consHead (c : Char) : List Str → List Str
  | [] => [[c]]
  | l :: ls => (c :: l) :: ls

/-- `s.split(/\r?\n/)`: the separators are `\r\n` and `\n`; a `\r` that is not
followed by `\n` stays in its line. -/
def splitLines : Str → List Str
  | [] => [[]]
  | '\r' :: '\n' :: rest => [] :: splitLines rest
  | '\n' :: rest => [] :: splitLines rest
  | c :: rest => consHead c (splitLines rest)

/-- `s.split(/\s+/)`, with `inSep` recording that the previous character was
part of the separator being consumed. -/
def splitWsAux : Bool → Str → List Str
  | _, [] => [[]]
  | inSep, c :: cs =>
    if isJsSpace c then
      if inSep then splitWsAux true cs else [] :: splitWsAux true cs
    else consHead c (splitWsAux false cs)

/-- `s.split(/\s+/)`. -/
def splitWs (s : Str) : List Str := splitWsAux false s

/-- `s.split(sep)` for a one-character separator. -/
def splitOn (sep : Char) : Str → List Str
  | [] => [[]]
  | c :: cs => if c = sep then [] :: splitOn sep cs else consHead c (splitOn sep cs)

/-- `s.replace(pat, rep)` with a string pattern: only the first occurrence is
replaced. -/
def replaceFirst (pat rep : Str) : Str → Str
  | [] => if pat = [] then rep else []
  | c :: cs =>
    if pat.isPrefixOf (c :: cs) then rep ++ (c :: cs).drop pat.length
    else c :: replaceFirst pat rep cs

/-! ## JavaScript numbers -/

/-- A JavaScript number. Finite values are kept in a canonical form: an
integer-valued double is `int i` (`int 0` is `+0`), any other finite double is
`frac neg num k`, standing for `± num / 2 ^ k` with `num` odd and `0 < k`. -/
inductive JSNumber where
  | nan
  | posInf
  | negInf
  | negZero
  | int (i : Int)
  | frac (neg : Bool) (num k : Nat)
  deriving DecidableEq, Repr

namespace JSNumber

/-- ToBoolean on a number: `NaN`, `+0` and `-0` are falsy. -/
def truthy : JSNumber → Bool
  | nan => false
  | negZero => false
  | int i => i != 0
  | _ => true

/-- The value of a number for which `Number.isInteger` holds, `none` for the
others. -/
def asInteger : JSNumber → Option Int
  | negZero => some 0
  | int i => some i
  | _ => none

end JSNumber

/-- Number of binary digits of `n`, by halving at most `fuel` times. -/
def bitLenAux : Nat → Nat → Nat
  | 0, _ => 0
  | fuel + 1, n => if n = 0 then 0 else bitLenAux fuel (n / 2) + 1

/-- Number of binary digits of `n` (`0` for `0`). -/
def bitLen (n : Nat) : Nat := bitLenAux n n

/-- Numerator and denominator of `(a / b) / 2 ^ p`. -/
def scalePow2 (a b : Nat) (p : Int) : Nat × Nat :=
  if 0 ≤ p then (a, b * 2 ^ p.toNat) else (a * 2 ^ (-p).toNat, b)

/-- The integer nearest to `n / d`, ties going to the even one. -/
def roundHalfEven (n d : Nat) : Nat :=
  let q := n / d
  let r := n % d
  if 2 * r < d then q
  else if d < 2 * r then q + 1
  else if q % 2 = 0 then q else q + 1

/-- A zero of the given sign. -/
def signedZero (neg : Bool) : JSNumber := if neg then .negZero else .int 0

/-- The integer `± m`. -/
def signedInt (neg : Bool) (m : Nat) : Int := if neg then -(m : Int) else (m : Int)

/-- Canonical form of `± m / 2 ^ k`. -/
def normDyadic (neg : Bool) : Nat → Nat → JSNumber
  | m, 0 => .int (signedInt neg m)
  | m, k + 1 => if m % 2 = 0 then normDyadic neg (m / 2) k else .frac neg m (k + 1)

/-- The double nearest to `± a / b` (round to nearest, ties to even, with
subnormals and overflow to infinity): the Number value of a mathematical value. -/
def roundToDouble (neg : Bool) (a b : Nat) : JSNumber :=
  if a = 0 ∨ b = 0 then signedZero neg
  else
    let e0 : Int := (bitLen a : Int) - (bitLen b : Int)
    let e : Int := if (scalePow2 a b e0).2 ≤ (scalePow2 a b e0).1 then e0 else e0 - 1
    let p : Int := max (e - 52) (-1074)
    let m := roundHalfEven (scalePow2 a b p).1 (scalePow2 a b p).2
    if m = 0 then signedZero neg
    else if 0 ≤ p then
      if 2 ^ 1024 ≤ m * 2 ^ p.toNat then (if neg then .negInf else .posInf)
      else .int (signedInt neg (m * 2 ^ p.toNat))
    else normDyadic neg m (-p).toNat

/-- Value of a digit character in the given base (`none` when it is not one). -/
def digitIn (base : Nat) (c : Char) : Option Nat :=
  let n := c.toNat
  let d : Option Nat :=
    if 48 ≤ n ∧ n ≤ 57 then some (n - 48)
    else if 97 ≤ n ∧ n ≤ 102 then some (n - 87)
    else if 65 ≤ n ∧ n ≤ 70 then some (n - 55)
    else none
  match d with
  | some v => if v < base then some v else none
  | none => none

/-- Value of a run of digits continuing the value `acc`; `none` when a
character is not a digit of the base. -/
def digitsVal (base : Nat) : Str → Nat → Option Nat
  | [], acc => some acc
  | c :: cs, acc =>
    match digitIn base c with
    | some d => digitsVal base cs (acc * base + d)
    | none => none

/-- Value of a non-empty run of digits. -/
def parseDigits (base : Nat) (s : Str) : Option Nat :=
  if s = [] then none else digitsVal base s 0

/-- Split at the first character satisfying `p` (which is dropped); the second
component is `none` when there is no such character. -/
def splitAtFirst (p : Char → Bool) : Str → Str × Option Str
  | [] => ([], none)
  | c :: cs =>
    if p c then ([], some cs)
    else ((c :: (splitAtFirst p cs).1), (splitAtFirst p cs).2)

/-- The digits of an ExponentPart after its `e`. -/
def parseExponent : Str → Option Int
  | '+' :: ds => (parseDigits 10 ds).map Int.ofNat
  | '-' :: ds => (parseDigits 10 ds).map (fun n => -(n : Int))
  | ds => (parseDigits 10 ds).map Int.ofNat

/-- The Number value of `± m × 10 ^ e`, correctly rounded whatever the number
of digits of `m` (as V8 does; ECMAScript leaves a choice beyond 20 significant
digits). -/
def fromDecimal (neg : Bool) (m : Nat) (e : Int) : JSNumber :=
  if 0 ≤ e then roundToDouble neg (m * 10 ^ e.toNat) 1
  else roundToDouble neg m (10 ^ (-e).toNat)

/-- StrUnsignedDecimalLiteral: `Infinity`, or digits with an optional fraction
and an optional exponent. -/
def parseUnsignedDecimal (neg : Bool) (s : Str) : JSNumber :=
  if s = "Infinity".toList then (if neg then .negInf else .posInf)
  else
    let me := splitAtFirst (fun c => c == 'e' || c == 'E') s
    let expo : Option Int :=
      match me.2 with
      | none => some 0
      | some t => parseExponent t
    let ip := splitAtFirst (fun c => c == '.') me.1
    let mant : Option (Nat × Nat) :=
      match ip.2 with
      | none => (parseDigits 10 ip.1).map (fun v => (v, 0))
      | some f =>
        if ip.1 = [] ∧ f = [] then none
        else (digitsVal 10 (ip.1 ++ f) 0).map (fun v => (v, f.length))
    match mant, expo with
    | some (m, fd), some e => fromDecimal neg m (e - (fd : Int))
    | _, _ => .nan

/-- StringToNumber: `Number(s)` for a string `s`. -/
def stringToNumber (s : Str) : JSNumber :=
  match jsTrim s with
  | [] => .int 0
  | '0' :: 'x' :: ds | '0' :: 'X' :: ds =>
    match parseDigits 16 ds with
    | some n => roundToDouble false n 1
    | none => .nan
  | '0' :: 'o' :: ds | '0' :: 'O' :: ds =>
    match parseDigits 8 ds with
    | some n => roundToDouble false n 1
    | none => .nan
  | '0' :: 'b' :: ds | '0' :: 'B' :: ds =>
    match parseDigits 2 ds with
    | some n => roundToDouble false n 1
    | none => .nan
  | '+' :: ds => parseUnsignedDecimal false ds
  | '-' :: ds => parseUnsignedDecimal true ds
  | ds => parseUnsignedDecimal false ds

/-- `Number(v)` where `v` is a string or `undefined` (`none`). -/
def numberOfOptStr : Option Str → JSNumber
  | none => .nan
  | some s => stringToNumber s

/-- Decimal digits of `n` in front of `acc`, most significant first. -/
def natDigitsAux : Nat → Nat → Str → Str
  | 0, _, acc => acc
  | fuel + 1, n, acc =>
    if n / 10 = 0 then Char.ofNat (48 + n % 10) :: acc
    else natDigitsAux fuel (n / 10) (Char.ofNat (48 + n % 10) :: acc)

/-- Decimal rendering of a natural number, without leading zeros: `String(n)`
for an integer `0 ≤ n < 10 ^ 21`. -/
def natToDecimal (n : Nat) : Str := natDigitsAux (n + 1) n []

/-! ## Summary parser -/

/-- The result of `parseSummary`. -/
structure BatchSummary where
  total : JSNumber
  success : JSNumber
  failed : JSNumber
  deriving DecidableEq, Repr

/-- The zero summary `{ total: 0, success: 0, failed: 0 }`. -/
def BatchSummary.zero : BatchSummary := ⟨.int 0, .int 0, .int 0⟩

/-- The marker `"SUMMARY "`. -/
def summaryMarker : Str := "SUMMARY ".toList

/-- A `Map` from strings to numbers, most recent `set` first. -/
abbrev NumMap := List (Str × JSNumber)

/-- `map.set(k, v)`. -/
def NumMap.set (m : NumMap) (k : Str) (v : JSNumber) : NumMap := (k, v) :: m

/-- `map.get(k)`: the value of the most recent `set` for `k`, or `undefined`. -/
def NumMap.get (m : NumMap) (k : Str) : Option JSNumber :=
  match m with
  | [] => none
  | (k', v) :: rest => if k' = k then some v else NumMap.get rest k

/-- The destructuring `[k, v] = chunk.split("=")` followed by
`map.set(k, Number(v))`. -/
def setChunk (m : NumMap) (chunk : Str) : NumMap :=
  let parts := splitOn '=' chunk
  m.set (parts.headD []) (numberOfOptStr (parts.tail.head?))

/-- `Number(x || 0)` for `x` the result of `map.get`. -/
def orZero : Option JSNumber → JSNumber
  | none => .int 0
  | some x => if x.truthy then x else .int 0

/-- The body of the loop of `parseSummary` for a line that starts with the
marker. -/
def parseSummaryLine (line : Str) : BatchSummary :=
  let chunks := splitWs (jsTrim (replaceFirst summaryMarker [] line))
  let map : NumMap := chunks.foldl setChunk []
  { total := orZero (map.get "TOTAL".toList)
    success := orZero (map.get "SUCCESS".toList)
    failed := orZero (map.get "FAILED".toList) }

/-- `parseSummary(stdout)`. -/
def parseSummary (stdout : Str) : BatchSummary :=
  match (splitLines stdout).reverse.find? (fun line => summaryMarker.isPrefixOf line) with
  | some line => parseSummaryLine line
  | none => BatchSummary.zero

/-! ## Child process output -/

/-- A byte of a `Buffer`. -/
abbrev Byte := Fin 256

/-- The replacement character U+FFFD. -/
def replacementChar : Char := Char.ofNat 0xFFFD

/-- State of the UTF-8 decoder between two bytes: the number of continuation
bytes still expected, the code point read so far, and the range allowed for
the next byte. -/
structure Utf8State where
  needed : Nat
  cp : Nat
  lower : Nat
  upper : Nat

/-- The decoder state outside a multi-byte sequence. -/
def Utf8State.init : Utf8State := ⟨0, 0, 0x80, 0xBF⟩

/-- A byte read outside a multi-byte sequence: the character it produces, if
any, and the next state. -/
def utf8Lead (b : Nat) : Option Char × Utf8State :=
  if b < 0x80 then (some (Char.ofNat b), Utf8State.init)
  else if 0xC2 ≤ b ∧ b ≤ 0xDF then (none, ⟨1, b - 0xC0, 0x80, 0xBF⟩)
  else if 0xE0 ≤ b ∧ b ≤ 0xEF then
    (none, ⟨2, b - 0xE0, if b = 0xE0 then 0xA0 else 0x80, if b = 0xED then 0x9F else 0xBF⟩)
  else if 0xF0 ≤ b ∧ b ≤ 0xF4 then
    (none, ⟨3, b - 0xF0, if b = 0xF0 then 0x90 else 0x80, if b = 0xF4 then 0x8F else 0xBF⟩)
  else (some replacementChar, Utf8State.init)

/-- UTF-8 decoding with replacement: every maximal ill-formed part of the input
becomes one U+FFFD, also a sequence cut short by the end of the buffer. -/
def utf8DecodeFrom : Utf8State → List Byte → Str
  | st, [] => if st.needed = 0 then [] else [replacementChar]
  | st, b :: bs =>
    if st.needed = 0 then
      (utf8Lead b.val).1.toList ++ utf8DecodeFrom (utf8Lead b.val).2 bs
    else if st.lower ≤ b.val ∧ b.val ≤ st.upper then
      if st.needed = 1 then
        Char.ofNat (st.cp * 64 + (b.val - 0x80)) :: utf8DecodeFrom Utf8State.init bs
      else utf8DecodeFrom ⟨st.needed - 1, st.cp * 64 + (b.val - 0x80), 0x80, 0xBF⟩ bs
    else
      replacementChar :: ((utf8Lead b.val).1.toList ++ utf8DecodeFrom (utf8Lead b.val).2 bs)

/-- `chunk.toString()` for a `Buffer`: its UTF-8 decoding. -/
def bufferToString (chunk : List Byte) : Str := utf8DecodeFrom Utf8State.init chunk

/-- What a child process reports: a chunk on stdout or stderr, an `error`
event (carrying `String(error)`), or `close` with the exit code (`none` for
`null`). -/
inductive ChildEvent where
  | stdoutData (chunk : List Byte)
  | stderrData (chunk : List Byte)
  | error (error : Str)
  | close (code : Option Int)
  deriving DecidableEq, Repr

/-- State of the promise returned by `runProcess`. -/
inductive ProcResult where
  | pending (stdout stderr : Str)
  | resolved (code : Int) (stdout stderr : Str)
  | rejected (error : Str)
  deriving DecidableEq, Repr

/-- One event handled by `runProcess`: the buffers grow while the promise is
pending, `error` rejects it, `close` resolves it with `code ?? 1`; a settled
promise stays as it is. -/
def ProcResult.step : ProcResult → ChildEvent → ProcResult
  | .pending out err, .stdoutData chunk => .pending (out ++ bufferToString chunk) err
  | .pending out err, .stderrData chunk => .pending out (err ++ bufferToString chunk)
  | .pending _ _, .error e => .rejected e
  | .pending out err, .close code => .resolved (code.getD 1) out err
  | settled, _ => settled

/-- `runProcess(command, args, env)` as a function of what the child reports. -/
def runProcess (events : List ChildEvent) : ProcResult :=
  events.foldl ProcResult.step (.pending [] [])

/-! ## Request bodies -/

/-- A value found in a parsed JSON body, or `undefined` for a missing
property. A number carries the string `String(x)` renders it as; an array or
object is represented by the outcome of converting it to a primitive: the
string its `toString` produces, or `none` when the conversion throws a
`TypeError`. -/
inductive JSVal where
  | undefined
  | null
  | bool (b : Bool)
  | num (x : JSNumber) (text : Str)
  | str (s : Str)
  | obj (prim : Option Str)
  deriving DecidableEq, Repr

namespace JSVal

/-- ToBoolean. -/
def truthy : JSVal → Bool
  | undefined => false
  | null => false
  | bool b => b
  | num x _ => x.truthy
  | str s => s != []
  | obj _ => true

/-- `a || b`. -/
def or (a b : JSVal) : JSVal := if a.truthy then a else b

/-- `a ?? b`. -/
def nullish (a b : JSVal) : JSVal :=
  match a with
  | undefined => b
  | null => b
  | _ => a

/-- `Number(v)`; `none` when the conversion throws. -/
def toNumber : JSVal → Option JSNumber
  | undefined => some .nan
  | null => some (.int 0)
  | bool b => some (.int (if b then 1 else 0))
  | num x _ => some x
  | str s => some (stringToNumber s)
  | obj (some p) => some (stringToNumber p)
  | obj none => none

/-- `String(v)`; `none` when the conversion throws. -/
def toStr : JSVal → Option Str
  | undefined => some "undefined".toList
  | null => some "null".toList
  | bool b => some (if b then "true".toList else "false".toList)
  | num _ text => some text
  | str s => some s
  | obj p => p

end JSVal

/-- The properties of `req.body` the batch endpoints read. -/
structure RunBody where
  count : JSVal
  commandTemplate : JSVal
  railwayToken : JSVal
  workRoot : JSVal
  runTimeoutSeconds : JSVal
  deriving DecidableEq, Repr

/-- The constants of the first lines of both handlers. -/
structure RunParams where
  count : JSNumber
  commandTemplate : Str
  requestedToken : Str
  workRoot : Str
  runTimeoutSeconds : Int
  deriving DecidableEq, Repr

/-- `Number.isInteger(timeoutRaw) ? Math.min(7200, Math.max(60, timeoutRaw)) : 1800`. -/
def clampTimeout (timeoutRaw : JSNumber) : Int :=
  match timeoutRaw.asInteger with
  | some i => min 7200 (max 60 i)
  | none => 1800

/-- The first lines of both handlers; `none` when a conversion throws. -/
def readParams (body : RunBody) : Option RunParams := do
  let count ← (body.count.or (.num (.int 0) ['0'])).toNumber
  let commandTemplate ← (body.commandTemplate.or (.str [])).toStr
  let requestedToken ← (body.railwayToken.or (.str [])).toStr
  let workRoot ← (body.workRoot.or (.str [])).toStr
  let timeoutRaw ← (body.runTimeoutSeconds.nullish (.num (.int 1800) "1800".toList)).toNumber
  pure
    { count := count
      commandTemplate := jsTrim commandTemplate
      requestedToken := jsTrim requestedToken
      workRoot := jsTrim workRoot
      runTimeoutSeconds := clampTimeout timeoutRaw }

/-- The count when the check
`!Number.isInteger(count) || count < 1 || count > 100` lets it through, else
`none`. -/
def acceptedCount (count : JSNumber) : Option Int :=
  match count.asInteger with
  | some i => if i < 1 ∨ i > 100 then none else some i
  | none => none

/-- Outcome of the two validation checks: the error message of the 400
response, or the accepted count. -/
inductive Validation where
  | invalid (message : Str)
  | valid (count : Int)
  deriving DecidableEq, Repr

/-- The two validation checks of both handlers. -/
def validate (p : RunParams) : Validation :=
  match acceptedCount p.count with
  | none => .invalid "count must be an integer between 1 and 100".toList
  | some n =>
    if p.commandTemplate = [] then .invalid "commandTemplate is required".toList
    else .valid n

/-! ## The batch endpoints -/

/-- What the handlers take from the server process: the path of the batch
script (`path.join(scriptRoot(), "run-agent-factory-batch.sh")`), the default
work root (`path.join(process.cwd(), ".context", "agent-factory-web-runs")`),
`repoRoot` and `process.env`. -/
structure Sys where
  batchScript : Str
  defaultWorkRoot : Str
  repoRoot : Str
  processEnv : List (Str × Str)
  deriving DecidableEq, Repr

/-- The result object of a batch run (`BatchResult` in `types.ts`). -/
structure BatchResult where
  ok : Bool
  exit_code : Int
  stdout : Str
  stderr : Str
  summary : BatchSummary
  work_root : Str
  deriving DecidableEq, Repr

/-- The payloads of the NDJSON stream (`StreamEvent` in `App.tsx`). -/
inductive StreamEvent where
  | start (work_root : Str)
  | stdout (data : Str)
  | stderr (data : Str)
  | finish (result : BatchResult)
  | error (error : Str)
  deriving DecidableEq, Repr

/-- A terminal event: `end` or `error`. -/
def StreamEvent.isTerminal : StreamEvent → Bool
  | .finish _ => true
  | .error _ => true
  | _ => false

/-- A `start` event. -/
def StreamEvent.isStart : StreamEvent → Bool
  | .start _ => true
  | _ => false

/-- The body of a JSON response: `{ error }` or a batch result. `spawnThrew` is
`{ error: String(error) }` for the exception `spawn` throws when it rejects its
arguments, a text of Node that is not spelled out. -/
inductive ResBody where
  | error (message : Str)
  | result (r : BatchResult)
  | spawnThrew
  deriving DecidableEq, Repr

/-- What a handler does to the response and to child processes, in order.
An environment is the list of its assignments, a later one overriding an
earlier one for the same name, as in an object spread. `spawn` is the call of
`spawn`, which starts a child or throws. `throwTypeError` is an exception
leaving the handler, which performs nothing after it. -/
inductive Action where
  | json (status : Nat) (body : ResBody)
  | setHeader (name value : Str)
  | flushHeaders
  | spawn (command : Str) (args : List Str) (env : List (Str × Str))
  | write (event : StreamEvent)
  | endResponse
  | kill (signal : Str)
  | setTimeoutKill (ms : Nat) (signal : Str)
  | throwTypeError
  deriving DecidableEq, Repr

/-- The value of a variable in an environment given as the list of its
assignments: the last assignment of the name. -/
def envGet (env : List (Str × Str)) (name : Str) : Option Str :=
  (env.reverse.find? (fun kv => kv.1 = name)).map (fun kv => kv.2)

/-- Whether a string holds the character U+0000. -/
def hasNul (s : Str) : Bool := s.any (fun c => c == Char.ofNat 0)

/-- Whether the call of `spawn` throws instead of starting a child: Node
rejects a command, an argument, or a name or value of the environment that
holds U+0000, where the value of a name is its last assignment. -/
def Action.spawnThrows : Action → Bool
  | .spawn command args env =>
    hasNul command || args.any hasNul ||
      env.any (fun kv => hasNul kv.1 || hasNul ((envGet env kv.1).getD []))
  | _ => false

/-- The strings of the server process hold no U+0000: the script path, the
default work root, `repoRoot`, and the names and values of `process.env`. -/
def Sys.noNul (sys : Sys) : Bool :=
  !hasNul sys.batchScript && !hasNul sys.defaultWorkRoot && !hasNul sys.repoRoot &&
    sys.processEnv.all (fun kv => !hasNul kv.1 && !hasNul kv.2)

/-- The arguments `readKeychainToken` passes to `security`. -/
def keychainArgs : List Str :=
  ["find-generic-password".toList, "-a".toList, "agent-factory-launcher".toList, "-s".toList,
    "railway-token".toList, "-w".toList]

/-- How `requestedToken || (await readKeychainToken())` ends: with a token
(possibly empty), with the error of a rejected `runProcess`, or never. -/
inductive TokenOutcome where
  | token (t : Str)
  | failed (error : Str)
  | hang
  deriving DecidableEq, Repr

/-- `readKeychainToken()` on what `security` reports. -/
def readKeychainToken (keychain : List ChildEvent) : TokenOutcome :=
  match runProcess keychain with
  | .resolved code out _ => if code ≠ 0 then .token [] else .token (jsTrim out)
  | .rejected e => .failed e
  | .pending _ _ => .hang

/-- `requestedToken || (await readKeychainToken())`: the processes spawned for
it and how it ends. -/
def resolveToken (sys : Sys) (requestedToken : Str) (keychain : List ChildEvent) :
    List Action × TokenOutcome :=
  if requestedToken ≠ [] then ([], .token requestedToken)
  else ([.spawn "security".toList keychainArgs sys.processEnv], readKeychainToken keychain)

/-- `workRoot || path.join(process.cwd(), ".context", "agent-factory-web-runs")`. -/
def resolveWorkRoot (sys : Sys) (workRoot : Str) : Str :=
  if workRoot ≠ [] then workRoot else sys.defaultWorkRoot

/-- The variables both handlers set for the Driver. -/
def driverEnv (sys : Sys) (p : RunParams) (token : Str) : List (Str × Str) :=
  [("AGENT_FACTORY_COMMAND".toList, p.commandTemplate),
    ("AGENT_FACTORY_CWD".toList, sys.repoRoot),
    ("RUN_TIMEOUT_SECONDS".toList, natToDecimal p.runTimeoutSeconds.toNat),
    ("RUN_HEARTBEAT_SECONDS".toList, "15".toList)]
  ++ (if token ≠ [] then [("RAILWAY_TOKEN".toList, token)] else [])

/-- The `spawn` of the Driver: `/bin/bash` with `[batchScript, String(count),
resolvedWorkRoot]` and `process.env` overlaid with `driverEnv`. -/
def spawnDriver (sys : Sys) (p : RunParams) (n : Int) (token : Str) : Action :=
  .spawn "/bin/bash".toList [sys.batchScript, natToDecimal n.toNat, resolveWorkRoot sys p.workRoot]
    (sys.processEnv ++ driverEnv sys p token)

/-- The result object built from exit code and output. -/
def batchResult (exitCode : Int) (stdout stderr workRoot : Str) : BatchResult :=
  { ok := exitCode == 0
    exit_code := exitCode
    stdout := stdout
    stderr := stderr
    summary := parseSummary stdout
    work_root := workRoot }

/-- The handler of `POST /api/run-batch`, as the actions it performs given the
request body and what the `security` and Driver processes report. A conversion
that throws in the first lines is outside the `try` and leaves the handler.
The promise of `runProcess` is rejected by the `error` event of the child, and
in the same way by a `spawn` that throws inside it; `driver` tells which of
the two ends the promise takes. -/
def runBatch (sys : Sys) (body : RunBody) (keychain driver : List ChildEvent) : List Action :=
  match readParams body with
  | none => [.throwTypeError]
  | some p =>
    match validate p with
    | .invalid msg => [.json 400 (.error msg)]
    | .valid n =>
      match resolveToken sys p.requestedToken keychain with
      | (pre, .hang) => pre
      | (pre, .failed e) => pre ++ [.json 500 (.error e)]
      | (pre, .token t) =>
        pre ++ [spawnDriver sys p n t] ++
          (match runProcess driver with
          | .pending _ _ => []
          | .rejected e => [.json 500 (.error e)]
          | .resolved code out err =>
            [.json 200 (.result (batchResult code out err (resolveWorkRoot sys p.workRoot)))])

/-- What the streaming handler reacts to after `spawn`: events of the child
and of the transport. `writeThrows` tells whether `res.write` (or the
`JSON.stringify` before it) throws if `safeWrite` gets to call it. -/
inductive StreamInput where
  | stdoutData (chunk : List Byte) (writeThrows : Bool)
  | stderrData (chunk : List Byte) (writeThrows : Bool)
  | childError (error : Str) (writeThrows : Bool)
  | childClose (code : Option Int) (writeThrows : Bool)
  | reqAborted
  | resClose
  | resError
  deriving DecidableEq, Repr

/-- The variables of the streaming handler, with the actions performed so far. -/
structure StreamState where
  stdout : Str
  stderr : Str
  clientClosed : Bool
  responseEnded : Bool
  workRoot : Str
  trace : List Action
  deriving DecidableEq, Repr

namespace StreamState

/-- `safeWrite(payload)`. -/
def safeWrite (s : StreamState) (payload : StreamEvent) (writeThrows : Bool) : StreamState :=
  if s.clientClosed || s.responseEnded then s
  else if writeThrows then { s with clientClosed := true }
  else { s with trace := s.trace ++ [.write payload] }

/-- `safeEnd()`. -/
def safeEnd (s : StreamState) : StreamState :=
  if s.responseEnded then s
  else { s with responseEnded := true, trace := s.trace ++ [.endResponse] }

/-- `terminateChildProcess(child)`: SIGTERM now, SIGKILL from a timer of
1200 ms. -/
def terminateChildProcess (s : StreamState) : StreamState :=
  { s with trace := s.trace ++ [.kill "SIGTERM".toList, .setTimeoutKill 1200 "SIGKILL".toList] }

/-- The event handlers registered by the streaming handler. -/
def step (s : StreamState) : StreamInput → StreamState
  | .stdoutData chunk w =>
    safeWrite { s with stdout := s.stdout ++ bufferToString chunk }
      (.stdout (bufferToString chunk)) w
  | .stderrData chunk w =>
    safeWrite { s with stderr := s.stderr ++ bufferToString chunk }
      (.stderr (bufferToString chunk)) w
  | .childError e w => safeEnd (safeWrite s (.error e) w)
  | .childClose code w =>
    safeEnd (safeWrite s
      (.finish (batchResult (code.getD 1) s.stdout s.stderr s.workRoot)) w)
  | .reqAborted => terminateChildProcess { s with clientClosed := true }
  | .resClose =>
    if s.responseEnded then s else terminateChildProcess { s with clientClosed := true }
  | .resError => terminateChildProcess { s with clientClosed := true }

/-- The state when the handlers are registered. -/
def init (workRoot : Str) : StreamState :=
  { stdout := [], stderr := [], clientClosed := false, responseEnded := false,
    workRoot := workRoot, trace := [] }

/-- The events written to the response so far. -/
def written (s : StreamState) : List StreamEvent :=
  s.trace.filterMap fun a => match a with
    | .write e => some e
    | _ => none

/-- The number of calls of `res.end()` so far. -/
def endCalls (s : StreamState) : Nat := s.trace.count .endResponse

/-- Whether the sink is marked closed. -/
def closed (s : StreamState) : Bool := s.clientClosed || s.responseEnded

/-- `res.end()` has been called once when `responseEnded` is set, and never
before. -/
def EndInv (s : StreamState) : Prop :=
  s.endCalls = if s.responseEnded then 1 else 0

/-- The invariant on terminal events: only the last written event can be
terminal, and none is before the response is ended. -/
def TerminalInv (s : StreamState) : Prop :=
  (∀ e ∈ s.written.dropLast, e.isTerminal = false) ∧
  (s.responseEnded = false → ∀ e ∈ s.written, e.isTerminal = false)

end StreamState

/-- The streaming handler from `safeWrite({ type: "start", ... })` on. -/
def streamSession (workRoot : Str) (startThrows : Bool) (inputs : List StreamInput) :
    StreamState :=
  inputs.foldl StreamState.step
    ((StreamState.init workRoot).safeWrite (.start workRoot) startThrows)

/-- The handler of `POST /api/run-batch-stream`, as the actions it performs
given the request body, what `security` reports, and the events that follow
the `spawn` of the Driver. The call of `spawn` is inside the `try`, after the
headers were flushed: when it throws, the `catch` calls
`res.status(500).json({ error: String(error) })`, no event is written and no
handler is registered. -/
def runBatchStream (sys : Sys) (body : RunBody) (keychain : List ChildEvent)
    (startThrows : Bool) (inputs : List StreamInput) : List Action :=
  match readParams body with
  | none => [.throwTypeError]
  | some p =>
    match validate p with
    | .invalid msg => [.json 400 (.error msg)]
    | .valid n =>
      match resolveToken sys p.requestedToken keychain with
      | (pre, .hang) => pre
      | (pre, .failed e) => pre ++ [.json 500 (.error e)]
      | (pre, .token t) =>
        pre ++
          [.setHeader "Content-Type".toList "application/x-ndjson".toList,
            .setHeader "Cache-Control".toList "no-cache".toList,
            .setHeader "Connection".toList "keep-alive".toList,
            .flushHeaders,
            spawnDriver sys p n t] ++
          (if (spawnDriver sys p n t).spawnThrows then [.json 500 .spawnThrew]
            else (streamSession (resolveWorkRoot sys p.workRoot) startThrows inputs).trace)

/-! ## Notions used to state the properties of the endpoints -/

/-- A chunk of child output: on stdout (`true`) or on stderr (`false`). -/
abbrev Chunk := Bool × List Byte

/-- The chunk as delivered to the streaming handler while writes succeed. -/
def chunkInput (c : Chunk) : StreamInput :=
  if c.1 then .stdoutData c.2 false else .stderrData c.2 false

/-- The chunk as delivered to `runProcess`. -/
def chunkChildEvent (c : Chunk) : ChildEvent :=
  if c.1 then .stdoutData c.2 else .stderrData c.2

/-- The stream event carrying the chunk decoded on its own. -/
def chunkEvent (c : Chunk) : StreamEvent :=
  if c.1 then .stdout (bufferToString c.2) else .stderr (bufferToString c.2)

/-- The data of the `stdout` events of a list, concatenated in order. -/
def stdoutDataOf : List StreamEvent → Str
  | [] => []
  | .stdout d :: es => d ++ stdoutDataOf es
  | _ :: es => stdoutDataOf es

/-- The data of the `stderr` events of a list, concatenated in order. -/
def stderrDataOf : List StreamEvent → Str
  | [] => []
  | .stderr d :: es => d ++ stderrDataOf es
  | _ :: es => stderrDataOf es

/-- The bytes delivered on one of the two streams, concatenated in order. -/
def streamBytes (isStdout : Bool) : List Chunk → List Byte
  | [] => []
  | c :: cs => if c.1 = isStdout then c.2 ++ streamBytes isStdout cs else streamBytes isStdout cs

/-- An action of the streaming state machine: never a JSON response. -/
def Action.isStreamAction : Action → Bool
  | .write _ => true
  | .endResponse => true
  | .kill _ => true
  | .setTimeoutKill _ _ => true
  | _ => false

/-! ## Notions used to state the properties of the summary parser -/

/-- Key of a token: the text before its first `=`. -/
def tokenKey (t : Str) : Str := t.takeWhile (fun c => c != '=')

/-- Value of a token: the text between its first and its second `=` (up to the
end when there is no second one), absent when the token has no `=`. -/
def tokenValue (t : Str) : Option Str :=
  if '=' ∈ t then some (((t.dropWhile (fun c => c != '=')).drop 1).takeWhile (fun c => c != '='))
  else none

/-- The whitespace-separated tokens after the marker of a SUMMARY line. -/
def summaryTokens (line : Str) : List Str :=
  splitWs (jsTrim (line.drop summaryMarker.length))

/-- The number a field takes from the tokens: that of the value of the last
token with the key, `0` when there is no such token or the value is absent,
not numeric (`NaN`) or zero. -/
def fieldValue (key : Str) (tokens : List Str) : JSNumber :=
  match tokens.reverse.find? (fun t => tokenKey t = key) with
  | none => .int 0
  | some t =>
    match tokenValue t with
    | none => .int 0
    | some v =>
      if stringToNumber v = .nan ∨ stringToNumber v = .negZero then .int 0
      else stringToNumber v

/-- The line `SUMMARY TOTAL=n SUCCESS=s FAILED=f` the Driver prints. -/
def driverSummaryLine (n s f : Nat) : Str :=
  "SUMMARY TOTAL=".toList ++ natToDecimal n ++ " SUCCESS=".toList ++ natToDecimal s
    ++ " FAILED=".toList ++ natToDecimal f

/-- A decimal digit character. -/
def isDecDigit (c : Char) : Bool := 48 ≤ c.toNat && c.toNat ≤ 57

/-- Log lines, each with its terminator (`true` for CRLF, `false` for LF),
as one text. -/
def logText : List (Str × Bool) → Str
  | [] => []
  | (l, crlf) :: rest => l ++ (if crlf then ['\r', '\n'] else ['\n']) ++ logText rest

/-! ## Notions used to compare the two endpoints -/

/-- A `spawn` action. -/
def Action.isSpawn : Action → Bool
  | .spawn _ _ _ => true
  | _ => false

/-- The environment `runProcess(command, args, env)` hands to `spawn`:
`{ ...process.env, ...env }`. -/
def runProcessEnv (sys : Sys) (env : List (Str × Str)) : List (Str × Str) :=
  sys.processEnv ++ env

/-- The `env` object the streaming handler builds before `spawn`:
`process.env` spread first, then the four variables, then the token. -/
def streamHandlerEnv (sys : Sys) (p : RunParams) (token : Str) : List (Str × Str) :=
  sys.processEnv ++
    [("AGENT_FACTORY_COMMAND".toList, p.commandTemplate),
      ("AGENT_FACTORY_CWD".toList, sys.repoRoot),
      ("RUN_TIMEOUT_SECONDS".toList, natToDecimal p.runTimeoutSeconds.toNat),
      ("RUN_HEARTBEAT_SECONDS".toList, "15".toList)] ++
    (if token ≠ [] then [("RAILWAY_TOKEN".toList, token)] else [])

/-- A rejection of the request before anything is started: the 400 response
of the validation, or the exception of a conversion that throws. -/
def Action.isRejection : Action → Bool
  | .json status _ => status == 400
  | .throwTypeError => true
  | _ => false

/-! ## Requirement detection -/

/-- The object `parseRequirements` returns (`Requirements` in `types.ts`). -/
structure Requirements where
  claude_installed : Bool
  codex_installed : Bool
  railway_installed : Bool
  git_installed : Bool
  bun_installed : Bool
  railway_auth : Bool
  railway_auth_source : Str
  provider : Str
  deriving DecidableEq, Repr

/-- `parseBool(value)`: `value === "true"`, for `value` a string or `undefined`. -/
def parseBool : Option Str → Bool
  | some v => v = "true".toList
  | none => false

/-- `parts.join(sep)` for an array of strings. -/
def joinWith (sep : Str) : List Str → Str
  | [] => []
  | [a] => a
  | a :: b :: rest => a ++ sep ++ joinWith sep (b :: rest)

/-- A `Map` from strings to strings, most recent `set` first. -/
abbrev StrMap := List (Str × Str)

/-- `map.get(k)`: the value of the most recent `set` for `k`, or `undefined`. -/
def StrMap.get (m : StrMap) (k : Str) : Option Str :=
  match m with
  | [] => none
  | (k', v) :: rest => if k' = k then some v else StrMap.get rest k

/-- The body of the loop of `parseRequirements` for one line. -/
def setRequirementLine (m : StrMap) (line : Str) : StrMap :=
  let parts := splitOn '=' line
  if parts.length < 2 then m
  else (jsTrim (parts.headD []), jsTrim (joinWith ['='] parts.tail)) :: m

/-- `value || "none"` for `value` the result of `map.get`. -/
def orNoneStr : Option Str → Str
  | some v => if v = [] then "none".toList else v
  | none => "none".toList

/-- `parseRequirements(stdout)`. -/
def parseRequirements (stdout : Str) : Requirements :=
  let map : StrMap := (splitLines stdout).foldl setRequirementLine []
  { claude_installed := parseBool (map.get "CLAUDE_INSTALLED".toList)
    codex_installed := parseBool (map.get "CODEX_INSTALLED".toList)
    railway_installed := parseBool (map.get "RAILWAY_INSTALLED".toList)
    git_installed := parseBool (map.get "GIT_INSTALLED".toList)
    bun_installed := parseBool (map.get "BUN_INSTALLED".toList)
    railway_auth := parseBool (map.get "RAILWAY_AUTH".toList)
    railway_auth_source := orNoneStr (map.get "RAILWAY_AUTH_SOURCE".toList)
    provider := orNoneStr (map.get "PROVIDER".toList) }

/-- Key of a detector line: the trimmed text before its first `=`. -/
def lineKey (line : Str) : Str := jsTrim (line.takeWhile (fun c => c != '='))

/-- Value of a detector line: the trimmed text after its first `=`, further
`=` characters included. -/
def lineValue (line : Str) : Str := jsTrim ((line.dropWhile (fun c => c != '=')).drop 1)

/-- The value of the last line of `text` that has a `=` and whose key is
`key`, if there is one. -/
def lastValue (key : Str) (text : Str) : Option Str :=
  ((splitLines text).reverse.find? (fun l => decide ('=' ∈ l) && decide (lineKey l = key))).map
    lineValue

/-! ## JSON text -/

/-- A value as `JSON.parse` builds it. An object keeps its members in the order
of the text, and reading a property takes the last member of that name (a
repeated name overwrites). Strings are lists of Unicode characters. -/
inductive Json where
  | null
  | bool (b : Bool)
  | num (x : JSNumber)
  | str (s : Str)
  | arr (items : List Json)
  | obj (members : List (Str × Json))

/-- JSON white space: tab, line feed, carriage return and space. -/
def isJsonSpace (c : Char) : Bool := c == '\t' || c == '\n' || c == '\r' || c == ' '

/-- Skip JSON white space. -/
def skipJsonSpace (s : Str) : Str := s.dropWhile isJsonSpace

/-- Value of the four hexadecimal digits of a `\u` escape. -/
def hex4 (a b c d : Char) : Option Nat :=
  match digitIn 16 a, digitIn 16 b, digitIn 16 c, digitIn 16 d with
  | some x, some y, some z, some w => some (((x * 16 + y) * 16 + z) * 16 + w)
  | _, _, _, _ => none

/-- Put a character in front of a parsed string. -/
def consParsed (c : Char) : Option (Str × Str) → Option (Str × Str)
  | some (s, rest) => some (c :: s, rest)
  | none => none

/-- Emit U+FFFD for an escaped high surrogate that stayed without its partner. -/
def flushPending (pending : Option Nat) (r : Option (Str × Str)) : Option (Str × Str) :=
  match pending with
  | some _ => consParsed replacementChar r
  | none => r

/-- The character a simple escape `\e` stands for. -/
def unescapeJsonChar (e : Char) : Option Char :=
  if e = '"' then some '"'
  else if e = '\\' then some '\\'
  else if e = '/' then some '/'
  else if e = 'b' then some (Char.ofNat 8)
  else if e = 'f' then some (Char.ofNat 12)
  else if e = 'n' then some '\n'
  else if e = 'r' then some '\r'
  else if e = 't' then some '\t'
  else none

/-- The character of a `\u` escape with value `u`, after `pending`, in front
of the rest of the string `r`. -/
def unicodeEscape (pending : Option Nat) (u : Nat) (r : Option (Str × Str)) :
    Option (Str × Str) :=
  if 0xDC00 ≤ u ∧ u < 0xE000 then
    match pending with
    | some hi => consParsed (Char.ofNat (0x10000 + (hi - 0xD800) * 0x400 + (u - 0xDC00))) r
    | none => consParsed replacementChar r
  else flushPending pending (consParsed (Char.ofNat u) r)

/-- The characters of a JSON string after its opening quote, with what follows
the closing quote. A raw control character, an unknown escape or a missing
closing quote is an error. `pending` is an escaped high surrogate read just
before: with an escaped low surrogate right after it, it forms one character;
an escaped surrogate without its partner, which a list of characters cannot
hold, is read as U+FFFD. -/
def parseJsonStringAux : Str → Option Nat → Option (Str × Str)
  | [], _ => none
  | c :: rest, p =>
    if c = '"' then flushPending p (some ([], rest))
    else if c = '\\' then
      match rest with
      | [] => none
      | e :: rest1 =>
        if e = 'u' then
          match rest1 with
          | h1 :: h2 :: h3 :: h4 :: rest2 =>
            match hex4 h1 h2 h3 h4 with
            | none => none
            | some u =>
              if 0xD800 ≤ u ∧ u < 0xDC00 then
                flushPending p (parseJsonStringAux rest2 (some u))
              else unicodeEscape p u (parseJsonStringAux rest2 none)
          | _ => none
        else
          match unescapeJsonChar e with
          | some ch => flushPending p (consParsed ch (parseJsonStringAux rest1 none))
          | none => none
    else if c.toNat < 0x20 then none
    else flushPending p (consParsed c (parseJsonStringAux rest none))

/-- The characters of a JSON string after its opening quote, with what follows
the closing quote. -/
def parseJsonString (s : Str) : Option (Str × Str) := parseJsonStringAux s none

/-- A non-empty run of decimal digits. -/
def allDigits (s : Str) : Bool := !s.isEmpty && s.all isDecDigit

/-- The integer part of a JSON number: `0`, or digits not starting with `0`. -/
def isJsonInt (s : Str) : Bool := allDigits s && (s == ['0'] || s.head? != some '0')

/-- The exponent of a JSON number after its `e`: an optional sign and digits. -/
def isJsonExp : Str → Bool
  | '+' :: ds => allDigits ds
  | '-' :: ds => allDigits ds
  | ds => allDigits ds

/-- The JSON number grammar without the sign: an integer part, an optional
fraction with at least one digit, an optional exponent. -/
def isJsonUnsigned (s : Str) : Bool :=
  let me := splitAtFirst (fun c => c == 'e' || c == 'E') s
  let ip := splitAtFirst (fun c => c == '.') me.1
  isJsonInt ip.1 &&
  (match ip.2 with
   | none => true
   | some f => allDigits f) &&
  (match me.2 with
   | none => true
   | some t => isJsonExp t)

/-- A character that can occur in a JSON number. -/
def isJsonNumberChar (c : Char) : Bool :=
  isDecDigit c || c == '-' || c == '+' || c == '.' || c == 'e' || c == 'E'

/-- The value of a JSON number token, `none` when the token is not a JSON
number. -/
def jsonNumber : Str → Option JSNumber
  | [] => none
  | c :: ds =>
    if c = '-' then (if isJsonUnsigned ds then some (parseUnsignedDecimal true ds) else none)
    else if isJsonUnsigned (c :: ds) then some (parseUnsignedDecimal false (c :: ds))
    else none

mutual
/-- A JSON value at the front of the text, with the rest of the text. The
first argument bounds the number of nested calls. -/
def parseValue : Nat → Str → Option (Json × Str)
  | 0, _ => none
  | fuel + 1, cs =>
    match skipJsonSpace cs with
    | [] => none
    | c :: r =>
      if c = '"' then
        match parseJsonString r with
        | some (s, rest) => some (.str s, rest)
        | none => none
      else if c = '{' then
        if (skipJsonSpace r).head? = some '}' then some (.obj [], (skipJsonSpace r).tail)
        else parseMembers fuel [] r
      else if c = '[' then
        if (skipJsonSpace r).head? = some ']' then some (.arr [], (skipJsonSpace r).tail)
        else parseElements fuel [] r
      else if ['t', 'r', 'u', 'e'].isPrefixOf (c :: r) then some (.bool true, (c :: r).drop 4)
      else if ['f', 'a', 'l', 's', 'e'].isPrefixOf (c :: r) then
        some (.bool false, (c :: r).drop 5)
      else if ['n', 'u', 'l', 'l'].isPrefixOf (c :: r) then some (.null, (c :: r).drop 4)
      else
        match jsonNumber ((c :: r).takeWhile isJsonNumberChar) with
        | some x => some (.num x, (c :: r).dropWhile isJsonNumberChar)
        | none => none
/-- The elements of an array after `[` or a comma, up to the closing `]`. -/
def parseElements : Nat → List Json → Str → Option (Json × Str)
  | 0, _, _ => none
  | fuel + 1, acc, cs =>
    match parseValue fuel cs with
    | none => none
    | some (v, r) =>
      match skipJsonSpace r with
      | [] => none
      | c :: rest =>
        if c = ',' then parseElements fuel (acc ++ [v]) rest
        else if c = ']' then some (.arr (acc ++ [v]), rest)
        else none
/-- The members of an object after `{` or a comma, up to the closing `}`. -/
def parseMembers : Nat → List (Str × Json) → Str → Option (Json × Str)
  | 0, _, _ => none
  | fuel + 1, acc, cs =>
    match skipJsonSpace cs with
    | [] => none
    | c :: r =>
      if c = '"' then
        match parseJsonString r with
        | none => none
        | some (k, r1) =>
          match skipJsonSpace r1 with
          | [] => none
          | c1 :: r2 =>
            if c1 = ':' then
              match parseValue fuel r2 with
              | none => none
              | some (v, r3) =>
                match skipJsonSpace r3 with
                | [] => none
                | c3 :: rest =>
                  if c3 = ',' then parseMembers fuel (acc ++ [(k, v)]) rest
                  else if c3 = '}' then some (.obj (acc ++ [(k, v)]), rest)
                  else none
            else none
      else none
end

/-- `JSON.parse(text)`: the value, or `none` when it throws a SyntaxError. -/
def jsonParse (text : Str) : Option Json :=
  match parseValue (2 * text.length + 2) text with
  | some (v, rest) => if skipJsonSpace rest = [] then some v else none
  | none => none

/-- Reading the property `name` of a parsed value (`none` for `undefined`), for
the names the client reads, none of which is inherited. -/
def Json.get (name : Str) : Json → Option Json
  | .obj members => (members.reverse.find? (fun kv => kv.1 = name)).map (fun kv => kv.2)
  | _ => none

/-- Whether the body of the client's loop throws on a line: `JSON.parse` rejects
it, the value is `null` (whose `type` cannot be read), or it is an event of
type `error`, which the client rethrows. -/
def lineThrows (line : Str) : Bool :=
  match jsonParse line with
  | none => true
  | some .null => true
  | some v =>
    match v.get "type".toList with
    | some (.str s) => decide (s = "error".toList)
    | _ => false

/-! ## The client's read loop -/

/-- UTF-8 decoding of one chunk without an end of input: the characters that
are complete, and the state holding a sequence cut by the end of the chunk. -/
def utf8Feed : Utf8State → List Byte → Str × Utf8State
  | st, [] => ([], st)
  | st, b :: bs =>
    if st.needed = 0 then
      ((utf8Lead b.val).1.toList ++ (utf8Feed (utf8Lead b.val).2 bs).1,
        (utf8Feed (utf8Lead b.val).2 bs).2)
    else if st.lower ≤ b.val ∧ b.val ≤ st.upper then
      if st.needed = 1 then
        (Char.ofNat (st.cp * 64 + (b.val - 0x80)) :: (utf8Feed Utf8State.init bs).1,
          (utf8Feed Utf8State.init bs).2)
      else utf8Feed ⟨st.needed - 1, st.cp * 64 + (b.val - 0x80), 0x80, 0xBF⟩ bs
    else
      (replacementChar :: ((utf8Lead b.val).1.toList ++ (utf8Feed (utf8Lead b.val).2 bs).1),
        (utf8Feed (utf8Lead b.val).2 bs).2)

/-- State of `new TextDecoder()` between calls: the UTF-8 state, and whether
the first character has been seen (a byte order mark in first place is
dropped). -/
structure TextDecoder where
  utf8 : Utf8State
  bomSeen : Bool

/-- The decoder as `new TextDecoder()` returns it. -/
def TextDecoder.init : TextDecoder := ⟨Utf8State.init, false⟩

/-- `decoder.decode(value, { stream: true })`: the text decoded from the chunk
and the decoder afterwards. -/
def TextDecoder.decode (d : TextDecoder) (value : List Byte) : Str × TextDecoder :=
  let r := utf8Feed d.utf8 value
  if d.bomSeen then (r.1, ⟨r.2, true⟩)
  else
    match r.1 with
    | [] => ([], ⟨r.2, false⟩)
    | c :: cs => (if c = Char.ofNat 0xFEFF then cs else c :: cs, ⟨r.2, true⟩)

/-- The `for` loop over the complete lines of one read: each line is trimmed, a
blank one is skipped, the others are handed to `JSON.parse` in turn until the
body throws. The result is the lines handed over and whether the body threw. -/
def handLines (throws : Str → Bool) : List Str → List Str × Bool
  | [] => ([], false)
  | rawLine :: rest =>
    if jsTrim rawLine = [] then handLines throws rest
    else if throws (jsTrim rawLine) then ([jsTrim rawLine], true)
    else (jsTrim rawLine :: (handLines throws rest).1, (handLines throws rest).2)

/-- State of the client's read loop: the decoder, `buffer`, the lines handed to
`JSON.parse` so far, and whether the loop was left by an exception. -/
structure ReaderState where
  decoder : TextDecoder
  buffer : Str
  handed : List Str
  thrown : Bool

/-- The state before the first read. -/
def ReaderState.init : ReaderState := ⟨TextDecoder.init, [], [], false⟩

/-- One iteration of the `while` loop for a chunk `value`: decode it onto
`buffer`, split at line feeds, keep the last piece as the new `buffer`, and run
the `for` loop over the pieces before it. After an exception nothing is read. -/
def ReaderState.read (throws : Str → Bool) (s : ReaderState) (value : List Byte) :
    ReaderState :=
  if s.thrown then s
  else
    let d := s.decoder.decode value
    let lines := splitOn '\n' (s.buffer ++ d.1)
    let h := handLines throws lines.dropLast
    { decoder := d.2, buffer := lines.getLast?.getD [],
      handed := s.handed ++ h.1, thrown := h.2 }

/-- The read loop over the chunks of a response body, `throws` telling the
lines on which the loop body throws. -/
def readStream (throws : Str → Bool) (chunks : List (List Byte)) : ReaderState :=
  chunks.foldl (ReaderState.read throws) ReaderState.init

/-- The text a response body decodes to when it is taken in one piece. -/
def decodeBody (body : List Byte) : Str := (TextDecoder.init.decode body).1

/-- The non-blank trimmed lines of a text split at its line feeds at once. -/
def wholeLines (text : Str) : List Str :=
  ((splitOn '\n' text).map jsTrim).filter (fun l => decide (l ≠ []))

/-- The lines up to and including the first one on which the loop body throws. -/
def throughFirstThrow (throws : Str → Bool) : List Str → List Str
  | [] => []
  | l :: ls => if throws l then [l] else l :: throughFirstThrow throws ls

/-! ## JSON.stringify and the NDJSON writer -/

/-- A lower-case hexadecimal digit. -/
def hexDigit (n : Nat) : Char := if n < 10 then Char.ofNat (48 + n) else Char.ofNat (87 + n)

/-- QuoteJSONString for one character: the quote, the backslash and the
control characters are escaped, every other character stands for itself. -/
def escapeJsonChar (c : Char) : Str :=
  if c = '"' then ['\\', '"']
  else if c = '\\' then ['\\', '\\']
  else if c.toNat = 8 then ['\\', 'b']
  else if c.toNat = 9 then ['\\', 't']
  else if c.toNat = 10 then ['\\', 'n']
  else if c.toNat = 12 then ['\\', 'f']
  else if c.toNat = 13 then ['\\', 'r']
  else if c.toNat < 0x20 then
    ['\\', 'u', '0', '0', hexDigit (c.toNat / 16), hexDigit (c.toNat % 16)]
  else [c]

/-- The escaped characters of a string. -/
def escapeJson : Str → Str
  | [] => []
  | c :: cs => escapeJsonChar c ++ escapeJson cs

/-- QuoteJSONString: the string between double quotes, escaped. -/
def quoteJson (s : Str) : Str := '"' :: (escapeJson s ++ ['"'])

/-- Sign, numerator and denominator of a finite number other than zero. -/
def JSNumber.magnitude : JSNumber → Option (Bool × Nat × Nat)
  | .int i => if i = 0 then none else some (decide (i < 0), i.natAbs, 1)
  | .frac neg num k => some (neg, num, 2 ^ k)
  | _ => none

/-- Whether `a / b < 10 ^ n`. -/
def ltPow10 (a b : Nat) (n : Int) : Bool :=
  if 0 ≤ n then decide (a < 10 ^ n.toNat * b) else decide (a * 10 ^ (-n).toNat < b)

/-- The least `n` from `start` on with `a / b < 10 ^ n`. -/
def decadeFrom : Nat → Int → Nat → Nat → Int
  | 0, n, _, _ => n
  | fuel + 1, n, a, b => if ltPow10 a b n then n else decadeFrom fuel (n + 1) a b

/-- The `n` with `10 ^ (n - 1) ≤ a / b < 10 ^ n`, for a value in the range of
the finite doubles. -/
def decade (a b : Nat) : Int := decadeFrom 640 (-324) a b

/-- Numerator and denominator of `(a / b) / 10 ^ q`. -/
def scalePow10 (a b : Nat) (q : Int) : Nat × Nat :=
  if 0 ≤ q then (a, b * 10 ^ q.toNat) else (a * 10 ^ (-q).toNat, b)

/-- The conditions of Number::toString on the digits `s` of `x`: `s` has `k`
digits and the Number value of `± s × 10 ^ q` is `x`. -/
def isDigitsOf (x : JSNumber) (neg : Bool) (k s : Nat) (q : Int) : Bool :=
  decide (10 ^ (k - 1) ≤ s) && decide (s < 10 ^ k) && decide (fromDecimal neg s q = x)

/-- The `k`-digit decimal for `x = ± a / b` in the decade `n`, if there is one:
of the two `k`-digit decimals around `a / b` the one that is closer (the even
one when they are as close) among those whose Number value is `x`. -/
def digitsWith (x : JSNumber) (neg : Bool) (a b : Nat) (n : Int) (k : Nat) :
    Option (Nat × Int) :=
  let q : Int := n - (k : Int)
  let sc := scalePow10 a b q
  let lo := sc.1 / sc.2
  let r := sc.1 % sc.2
  let hi : Nat × Int := if lo + 1 = 10 ^ k then (10 ^ (k - 1), q + 1) else (lo + 1, q)
  if isDigitsOf x neg k lo q && isDigitsOf x neg k hi.1 hi.2 then
    if 2 * r < sc.2 then some (lo, q)
    else if sc.2 < 2 * r then some hi
    else if lo % 2 = 0 then some (lo, q) else some hi
  else if isDigitsOf x neg k lo q then some (lo, q)
  else if isDigitsOf x neg k hi.1 hi.2 then some hi
  else none

/-- The decimal with the fewest digits, trying `k`, `k + 1`, ... digits. -/
def shortestFrom (x : JSNumber) (neg : Bool) (a b : Nat) (n : Int) :
    Nat → Nat → Option (Nat × Int)
  | 0, _ => none
  | fuel + 1, k =>
    match digitsWith x neg a b n k with
    | some r => some r
    | none => shortestFrom x neg a b n fuel (k + 1)

/-- The digits `s` and the exponent `q` of Number::toString: `s × 10 ^ q` is the
decimal with the fewest digits whose Number value is `x` (`none` for a zero, a
value that is not finite, or one that is not a double). -/
def shortestDigits (x : JSNumber) : Option (Nat × Int) :=
  match x.magnitude with
  | some (neg, a, b) => shortestFrom x neg a b (decade a b) 1100 1
  | none => none

/-- The layout of Number::toString for the digits `ds` of a value in the
decade `n`: plain digits for `n` up to 21, a leading `0.` down to `1e-6`,
exponent notation outside. -/
def formatDecimal (ds : Str) (n : Int) : Str :=
  if (ds.length : Int) ≤ n ∧ n ≤ 21 then ds ++ List.replicate (n - ds.length).toNat '0'
  else if 0 < n ∧ n ≤ 21 then ds.take n.toNat ++ '.' :: ds.drop n.toNat
  else if -6 < n ∧ n ≤ 0 then '0' :: '.' :: (List.replicate (-n).toNat '0' ++ ds)
  else
    match ds with
    | [] => []
    | [d] => d :: 'e' :: (if 0 ≤ n - 1 then '+' else '-') :: natToDecimal (n - 1).natAbs
    | d :: rest =>
      d :: '.' :: (rest ++ 'e' :: (if 0 ≤ n - 1 then '+' else '-') ::
        natToDecimal (n - 1).natAbs)

/-- Number::toString with radix 10: `String(x)`. -/
def numberToString (x : JSNumber) : Str :=
  match x with
  | .nan => "NaN".toList
  | .posInf => "Infinity".toList
  | .negInf => "-Infinity".toList
  | .negZero => ['0']
  | _ =>
    match x.magnitude, shortestDigits x with
    | none, _ => ['0']
    | some (neg, _, _), some (s, q) =>
      (if neg then ['-'] else []) ++
        formatDecimal (natToDecimal s) (q + (natToDecimal s).length)
    | some _, none => "NaN".toList

/-- Whether a number is finite. -/
def JSNumber.isFinite : JSNumber → Bool
  | .nan => false
  | .posInf => false
  | .negInf => false
  | _ => true

mutual
/-- `JSON.stringify(value)` without indentation: a number that is not finite
becomes `null`, members and items are separated by commas. -/
def Json.stringify : Json → Str
  | .null => "null".toList
  | .bool b => if b then "true".toList else "false".toList
  | .num x => if x.isFinite then numberToString x else "null".toList
  | .str s => quoteJson s
  | .arr items => '[' :: (stringifyItems items ++ [']'])
  | .obj members => '{' :: (stringifyMembers members ++ ['}'])
/-- The items of an array, separated by commas. -/
def stringifyItems : List Json → Str
  | [] => []
  | [v] => v.stringify
  | v :: w :: rest => v.stringify ++ ',' :: stringifyItems (w :: rest)
/-- The members of an object, separated by commas. -/
def stringifyMembers : List (Str × Json) → Str
  | [] => []
  | [(k, v)] => quoteJson k ++ ':' :: v.stringify
  | (k, v) :: m :: rest => quoteJson k ++ ':' :: (v.stringify ++ ',' :: stringifyMembers (m :: rest))
end

/-- The object `parseSummary` returns. -/
def BatchSummary.toJson (s : BatchSummary) : Json :=
  .obj [("total".toList, .num s.total), ("success".toList, .num s.success),
    ("failed".toList, .num s.failed)]

/-- The payload object the stream handler builds for an event, with its
properties in the order of the object literal. -/
def StreamEvent.toJson : StreamEvent → Json
  | .start work_root => .obj [("type".toList, .str "start".toList),
      ("work_root".toList, .str work_root)]
  | .stdout data => .obj [("type".toList, .str "stdout".toList), ("data".toList, .str data)]
  | .stderr data => .obj [("type".toList, .str "stderr".toList), ("data".toList, .str data)]
  | .error message => .obj [("type".toList, .str "error".toList),
      ("error".toList, .str message)]
  | .finish r => .obj [("type".toList, .str "end".toList), ("ok".toList, .bool r.ok),
      ("exit_code".toList, .num (.int r.exit_code)), ("stdout".toList, .str r.stdout),
      ("stderr".toList, .str r.stderr), ("summary".toList, r.summary.toJson),
      ("work_root".toList, .str r.work_root)]

/-- What `writeNdjson(res, payload)` writes: the JSON text and a line feed. -/
def writeNdjson (payload : Json) : Str := payload.stringify ++ ['\n']

/-- The client's decoding of a line: `JSON.parse(rawLine.trim())`. -/
def decodeLine (rawLine : Str) : Option Json := jsonParse (jsTrim rawLine)

/-- A finite double other than `-0`: an integer below `2 ^ 1024` with at most
53 significant bits, or an odd multiple of `2 ^ (-k)` with at most 53 bits and
`k ≤ 1074`. -/
def JSNumber.isPlainDouble : JSNumber → Bool
  | .int i =>
    decide (i.natAbs < 2 ^ 1024) &&
      (decide (i.natAbs < 2 ^ 53) || decide (i.natAbs % 2 ^ (bitLen i.natAbs - 53) = 0))
  | .frac _ num k => decide (num % 2 = 1) && decide (num < 2 ^ 53) && decide (1 ≤ k) &&
      decide (k ≤ 1074)
  | _ => false

/-- The mantissa text with integer part `ip` and, when there is one, fraction
`f`. -/
def mantText (ip : Str) : Option Str → Str
  | none => ip
  | some f => ip ++ '.' :: f

/-- A decimal literal with integer part `ip`, optional fraction and optional
exponent text (after the `e`). -/
def bodyText (ip : Str) (fo : Option Str) : Option Str → Str
  | none => mantText ip fo
  | some t => mantText ip fo ++ 'e' :: t

/-- A string, a boolean, or a finite double other than `-0`. -/
def Json.isFlat : Json → Bool
  | .str _ => true
  | .bool _ => true
  | .num x => x.isPlainDouble
  | _ => false

/-- The numbers of an event are finite doubles other than `-0`. -/
def StreamEvent.numbersFinite : StreamEvent → Bool
  | .finish r =>
    (JSNumber.int r.exit_code).isPlainDouble && r.summary.total.isPlainDouble &&
      r.summary.success.isPlainDouble && r.summary.failed.isPlainDouble
  | _ => true

/-- Whether a parsed value is `null`. -/
def Json.isNull : Json → Bool
  | .null => true
  | _ => false

/-! # Properties -/

/-! ## Facts about line splitting -/

theorem consHead_ne_nil (c : Char) (ls : List Str) : consHead c ls ≠ [] := by
  cases ls <;> simp [consHead]

theorem splitLines_ne_nil (s : Str) : splitLines s ≠ [] := by
  induction s using splitLines.induct <;> simp_all [splitLines, consHead_ne_nil]

theorem mem_consHead {c : Char} {ls : List Str} {l : Str} (h : l ∈ consHead c ls) :
    l = [c] ∨ (∃ l', l = c :: l' ∧ l' ∈ ls) ∨ l ∈ ls := by
  cases ls with
  | nil => simp [consHead] at h; exact Or.inl h
  | cons a as =>
    simp only [consHead, List.mem_cons] at h
    rcases h with h | h
    · exact Or.inr (Or.inl ⟨a, h, List.mem_cons_self _ _⟩)
    · exact Or.inr (Or.inr (List.mem_cons_of_mem _ h))

/-- No line produced by `splitLines` contains a line feed. -/
theorem newline_not_mem_of_mem_splitLines (s : Str) :
    ∀ l ∈ splitLines s, '\n' ∉ l := by
  induction s using splitLines.induct with
  | case1 => simp [splitLines]
  | case2 rest ih =>
    intro l hl
    simp only [splitLines, List.mem_cons] at hl
    rcases hl with rfl | hl
    · simp
    · exact ih l hl
  | case3 rest ih =>
    intro l hl
    simp only [splitLines, List.mem_cons] at hl
    rcases hl with rfl | hl
    · simp
    · exact ih l hl
  | case4 c rest h1 h2 ih =>
    intro l hl
    rw [splitLines] at hl
    · rcases mem_consHead hl with rfl | ⟨l', rfl, hl'⟩ | hl'
      · intro hc
        simp at hc
        exact h2 hc.symm
      · intro hc
        rcases List.mem_cons.1 hc with hc | hc
        · exact h2 hc.symm
        · exact ih l' hl' hc
      · exact ih l hl'
    · intro r hr hr2; exact h1 r hr hr2
    · intro hr; exact h2 hr

/-- A string without line feed is a single line. -/
theorem splitLines_of_no_newline (l : Str) (h : '\n' ∉ l) : splitLines l = [l] := by
  induction l using splitLines.induct with
  | case1 => simp [splitLines]
  | case2 rest ih => simp at h
  | case3 rest ih => simp at h
  | case4 c rest h1 h2 ih =>
    rw [splitLines]
    · rw [ih (fun hc => h (List.mem_cons_of_mem _ hc))]
      simp [consHead]
    · intro r hr hr2; exact h1 r hr hr2
    · intro hr; exact h2 hr

/-- The scan from the end returns the last line that starts with the marker. -/
theorem find_last_marker (before after : List Str) (line : Str)
    (hline : summaryMarker.isPrefixOf line = true)
    (hafter : ∀ l ∈ after, summaryMarker.isPrefixOf l = false) :
    (before ++ line :: after).reverse.find? (fun l => summaryMarker.isPrefixOf l)
      = some line := by
  rw [List.reverse_append, List.reverse_cons, List.append_assoc, List.find?_append]
  have h1 : after.reverse.find? (fun l => summaryMarker.isPrefixOf l) = none := by
    rw [List.find?_eq_none]
    intro l hl
    simp [hafter l (List.mem_reverse.1 hl)]
  rw [h1]
  simp [hline]

theorem parseSummary_of_split (text : Str) (before after : List Str) (line : Str)
    (hsplit : splitLines text = before ++ line :: after)
    (hline : summaryMarker.isPrefixOf line = true)
    (hafter : ∀ l ∈ after, summaryMarker.isPrefixOf l = false) :
    parseSummary text = parseSummaryLine line := by
  unfold parseSummary
  rw [hsplit, find_last_marker before after line hline hafter]

theorem parseSummary_of_marker_line (line : Str) (hnl : '\n' ∉ line)
    (hline : summaryMarker.isPrefixOf line = true) :
    parseSummary line = parseSummaryLine line :=
  parseSummary_of_split line [] [] line
    (by simpa using splitLines_of_no_newline line hnl) hline (by simp)

/-! ## C3, C4: the last marker line decides -/

theorem exists_last_marker (lines : List Str)
    (h : ∃ l ∈ lines, summaryMarker.isPrefixOf l = true) :
    ∃ (before : List Str) (line : Str) (after : List Str),
      lines = before ++ line :: after ∧ summaryMarker.isPrefixOf line = true ∧
      ∀ l ∈ after, summaryMarker.isPrefixOf l = false := by
  induction lines with
  | nil => simp at h
  | cons a as ih =>
    by_cases hex : ∃ l ∈ as, summaryMarker.isPrefixOf l = true
    · obtain ⟨before, line, after, h1, h2, h3⟩ := ih hex
      exact ⟨a :: before, line, after, by rw [h1]; rfl, h2, h3⟩
    · have ha : summaryMarker.isPrefixOf a = true := by
        obtain ⟨l, hl, hp⟩ := h
        rcases List.mem_cons.1 hl with rfl | hl
        · exact hp
        · exact absurd ⟨l, hl, hp⟩ hex
      refine ⟨[], a, as, rfl, ha, ?_⟩
      intro l hl
      cases hp : summaryMarker.isPrefixOf l with
      | false => rfl
      | true => exact absurd ⟨l, hl, hp⟩ hex

/-- C3: a text with at least one line that starts with the SUMMARY marker has
a last such line, and `parseSummary` of the text is `parseSummary` of that
line alone: whenever the lines of `text` are `before ++ line :: after`, `line`
starts with the marker and no line of `after` does, the result is that of
`line`, whatever comes before it (earlier SUMMARY lines included) and whatever
non-marker lines come after it. -/
theorem parseSummary_eq_last_marker_line (text : Str)
    (h : ∃ l ∈ splitLines text, summaryMarker.isPrefixOf l = true) :
    (∃ (before : List Str) (line : Str) (after : List Str),
      splitLines text = before ++ line :: after ∧ summaryMarker.isPrefixOf line = true ∧
      ∀ l ∈ after, summaryMarker.isPrefixOf l = false) ∧
    (∀ (before : List Str) (line : Str) (after : List Str),
      splitLines text = before ++ line :: after → summaryMarker.isPrefixOf line = true →
      (∀ l ∈ after, summaryMarker.isPrefixOf l = false) →
      parseSummary text = parseSummary line) := by
  refine ⟨exists_last_marker _ h, ?_⟩
  intro before line after hsplit hline hafter
  have hmem : line ∈ splitLines text := by rw [hsplit]; simp
  rw [parseSummary_of_split text before after line hsplit hline hafter,
    parseSummary_of_marker_line line
      (newline_not_mem_of_mem_splitLines text line hmem) hline]

theorem parseSummary_eq_last_marker_line_witness :
    parseSummary "SUMMARY TOTAL=9 SUCCESS=9\nlog\r\nSUMMARY TOTAL=2 FAILED=1\nbye\n".toList
      = parseSummary "SUMMARY TOTAL=2 FAILED=1".toList :=
  (parseSummary_eq_last_marker_line
    "SUMMARY TOTAL=9 SUCCESS=9\nlog\r\nSUMMARY TOTAL=2 FAILED=1\nbye\n".toList
    ⟨"SUMMARY TOTAL=2 FAILED=1".toList, by decide, by decide⟩).2
    ["SUMMARY TOTAL=9 SUCCESS=9".toList, "log".toList] "SUMMARY TOTAL=2 FAILED=1".toList
    ["bye".toList, []] (by decide) (by decide) (by decide)

/-- C4: a text none of whose lines starts with the SUMMARY marker (the empty
text included) parses to the zero summary `{total: 0, success: 0, failed: 0}`. -/
theorem parseSummary_no_marker (text : Str)
    (h : ∀ l ∈ splitLines text, summaryMarker.isPrefixOf l = false) :
    parseSummary text = { total := .int 0, success := .int 0, failed := .int 0 } := by
  unfold parseSummary
  have h1 : (splitLines text).reverse.find? (fun l => summaryMarker.isPrefixOf l)
      = none := by
    rw [List.find?_eq_none]
    intro l hl
    simp [h l (List.mem_reverse.1 hl)]
  rw [h1]
  rfl

theorem parseSummary_no_marker_witness :
    parseSummary [] = { total := .int 0, success := .int 0, failed := .int 0 } ∧
    parseSummary "boom\n  SUMMARY TOTAL=3\nsummary total=1\n".toList
      = { total := .int 0, success := .int 0, failed := .int 0 } :=
  ⟨parseSummary_no_marker [] (by decide), parseSummary_no_marker _ (by decide)⟩

/-! ## C5: the fields of the selected line -/

theorem replaceFirst_of_isPrefixOf (pat rep s : Str) (h : pat.isPrefixOf s = true) :
    replaceFirst pat rep s = rep ++ s.drop pat.length := by
  cases s with
  | nil =>
    cases pat with
    | nil => simp [replaceFirst]
    | cons a as => simp [List.isPrefixOf] at h
  | cons c cs => simp [replaceFirst, h]

theorem splitOn_ne_nil (sep : Char) (s : Str) : splitOn sep s ≠ [] := by
  induction s with
  | nil => simp [splitOn]
  | cons c cs ih =>
    simp only [splitOn]
    split
    · simp
    · exact consHead_ne_nil _ _

theorem headD_consHead (c : Char) (ls : List Str) (h : ls ≠ []) :
    (consHead c ls).headD [] = c :: ls.headD [] := by
  cases ls with
  | nil => exact absurd rfl h
  | cons a as => simp [consHead]

theorem tail_consHead (c : Char) (ls : List Str) (h : ls ≠ []) :
    (consHead c ls).tail = ls.tail := by
  cases ls with
  | nil => exact absurd rfl h
  | cons a as => simp [consHead]

theorem splitOn_headD (s : Str) : (splitOn '=' s).headD [] = tokenKey s := by
  induction s with
  | nil => simp [splitOn, tokenKey]
  | cons c cs ih =>
    simp only [splitOn, tokenKey]
    by_cases hc : c = '='
    · simp [hc]
    · rw [if_neg hc, headD_consHead _ _ (splitOn_ne_nil _ _), ih]
      simp [tokenKey, List.takeWhile_cons, hc]

theorem splitOn_second (s : Str) : (splitOn '=' s).tail.head? = tokenValue s := by
  induction s with
  | nil => simp [splitOn, tokenValue]
  | cons c cs ih =>
    simp only [splitOn]
    by_cases hc : c = '='
    · subst hc
      have h := splitOn_headD cs
      have hne := splitOn_ne_nil '=' cs
      simp only [if_true, List.tail_cons, tokenValue, List.mem_cons, true_or]
      cases hsp : splitOn '=' cs with
      | nil => exact absurd hsp hne
      | cons a as =>
        rw [hsp] at h
        simp at h
        simp [List.dropWhile_cons, h, tokenKey]
    · rw [if_neg hc, tail_consHead _ _ (splitOn_ne_nil _ _), ih]
      have hc' : ('=' : Char) ≠ c := fun h => hc h.symm
      simp [tokenValue, List.dropWhile_cons, hc, hc']

theorem setChunk_eq (m : NumMap) (t : Str) :
    setChunk m t = (tokenKey t, numberOfOptStr (tokenValue t)) :: m := by
  show (_, _) :: m = _
  rw [splitOn_headD, splitOn_second]

theorem foldl_setChunk (tokens : List Str) (m : NumMap) :
    tokens.foldl setChunk m
      = (tokens.reverse.map fun t => (tokenKey t, numberOfOptStr (tokenValue t))) ++ m := by
  induction tokens generalizing m with
  | nil => simp
  | cons t ts ih => simp [ih, setChunk_eq]

theorem get_map_tokens (key : Str) (l : List Str) :
    NumMap.get (l.map fun t => (tokenKey t, numberOfOptStr (tokenValue t))) key
      = (l.find? (fun t => tokenKey t = key)).map
          (fun t => numberOfOptStr (tokenValue t)) := by
  induction l with
  | nil => simp [NumMap.get]
  | cons t ts ih =>
    simp only [List.map_cons, NumMap.get, List.find?_cons]
    by_cases h : tokenKey t = key
    · simp [h]
    · simp [h, ih]

theorem orZero_ne_nan (x : Option JSNumber) : orZero x ≠ .nan := by
  cases x with
  | none => simp [orZero]
  | some v =>
    cases v <;> simp [orZero, JSNumber.truthy]
    split <;> simp

theorem truthy_iff (x : JSNumber) :
    x.truthy = true ↔ ¬ (x = .nan ∨ x = .negZero ∨ x = .int 0) := by
  cases x <;> simp [JSNumber.truthy]

theorem orZero_get_tokens (key : Str) (tokens : List Str) :
    orZero (NumMap.get (tokens.foldl setChunk []) key) = fieldValue key tokens := by
  rw [foldl_setChunk, List.append_nil, get_map_tokens]
  unfold fieldValue
  cases tokens.reverse.find? (fun t => tokenKey t = key) with
  | none => simp [orZero]
  | some t =>
    simp only [Option.map_some', orZero]
    cases hv : tokenValue t with
    | none => simp [numberOfOptStr, JSNumber.truthy]
    | some v =>
      simp only [numberOfOptStr]
      by_cases ht : (stringToNumber v).truthy = true
      · have h := (truthy_iff _).1 ht
        rw [if_pos ht, if_neg (fun hh => h (hh.elim Or.inl (fun h2 => Or.inr (Or.inl h2))))]
      · rw [if_neg ht]
        have h : stringToNumber v = .nan ∨ stringToNumber v = .negZero
            ∨ stringToNumber v = .int 0 := by
          by_contra hcon
          exact ht ((truthy_iff _).2 hcon)
        rcases h with h | h | h
        · rw [if_pos (Or.inl h)]
        · rw [if_pos (Or.inr h)]
        · rw [h]; simp

theorem parseSummaryLine_eq (line : Str) (hline : summaryMarker.isPrefixOf line = true) :
    parseSummaryLine line =
      { total := fieldValue "TOTAL".toList (summaryTokens line)
        success := fieldValue "SUCCESS".toList (summaryTokens line)
        failed := fieldValue "FAILED".toList (summaryTokens line) } := by
  unfold parseSummaryLine
  simp only [replaceFirst_of_isPrefixOf _ _ _ hline, List.nil_append, orZero_get_tokens]
  rfl

theorem fieldValue_ne_nan (key : Str) (tokens : List Str) :
    fieldValue key tokens ≠ .nan := by
  unfold fieldValue
  split
  · simp
  · split
    · simp
    · split
      · simp
      · rename_i h
        exact fun hn => h (Or.inl hn)

theorem fieldValue_filter (key : Str) (tokens : List Str) :
    fieldValue key (tokens.filter (fun t => tokenKey t = key)) = fieldValue key tokens := by
  unfold fieldValue
  rw [← List.filter_reverse, List.find?_filter]
  simp

theorem not_space_of_mem_consHead {c : Char} {ls : List Str} (hc : isJsSpace c = false)
    (h : ∀ l ∈ ls, ∀ x ∈ l, isJsSpace x = false) :
    ∀ l ∈ consHead c ls, ∀ x ∈ l, isJsSpace x = false := by
  intro l hl x hx
  rcases mem_consHead hl with rfl | ⟨l', rfl, hl'⟩ | hl'
  · simp at hx; rw [hx]; exact hc
  · rcases List.mem_cons.1 hx with rfl | hx
    · exact hc
    · exact h l' hl' x hx
  · exact h l hl' x hx

/-- The pieces of `split(/\s+/)` contain no whitespace. -/
theorem not_space_of_mem_splitWsAux (b : Bool) (s : Str) :
    ∀ l ∈ splitWsAux b s, ∀ x ∈ l, isJsSpace x = false := by
  induction s generalizing b with
  | nil => simp [splitWsAux]
  | cons c cs ih =>
    simp only [splitWsAux]
    by_cases hc : isJsSpace c = true
    · rw [if_pos hc]
      cases b
      · intro l hl
        simp only [Bool.false_eq_true, if_false, List.mem_cons] at hl
        rcases hl with rfl | hl
        · simp
        · exact ih true l hl
      · simpa using ih true
    · rw [if_neg hc]
      exact not_space_of_mem_consHead (by simpa using hc) (ih false)

/-- C5 (amended): for the selected SUMMARY line (the last line of `text` that
starts with the marker), the tokens after the marker are separated by
whitespace, and each of `total`, `success`, `failed` is set on its own: it is
the number read from the value of the LAST token whose key (the text before the
first `=`) is TOTAL, SUCCESS or FAILED, the value being the text between the
token's first and second `=`; it is `0` when no token has the key or that value
is absent, not numeric or zero. The field depends only on the tokens that have
its key, whatever the other tokens are, and is never `NaN`. -/
theorem parseSummary_fields (text : Str) (before after : List Str) (line : Str)
    (hsplit : splitLines text = before ++ line :: after)
    (hline : summaryMarker.isPrefixOf line = true)
    (hafter : ∀ l ∈ after, summaryMarker.isPrefixOf l = false) :
    parseSummary text =
      { total := fieldValue "TOTAL".toList (summaryTokens line)
        success := fieldValue "SUCCESS".toList (summaryTokens line)
        failed := fieldValue "FAILED".toList (summaryTokens line) } ∧
    (∀ t ∈ summaryTokens line, ∀ c ∈ t, isJsSpace c = false) ∧
    (∀ key tokens, fieldValue key (tokens.filter (fun t => tokenKey t = key))
        = fieldValue key tokens) ∧
    (parseSummary text).total ≠ .nan ∧ (parseSummary text).success ≠ .nan ∧
    (parseSummary text).failed ≠ .nan := by
  have h := parseSummary_of_split text before after line hsplit hline hafter
  rw [parseSummaryLine_eq line hline] at h
  refine ⟨h, not_space_of_mem_splitWsAux false _, fieldValue_filter, ?_, ?_, ?_⟩
  · rw [h]; exact fieldValue_ne_nan _ _
  · rw [h]; exact fieldValue_ne_nan _ _
  · rw [h]; exact fieldValue_ne_nan _ _

theorem parseSummary_fields_witness :
    parseSummary "log\nSUMMARY FAILED=x  EXTRA=1 TOTAL=4 SUCCESS\n".toList =
      { total := fieldValue "TOTAL".toList
          ["FAILED=x".toList, "EXTRA=1".toList, "TOTAL=4".toList, "SUCCESS".toList]
        success := fieldValue "SUCCESS".toList
          ["FAILED=x".toList, "EXTRA=1".toList, "TOTAL=4".toList, "SUCCESS".toList]
        failed := fieldValue "FAILED".toList
          ["FAILED=x".toList, "EXTRA=1".toList, "TOTAL=4".toList, "SUCCESS".toList] } ∧
    parseSummary "log\nSUMMARY FAILED=x  EXTRA=1 TOTAL=4 SUCCESS\n".toList =
      { total := .int 4, success := .int 0, failed := .int 0 } :=
  ⟨(parseSummary_fields "log\nSUMMARY FAILED=x  EXTRA=1 TOTAL=4 SUCCESS\n".toList
      ["log".toList] [[]] "SUMMARY FAILED=x  EXTRA=1 TOTAL=4 SUCCESS".toList
      (by decide) (by decide) (by decide)).1, by decide⟩

/-- C5 as stated fails when a key occurs twice or a value holds a further `=`:
in `SUMMARY TOTAL=5 TOTAL=x` the key TOTAL is present with the numeric value 5
and `total` is 0; swapping the two tokens of `SUMMARY TOTAL=1 TOTAL=2` changes
`total`; and in `SUMMARY TOTAL=7=8` the value `7=8` is not numeric and `total`
is 7. -/
theorem parseSummary_fields_counterexample :
    stringToNumber "5".toList = .int 5 ∧
    (parseSummary "SUMMARY TOTAL=5 TOTAL=x".toList).total = .int 0 ∧
    (parseSummary "SUMMARY TOTAL=1 TOTAL=2".toList).total = .int 2 ∧
    (parseSummary "SUMMARY TOTAL=2 TOTAL=1".toList).total = .int 1 ∧
    stringToNumber "7=8".toList = .nan ∧
    (parseSummary "SUMMARY TOTAL=7=8".toList).total = .int 7 := by
  decide

/-! ## C6: the Driver's final line -/

theorem isDecDigit_ofNat (d : Nat) (h : d < 10) : isDecDigit (Char.ofNat (48 + d)) = true := by
  interval_cases d <;> decide

theorem digitIn_ofNat (d : Nat) (h : d < 10) : digitIn 10 (Char.ofNat (48 + d)) = some d := by
  interval_cases d <;> decide

theorem natDigitsAux_spec (fuel : Nat) : ∀ (n : Nat) (acc : Str), n < fuel →
    (∃ ds : Str, ds ≠ [] ∧ (∀ c ∈ ds, isDecDigit c = true) ∧
      natDigitsAux fuel n acc = ds ++ acc ∧
      ∀ a rest, digitsVal 10 (ds ++ rest) a
        = digitsVal 10 rest (a * 10 ^ ds.length + n)) := by
  induction fuel with
  | zero => intro n acc h; omega
  | succ fuel ih =>
    intro n acc h
    have hd : n % 10 < 10 := Nat.mod_lt _ (by norm_num)
    by_cases h0 : n / 10 = 0
    · refine ⟨[Char.ofNat (48 + n % 10)], by simp, ?_, ?_, ?_⟩
      · intro c hc
        simp only [List.mem_singleton] at hc
        rw [hc]; exact isDecDigit_ofNat _ hd
      · simp [natDigitsAux, h0]
      · intro a rest
        have hn : n % 10 = n := by omega
        have hdn := digitIn_ofNat _ hd
        rw [hn] at hdn ⊢
        simp [digitsVal, hdn]
    · have hlt : n / 10 < fuel := by omega
      obtain ⟨ds, hne, hdig, heq, hval⟩ := ih (n / 10) (Char.ofNat (48 + n % 10) :: acc) hlt
      refine ⟨ds ++ [Char.ofNat (48 + n % 10)], by simp, ?_, ?_, ?_⟩
      · intro c hc
        rcases List.mem_append.1 hc with hc | hc
        · exact hdig c hc
        · simp only [List.mem_singleton] at hc
          rw [hc]; exact isDecDigit_ofNat _ hd
      · simp [natDigitsAux, h0, heq]
      · intro a rest
        rw [List.append_assoc, hval]
        simp only [List.singleton_append, digitsVal, digitIn_ofNat _ hd, List.length_append,
          List.length_singleton]
        congr 1
        have : n / 10 * 10 + n % 10 = n := by omega
        rw [pow_succ]
        nlinarith [this]

theorem natToDecimal_spec (n : Nat) :
    natToDecimal n ≠ [] ∧ (∀ c ∈ natToDecimal n, isDecDigit c = true) ∧
    digitsVal 10 (natToDecimal n) 0 = some n := by
  obtain ⟨ds, hne, hdig, heq, hval⟩ := natDigitsAux_spec (n + 1) n [] (Nat.lt_succ_self n)
  have h : natToDecimal n = ds := by simpa [natToDecimal] using heq
  rw [h]
  refine ⟨hne, hdig, ?_⟩
  have := hval 0 []
  simpa [digitsVal] using this

theorem bitLenAux_spec (fuel : Nat) : ∀ n : Nat, n ≤ fuel → 0 < n →
    2 ^ (bitLenAux fuel n - 1) ≤ n ∧ n < 2 ^ bitLenAux fuel n ∧ 1 ≤ bitLenAux fuel n := by
  induction fuel with
  | zero => intro n h h0; omega
  | succ fuel ih =>
    intro n h h0
    have hn0 : n ≠ 0 := by omega
    simp only [bitLenAux, if_neg hn0]
    by_cases h2 : n / 2 = 0
    · have h1 : n = 1 := by omega
      subst h1
      cases fuel <;> simp [bitLenAux]
    · obtain ⟨ha, hb, hc⟩ := ih (n / 2) (by omega) (by omega)
      refine ⟨?_, ?_, by omega⟩
      · have : bitLenAux fuel (n / 2) + 1 - 1 = (bitLenAux fuel (n / 2) - 1) + 1 := by omega
        rw [this, pow_succ]
        omega
      · rw [pow_succ]
        omega

theorem bitLen_spec (n : Nat) (h0 : 0 < n) :
    2 ^ (bitLen n - 1) ≤ n ∧ n < 2 ^ bitLen n ∧ 1 ≤ bitLen n :=
  bitLenAux_spec n n (le_refl n) h0

theorem normDyadic_mul_pow (neg : Bool) (k : Nat) : ∀ n : Nat,
    normDyadic neg (n * 2 ^ k) k = .int (signedInt neg n) := by
  induction k with
  | zero => intro n; simp [normDyadic]
  | succ k ih =>
    intro n
    have h1 : n * 2 ^ (k + 1) % 2 = 0 := by
      rw [pow_succ, ← Nat.mul_assoc]; exact Nat.mul_mod_left _ _
    have h2 : n * 2 ^ (k + 1) / 2 = n * 2 ^ k := by
      rw [pow_succ, ← Nat.mul_assoc]; exact Nat.mul_div_cancel _ (by norm_num)
    simp only [normDyadic, h1, if_true, h2, ih]

theorem roundHalfEven_one (n : Nat) : roundHalfEven n 1 = n := by
  simp [roundHalfEven, Nat.mod_one]

set_option exponentiation.threshold 2000 in
/-- Every natural number up to `2 ^ 53` is its own Number value. -/
theorem roundToDouble_nat (n : Nat) (h : n ≤ 2 ^ 53) :
    roundToDouble false n 1 = .int (n : Int) := by
  rcases Nat.eq_zero_or_pos n with h0 | h0
  · subst h0; rfl
  rcases Nat.eq_or_lt_of_le h with h53 | h53
  · subst h53; decide
  obtain ⟨ha, hb, hc⟩ := bitLen_spec n h0
  have hL : bitLen n ≤ 53 := by
    by_contra hcon
    have : 2 ^ 53 ≤ 2 ^ (bitLen n - 1) :=
      Nat.pow_le_pow_right (by norm_num) (by omega)
    omega
  have hb1 : bitLen 1 = 1 := by decide
  have hn0 : ¬ (n = 0 ∨ (1 : Nat) = 0) := by omega
  obtain ⟨L, hLdef⟩ : ∃ L, bitLen n = L + 1 := ⟨bitLen n - 1, by omega⟩
  rw [hLdef] at ha hb hL
  simp only [Nat.add_sub_cancel] at ha
  unfold roundToDouble
  rw [if_neg hn0]
  simp only [hb1, hLdef]
  have he0 : ((L + 1 : Nat) : Int) - ((1 : Nat) : Int) = (L : Int) := by push_cast; ring
  rw [he0]
  have hsc : scalePow2 n 1 (L : Int) = (n, 2 ^ L) := by
    simp [scalePow2]
  simp only [hsc, if_pos ha]
  have hp : max ((L : Int) - 52) (-1074) = (L : Int) - 52 := by
    apply max_eq_left; omega
  rw [hp]
  by_cases hL52 : L = 52
  · subst hL52
    have hsc0 : scalePow2 n 1 (((52 : Nat) : Int) - 52) = (n, 1) := by
      simp [scalePow2]
    simp only [hsc0, roundHalfEven_one]
    have h1 : ¬ (n = 0) := by omega
    have h2 : ¬ (2 ^ 1024 ≤ n * 2 ^ (((52 : Nat) : Int) - 52).toNat) := by
      have : (((52 : Nat) : Int) - 52).toNat = 0 := by simp
      rw [this, pow_zero, Nat.mul_one]
      have : (2 : Nat) ^ 53 ≤ 2 ^ 1024 := Nat.pow_le_pow_right (by norm_num) (by norm_num)
      omega
    rw [if_neg h1, if_pos (by simp), if_neg h2]
    simp [signedInt]
  · have hlt : L < 52 := by omega
    have hneg : ¬ (0 ≤ (L : Int) - 52) := by omega
    have hk : (-((L : Int) - 52)).toNat = 52 - L := by omega
    have hsc0 : scalePow2 n 1 ((L : Int) - 52) = (n * 2 ^ (52 - L), 1) := by
      simp only [scalePow2, if_neg hneg, hk]
    simp only [hsc0, roundHalfEven_one]
    have h1 : ¬ (n * 2 ^ (52 - L) = 0) := by
      have : 0 < 2 ^ (52 - L) := Nat.pow_pos (by norm_num)
      exact Nat.ne_of_gt (Nat.mul_pos h0 this)
    rw [if_neg h1, if_neg hneg, hk, normDyadic_mul_pow]
    simp [signedInt]

theorem isDecDigit_cases {c : Char} (h : isDecDigit c = true) :
    c = '0' ∨ c = '1' ∨ c = '2' ∨ c = '3' ∨ c = '4' ∨ c = '5' ∨ c = '6' ∨ c = '7'
      ∨ c = '8' ∨ c = '9' := by
  simp only [isDecDigit, Bool.and_eq_true, decide_eq_true_eq] at h
  obtain ⟨h1, h2⟩ := h
  have hc : c = Char.ofNat c.toNat := (Char.ofNat_toNat c).symm
  generalize c.toNat = k at h1 h2 hc
  subst hc
  interval_cases k <;> decide

theorem jsTrim_eq_self (s : Str)
    (h1 : ∀ c, s.head? = some c → isJsSpace c = false)
    (h2 : ∀ c, s.getLast? = some c → isJsSpace c = false) : jsTrim s = s := by
  unfold jsTrim
  have hd : s.dropWhile isJsSpace = s := by
    cases s with
    | nil => rfl
    | cons a t => simp [List.dropWhile_cons, h1 a rfl]
  rw [hd]
  have hr : s.reverse.dropWhile isJsSpace = s.reverse := by
    cases hs : s.reverse with
    | nil => rfl
    | cons a t =>
      have : s.getLast? = some a := by
        rw [← List.head?_reverse, hs]; rfl
      simp [List.dropWhile_cons, h2 a this]
  rw [hr, List.reverse_reverse]

theorem jsTrim_digits (s : Str) (h : ∀ c ∈ s, isDecDigit c = true) : jsTrim s = s := by
  apply jsTrim_eq_self
  · intro c hc
    have hm : c ∈ s := List.mem_of_mem_head? hc
    rcases isDecDigit_cases (h c hm) with h | h | h | h | h | h | h | h | h | h <;>
      (subst h; decide)
  · intro c hc
    have hm : c ∈ s := List.mem_of_mem_getLast? hc
    rcases isDecDigit_cases (h c hm) with h | h | h | h | h | h | h | h | h | h <;>
      (subst h; decide)

theorem splitAtFirst_none (p : Char → Bool) (s : Str) (h : ∀ c ∈ s, p c = false) :
    splitAtFirst p s = (s, none) := by
  induction s with
  | nil => rfl
  | cons c cs ih =>
    have hc := h c (List.mem_cons_self _ _)
    have ih' := ih (fun x hx => h x (List.mem_cons_of_mem _ hx))
    simp [splitAtFirst, hc, ih']

theorem parseUnsignedDecimal_digits (s : Str) (n : Nat) (hne : s ≠ [])
    (h : ∀ c ∈ s, isDecDigit c = true) (hv : digitsVal 10 s 0 = some n) :
    parseUnsignedDecimal false s = roundToDouble false n 1 := by
  have hinf : s ≠ "Infinity".toList := by
    intro hs
    have := h 'I' (by rw [hs]; decide)
    exact absurd this (by decide)
  have he : splitAtFirst (fun c => c == 'e' || c == 'E') s = (s, none) := by
    apply splitAtFirst_none
    intro c hc
    rcases isDecDigit_cases (h c hc) with h | h | h | h | h | h | h | h | h | h <;>
      (subst h; decide)
  have hdot : splitAtFirst (fun c => c == '.') s = (s, none) := by
    apply splitAtFirst_none
    intro c hc
    rcases isDecDigit_cases (h c hc) with h | h | h | h | h | h | h | h | h | h <;>
      (subst h; decide)
  unfold parseUnsignedDecimal
  rw [if_neg hinf]
  simp only [he, hdot, parseDigits, if_neg hne, hv, Option.map_some']
  simp [fromDecimal]

theorem stringToNumber_digits (s : Str) (n : Nat) (hne : s ≠ [])
    (h : ∀ c ∈ s, isDecDigit c = true) (hv : digitsVal 10 s 0 = some n) :
    stringToNumber s = roundToDouble false n 1 := by
  have key := parseUnsignedDecimal_digits s n hne h hv
  unfold stringToNumber
  rw [jsTrim_digits s h]
  split
  · exact absurd rfl hne
  all_goals first
    | exact key
    | exact absurd (h _ (List.mem_cons_self _ _)) (by decide)
    | exact absurd (h _ (List.mem_cons_of_mem _ (List.mem_cons_self _ _))) (by decide)

/-- `Number` of the decimal rendering of `n ≤ 2 ^ 53` is `n`. -/
theorem stringToNumber_natToDecimal (n : Nat) (h : n ≤ 2 ^ 53) :
    stringToNumber (natToDecimal n) = .int (n : Int) := by
  obtain ⟨hne, hdig, hv⟩ := natToDecimal_spec n
  rw [stringToNumber_digits _ n hne hdig hv, roundToDouble_nat n h]

theorem consHead_append (c : Char) (ls ms : List Str) (h : ls ≠ []) :
    consHead c (ls ++ ms) = consHead c ls ++ ms := by
  cases ls with
  | nil => exact absurd rfl h
  | cons a as => simp [consHead]

theorem splitLines_cons_of_ne (c : Char) (t : Str) (h1 : c ≠ '\n') (h2 : c ≠ '\r') :
    splitLines (c :: t) = consHead c (splitLines t) := by
  rw [splitLines]
  · intro r hr; exact absurd hr h2
  · exact h1

/-- What follows a line feed is split on its own. -/
theorem splitLines_append_newline (p rest : Str) :
    ∃ ls : List Str, ls ≠ [] ∧ splitLines (p ++ '\n' :: rest) = ls ++ splitLines rest := by
  induction p using splitLines.induct with
  | case1 => exact ⟨[[]], by simp, by simp [splitLines]⟩
  | case2 r ih =>
    obtain ⟨ls, _, h⟩ := ih
    exact ⟨[] :: ls, by simp, by simp [splitLines, h]⟩
  | case3 r ih =>
    obtain ⟨ls, _, h⟩ := ih
    exact ⟨[] :: ls, by simp, by simp [splitLines, h]⟩
  | case4 c r h1 h2 ih =>
    obtain ⟨ls, hne, h⟩ := ih
    cases r with
    | nil =>
      by_cases hc : c = '\r'
      · subst hc
        exact ⟨[[]], by simp, by simp [splitLines]⟩
      · refine ⟨[[c]], by simp, ?_⟩
        have : splitLines ([c] ++ '\n' :: rest) = consHead c (splitLines ('\n' :: rest)) :=
          splitLines_cons_of_ne c _ (fun hh => h2 hh) hc
        rw [this]
        simp [splitLines, consHead]
    | cons d r' =>
      refine ⟨consHead c ls, consHead_ne_nil _ _, ?_⟩
      have : splitLines (c :: d :: r' ++ '\n' :: rest)
          = consHead c (splitLines (d :: r' ++ '\n' :: rest)) := by
        show splitLines (c :: d :: (r' ++ '\n' :: rest)) = _
        rw [splitLines]
        · rfl
        · intro x hx hx2
          simp only [List.cons.injEq] at hx2
          exact h1 r' hx (by rw [hx2.1])
        · exact fun hh => h2 hh
      rw [this, h, consHead_append _ _ _ hne]

theorem splitLines_logText_append (logs : List (Str × Bool)) (rest : Str) :
    ∃ ls : List Str, splitLines (logText logs ++ rest) = ls ++ splitLines rest := by
  induction logs with
  | nil => exact ⟨[], by simp [logText]⟩
  | cons a as ih =>
    obtain ⟨l, crlf⟩ := a
    obtain ⟨ls, h⟩ := ih
    cases crlf with
    | false =>
      obtain ⟨ms, _, hm⟩ := splitLines_append_newline l (logText as ++ rest)
      refine ⟨ms ++ ls, ?_⟩
      have : logText ((l, false) :: as) ++ rest = l ++ '\n' :: (logText as ++ rest) := by
        simp [logText]
      rw [this, hm, h, List.append_assoc]
    | true =>
      obtain ⟨ms, _, hm⟩ := splitLines_append_newline (l ++ ['\r']) (logText as ++ rest)
      refine ⟨ms ++ ls, ?_⟩
      have : logText ((l, true) :: as) ++ rest
          = (l ++ ['\r']) ++ '\n' :: (logText as ++ rest) := by
        simp [logText]
      rw [this, hm, h, List.append_assoc]

/-- A text without line break, followed by at most one line terminator. -/
theorem splitLines_line_trailer (line : Str) (h : ∀ c ∈ line, c ≠ '\n' ∧ c ≠ '\r') :
    splitLines line = [line] ∧ splitLines (line ++ ['\n']) = [line, []] ∧
    splitLines (line ++ ['\r', '\n']) = [line, []] := by
  induction line with
  | nil => simp [splitLines]
  | cons c cs ih =>
    obtain ⟨i1, i2, i3⟩ := ih (fun x hx => h x (List.mem_cons_of_mem _ hx))
    obtain ⟨h1, h2⟩ := h c (List.mem_cons_self _ _)
    refine ⟨?_, ?_, ?_⟩
    · rw [splitLines_cons_of_ne c _ h1 h2, i1]; rfl
    · rw [List.cons_append, splitLines_cons_of_ne c _ h1 h2, i2]; rfl
    · rw [List.cons_append, splitLines_cons_of_ne c _ h1 h2, i3]; rfl

theorem splitWsAux_word (w : Str) (h : ∀ c ∈ w, isJsSpace c = false) :
    splitWsAux false w = [w] := by
  induction w with
  | nil => rfl
  | cons c cs ih =>
    have hc := h c (List.mem_cons_self _ _)
    simp [splitWsAux, hc, ih (fun x hx => h x (List.mem_cons_of_mem _ hx)), consHead]

theorem splitWsAux_word_sep (w : Str) (h : ∀ c ∈ w, isJsSpace c = false) (c : Char)
    (hc : isJsSpace c = true) (rest : Str) :
    splitWsAux false (w ++ c :: rest) = w :: splitWsAux true rest := by
  induction w with
  | nil => simp [splitWsAux, hc]
  | cons x xs ih =>
    have hx := h x (List.mem_cons_self _ _)
    simp [splitWsAux, hx, ih (fun y hy => h y (List.mem_cons_of_mem _ hy)), consHead]

theorem splitWsAux_true_cons (x : Char) (xs : Str) (hx : isJsSpace x = false) :
    splitWsAux true (x :: xs) = splitWsAux false (x :: xs) := by
  simp [splitWsAux, hx]

theorem digit_not_space {c : Char} (h : isDecDigit c = true) : isJsSpace c = false := by
  rcases isDecDigit_cases h with h | h | h | h | h | h | h | h | h | h <;> (subst h; decide)

theorem digit_ne_eq {c : Char} (h : isDecDigit c = true) : (c != '=') = true := by
  rcases isDecDigit_cases h with h | h | h | h | h | h | h | h | h | h <;> (subst h; decide)

theorem digit_not_break {c : Char} (h : isDecDigit c = true) : c ≠ '\n' ∧ c ≠ '\r' := by
  rcases isDecDigit_cases h with h | h | h | h | h | h | h | h | h | h <;> (subst h; decide)

theorem not_space_label (label d : Str) (h1 : ∀ c ∈ label, isJsSpace c = false)
    (h2 : ∀ c ∈ d, isDecDigit c = true) : ∀ c ∈ label ++ d, isJsSpace c = false := by
  intro c hc
  rcases List.mem_append.1 hc with hc | hc
  · exact h1 c hc
  · exact digit_not_space (h2 c hc)

theorem tokenValue_label (label d : Str) (hl : ∀ c ∈ label, (c != '=') = true)
    (h : ∀ c ∈ d, isDecDigit c = true) : tokenValue (label ++ '=' :: d) = some d := by
  have hmem : '=' ∈ label ++ '=' :: d := by simp
  have h1 : (label ++ '=' :: d).dropWhile (fun c => c != '=') = '=' :: d := by
    rw [List.dropWhile_append_of_pos hl]
    simp [List.dropWhile_cons]
  have h2 : d.takeWhile (fun c => c != '=') = d := by
    rw [List.takeWhile_eq_self_iff]
    intro c hc
    exact digit_ne_eq (h c hc)
  unfold tokenValue
  rw [if_pos hmem, h1]
  simp [h2]

theorem getLast?_cons_of_ne_nil (c : Char) (l : Str) (h : l ≠ []) :
    (c :: l).getLast? = l.getLast? := by
  cases l with
  | nil => exact absurd rfl h
  | cons a as => rw [List.getLast?_cons_cons]

/-- The tokens of the Driver's final line. -/
theorem summaryTokens_driverSummaryLine (n s f : Nat) :
    summaryTokens (driverSummaryLine n s f) =
      ["TOTAL=".toList ++ natToDecimal n, "SUCCESS=".toList ++ natToDecimal s,
        "FAILED=".toList ++ natToDecimal f] := by
  obtain ⟨_, hn, _⟩ := natToDecimal_spec n
  obtain ⟨_, hs, _⟩ := natToDecimal_spec s
  obtain ⟨hfne, hf, _⟩ := natToDecimal_spec f
  have hdrop : (driverSummaryLine n s f).drop summaryMarker.length =
      ("TOTAL=".toList ++ natToDecimal n) ++ ' ' ::
        (("SUCCESS=".toList ++ natToDecimal s) ++ ' ' ::
          ("FAILED=".toList ++ natToDecimal f)) := by
    have : driverSummaryLine n s f = summaryMarker ++
        (("TOTAL=".toList ++ natToDecimal n) ++ ' ' ::
        (("SUCCESS=".toList ++ natToDecimal s) ++ ' ' ::
          ("FAILED=".toList ++ natToDecimal f))) := by
      simp [driverSummaryLine, summaryMarker]
    rw [this, List.drop_left]
  have hw1 := not_space_label "TOTAL=".toList _ (by decide) hn
  have hw2 := not_space_label "SUCCESS=".toList _ (by decide) hs
  have hw3 := not_space_label "FAILED=".toList _ (by decide) hf
  have htrim : jsTrim (("TOTAL=".toList ++ natToDecimal n) ++ ' ' ::
        (("SUCCESS=".toList ++ natToDecimal s) ++ ' ' ::
          ("FAILED=".toList ++ natToDecimal f))) =
        (("TOTAL=".toList ++ natToDecimal n) ++ ' ' ::
        (("SUCCESS=".toList ++ natToDecimal s) ++ ' ' ::
          ("FAILED=".toList ++ natToDecimal f))) := by
    apply jsTrim_eq_self
    · intro c hc
      simp at hc
      rw [← hc]; decide
    · intro c hc
      rw [List.getLast?_append_of_ne_nil _ (by simp), getLast?_cons_of_ne_nil _ _ (by simp),
        List.getLast?_append_of_ne_nil _ (by simp), getLast?_cons_of_ne_nil _ _ (by simp),
        List.getLast?_append_of_ne_nil _ hfne] at hc
      exact digit_not_space (hf c (List.mem_of_mem_getLast? hc))
  unfold summaryTokens splitWs
  rw [hdrop, htrim, splitWsAux_word_sep _ hw1 ' ' (by decide)]
  have e2 : "SUCCESS=".toList ++ natToDecimal s = 'S' :: ("UCCESS=".toList ++ natToDecimal s) :=
    rfl
  have e3 : "FAILED=".toList ++ natToDecimal f = 'F' :: ("AILED=".toList ++ natToDecimal f) :=
    rfl
  have s2 : splitWsAux true (("SUCCESS=".toList ++ natToDecimal s) ++ ' ' ::
      ("FAILED=".toList ++ natToDecimal f)) = splitWsAux false
        (("SUCCESS=".toList ++ natToDecimal s) ++ ' ' ::
          ("FAILED=".toList ++ natToDecimal f)) := by
    rw [e2]; exact splitWsAux_true_cons _ _ (by decide)
  have s3 : splitWsAux true ("FAILED=".toList ++ natToDecimal f)
      = splitWsAux false ("FAILED=".toList ++ natToDecimal f) := by
    rw [e3]; exact splitWsAux_true_cons _ _ (by decide)
  rw [s2, splitWsAux_word_sep _ hw2 ' ' (by decide), s3, splitWsAux_word _ hw3]

theorem fieldValue_driverSummaryLine (n s f : Nat) (hn : n ≤ 2 ^ 53) (hs : s ≤ 2 ^ 53)
    (hf : f ≤ 2 ^ 53) :
    fieldValue "TOTAL".toList (summaryTokens (driverSummaryLine n s f)) = .int n ∧
    fieldValue "SUCCESS".toList (summaryTokens (driverSummaryLine n s f)) = .int s ∧
    fieldValue "FAILED".toList (summaryTokens (driverSummaryLine n s f)) = .int f := by
  obtain ⟨_, hdn, _⟩ := natToDecimal_spec n
  obtain ⟨_, hds, _⟩ := natToDecimal_spec s
  obtain ⟨_, hdf, _⟩ := natToDecimal_spec f
  have k1 : tokenKey ("TOTAL=".toList ++ natToDecimal n) = "TOTAL".toList := rfl
  have k2 : tokenKey ("SUCCESS=".toList ++ natToDecimal s) = "SUCCESS".toList := rfl
  have k3 : tokenKey ("FAILED=".toList ++ natToDecimal f) = "FAILED".toList := rfl
  have v1 : tokenValue ("TOTAL=".toList ++ natToDecimal n) = some (natToDecimal n) :=
    tokenValue_label "TOTAL".toList _ (by decide) hdn
  have v2 : tokenValue ("SUCCESS=".toList ++ natToDecimal s) = some (natToDecimal s) :=
    tokenValue_label "SUCCESS".toList _ (by decide) hds
  have v3 : tokenValue ("FAILED=".toList ++ natToDecimal f) = some (natToDecimal f) :=
    tokenValue_label "FAILED".toList _ (by decide) hdf
  have n1 := stringToNumber_natToDecimal n hn
  have n2 := stringToNumber_natToDecimal s hs
  have n3 := stringToNumber_natToDecimal f hf
  rw [summaryTokens_driverSummaryLine]
  have kne1 : ¬ ("FAILED".toList = "TOTAL".toList) := by decide
  have kne2 : ¬ ("SUCCESS".toList = "TOTAL".toList) := by decide
  have kne3 : ¬ ("FAILED".toList = "SUCCESS".toList) := by decide
  refine ⟨?_, ?_, ?_⟩
  · simp only [fieldValue, List.reverse_cons, List.reverse_nil, List.nil_append,
      List.cons_append, List.find?_cons, k1, k2, k3, kne1, kne2, decide_False, decide_True, v1, n1]
    simp
  · simp only [fieldValue, List.reverse_cons, List.reverse_nil, List.nil_append,
      List.cons_append, List.find?_cons, k1, k2, k3, kne3, decide_False, decide_True, v2, n2]
    simp
  · simp only [fieldValue, List.reverse_cons, List.reverse_nil, List.nil_append,
      List.cons_append, List.find?_cons, k1, k2, k3, decide_True, v3, n3]
    simp

theorem driverSummaryLine_no_break (n s f : Nat) :
    ∀ c ∈ driverSummaryLine n s f, c ≠ '\n' ∧ c ≠ '\r' := by
  obtain ⟨_, hn, _⟩ := natToDecimal_spec n
  obtain ⟨_, hs, _⟩ := natToDecimal_spec s
  obtain ⟨_, hf, _⟩ := natToDecimal_spec f
  intro c hc
  simp only [driverSummaryLine, List.mem_append] at hc
  rcases hc with ((((hc | hc) | hc) | hc) | hc) | hc
  · exact (show ∀ c ∈ "SUMMARY TOTAL=".toList, c ≠ '\n' ∧ c ≠ '\r' by decide) c hc
  · exact digit_not_break (hn c hc)
  · exact (show ∀ c ∈ " SUCCESS=".toList, c ≠ '\n' ∧ c ≠ '\r' by decide) c hc
  · exact digit_not_break (hs c hc)
  · exact (show ∀ c ∈ " FAILED=".toList, c ≠ '\n' ∧ c ≠ '\r' by decide) c hc
  · exact digit_not_break (hf c hc)

/-- C6 (amended): for all natural numbers `n`, `s`, `f` up to `2 ^ 53` (the
range in which every integer is a JavaScript number) and all log lines before
it, each terminated by LF or CRLF, `parseSummary` of the log followed by the
line `SUMMARY TOTAL=n SUCCESS=s FAILED=f`, with or without a trailing line
terminator, is exactly `{total: n, success: s, failed: f}`. -/
theorem parseSummary_driver_line (n s f : Nat) (hn : n ≤ 2 ^ 53) (hs : s ≤ 2 ^ 53)
    (hf : f ≤ 2 ^ 53) (logs : List (Str × Bool)) (trailer : Str)
    (ht : trailer = [] ∨ trailer = ['\n'] ∨ trailer = ['\r', '\n']) :
    parseSummary (logText logs ++ driverSummaryLine n s f ++ trailer)
      = { total := .int n, success := .int s, failed := .int f } := by
  have hline : summaryMarker.isPrefixOf (driverSummaryLine n s f) = true := rfl
  obtain ⟨t1, t2, t3⟩ := splitLines_line_trailer _ (driverSummaryLine_no_break n s f)
  obtain ⟨ls, hls⟩ := splitLines_logText_append logs (driverSummaryLine n s f ++ trailer)
  obtain ⟨f1, f2, f3⟩ := fieldValue_driverSummaryLine n s f hn hs hf
  have hsplit : ∃ after : List Str, (∀ l ∈ after, summaryMarker.isPrefixOf l = false) ∧
      splitLines (logText logs ++ driverSummaryLine n s f ++ trailer)
        = ls ++ driverSummaryLine n s f :: after := by
    rw [List.append_assoc, hls]
    rcases ht with rfl | rfl | rfl
    · exact ⟨[], by simp, by rw [List.append_nil, t1]⟩
    · exact ⟨[[]], by decide, by rw [t2]⟩
    · exact ⟨[[]], by decide, by rw [t3]⟩
  obtain ⟨after, hafter, hsp⟩ := hsplit
  rw [parseSummary_of_split _ ls after _ hsp hline hafter, parseSummaryLine_eq _ hline,
    f1, f2, f3]

theorem parseSummary_driver_line_witness :
    parseSummary ("line1\nline2\r\n".toList ++ "SUMMARY TOTAL=3 SUCCESS=3 FAILED=0".toList
        ++ "\n".toList)
      = { total := .int 3, success := .int 3, failed := .int 0 } :=
  parseSummary_driver_line 3 3 0 (by norm_num) (by norm_num) (by norm_num)
    [("line1".toList, false), ("line2".toList, true)] ['\n'] (Or.inr (Or.inl rfl))

set_option exponentiation.threshold 2000 in
/-- C6 as stated fails above `2 ^ 53`: for `n = 2 ^ 53 + 1` the line
`SUMMARY TOTAL=9007199254740993 SUCCESS=0 FAILED=0` parses to
`total = 9007199254740992`, the double nearest to `n`. -/
theorem parseSummary_driver_line_counterexample :
    driverSummaryLine 9007199254740993 0 0
      = "SUMMARY TOTAL=9007199254740993 SUCCESS=0 FAILED=0".toList ∧
    parseSummary (driverSummaryLine 9007199254740993 0 0)
      = { total := .int 9007199254740992, success := .int 0, failed := .int 0 } ∧
    parseSummary (driverSummaryLine 9007199254740993 0 0)
      ≠ { total := .int 9007199254740993, success := .int 0, failed := .int 0 } := by
  decide

/-! ## The streaming state machine -/

namespace StreamState

theorem written_append (s : StreamState) (as : List Action) :
    written { s with trace := s.trace ++ as }
      = written s ++ as.filterMap (fun a => match a with
          | .write e => some e
          | _ => none) := by
  simp [written, List.filterMap_append]

theorem safeWrite_of_closed (s : StreamState) (e : StreamEvent) (w : Bool)
    (h : s.closed = true) : s.safeWrite e w = s := by
  unfold closed at h
  simp [safeWrite, h]

theorem safeWrite_of_open_ok (s : StreamState) (e : StreamEvent)
    (h : s.closed = false) :
    s.safeWrite e false = { s with trace := s.trace ++ [.write e] } := by
  unfold closed at h
  simp [safeWrite, h]

theorem safeWrite_of_open_throw (s : StreamState) (e : StreamEvent)
    (h : s.closed = false) :
    s.safeWrite e true = { s with clientClosed := true } := by
  unfold closed at h
  simp [safeWrite, h]

/-- What `safeWrite` leaves of the written events. -/
theorem written_safeWrite (s : StreamState) (e : StreamEvent) (w : Bool) :
    (s.safeWrite e w).written
      = if s.closed = false ∧ w = false then s.written ++ [e] else s.written := by
  cases hc : s.closed
  · cases w
    · rw [safeWrite_of_open_ok s e hc]
      simp [written]
    · rw [safeWrite_of_open_throw s e hc]
      simp [written]
  · rw [safeWrite_of_closed s e w hc]
    simp

theorem responseEnded_safeWrite (s : StreamState) (e : StreamEvent) (w : Bool) :
    (s.safeWrite e w).responseEnded = s.responseEnded := by
  unfold safeWrite
  split
  · rfl
  · split <;> rfl

theorem clientClosed_safeWrite (s : StreamState) (e : StreamEvent) (w : Bool) :
    (s.safeWrite e w).clientClosed
      = (s.clientClosed || (!s.responseEnded && w)) := by
  unfold safeWrite
  cases h1 : s.clientClosed <;> cases h2 : s.responseEnded <;> cases w <;> simp [h1]

theorem endCalls_safeWrite (s : StreamState) (e : StreamEvent) (w : Bool) :
    (s.safeWrite e w).endCalls = s.endCalls := by
  unfold safeWrite
  split
  · rfl
  · split
    · rfl
    · simp [endCalls, List.count_append]

theorem buffers_safeWrite (s : StreamState) (e : StreamEvent) (w : Bool) :
    (s.safeWrite e w).stdout = s.stdout ∧ (s.safeWrite e w).stderr = s.stderr ∧
    (s.safeWrite e w).workRoot = s.workRoot := by
  unfold safeWrite
  split
  · exact ⟨rfl, rfl, rfl⟩
  · split <;> exact ⟨rfl, rfl, rfl⟩

theorem written_safeEnd (s : StreamState) : s.safeEnd.written = s.written := by
  unfold safeEnd
  split
  · rfl
  · simp [written]

theorem responseEnded_safeEnd (s : StreamState) : s.safeEnd.responseEnded = true := by
  unfold safeEnd
  split
  · assumption
  · rfl

theorem clientClosed_safeEnd (s : StreamState) : s.safeEnd.clientClosed = s.clientClosed := by
  unfold safeEnd
  split <;> rfl

theorem endCalls_safeEnd (s : StreamState) :
    s.safeEnd.endCalls = if s.responseEnded then s.endCalls else s.endCalls + 1 := by
  unfold safeEnd
  split
  · rfl
  · simp [endCalls, List.count_append]

theorem written_terminate (s : StreamState) : s.terminateChildProcess.written = s.written := by
  simp [terminateChildProcess, written]

theorem endCalls_terminate (s : StreamState) :
    s.terminateChildProcess.endCalls = s.endCalls := by
  simp [terminateChildProcess, endCalls, List.count_append]

/-- What an input adds to the written events: at most one event, never a
`start`, and nothing once the sink is marked closed. -/
theorem written_step (s : StreamState) (i : StreamInput) :
    ∃ extra : List StreamEvent, (s.step i).written = s.written ++ extra ∧
      extra.length ≤ 1 ∧ (∀ e ∈ extra, e.isStart = false) ∧
      (s.closed = true → extra = []) ∧
      (s.responseEnded = (s.step i).responseEnded → ∀ e ∈ extra, e.isTerminal = false) := by
  cases i with
  | stdoutData chunk w =>
    simp only [step, written_safeWrite, responseEnded_safeWrite]
    split
    · rename_i h
      exact ⟨[_], rfl, by simp, by simp [StreamEvent.isStart], by simp [closed] at h ⊢; simp [h],
        by simp [StreamEvent.isTerminal]⟩
    · exact ⟨[], by simp [written], by simp, by simp, by simp, by simp⟩
  | stderrData chunk w =>
    simp only [step, written_safeWrite, responseEnded_safeWrite]
    split
    · rename_i h
      exact ⟨[_], rfl, by simp, by simp [StreamEvent.isStart], by simp [closed] at h ⊢; simp [h],
        by simp [StreamEvent.isTerminal]⟩
    · exact ⟨[], by simp [written], by simp, by simp, by simp, by simp⟩
  | childError e w =>
    simp only [step, written_safeEnd, written_safeWrite, responseEnded_safeEnd]
    split
    · rename_i h
      refine ⟨[_], rfl, by simp, by simp [StreamEvent.isStart], by simp [h.1], ?_⟩
      intro hre
      have := h.1
      simp [closed, hre] at this
    · exact ⟨[], by simp, by simp, by simp, by simp, by simp⟩
  | childClose code w =>
    simp only [step, written_safeEnd, written_safeWrite, responseEnded_safeEnd]
    split
    · rename_i h
      refine ⟨[_], rfl, by simp, by simp [StreamEvent.isStart], by simp [h.1], ?_⟩
      intro hre
      have := h.1
      simp [closed, hre] at this
    · exact ⟨[], by simp, by simp, by simp, by simp, by simp⟩
  | reqAborted =>
    refine ⟨[], ?_, by simp, by simp, by simp, by simp⟩
    simp only [step, written_terminate, List.append_nil]
    rfl
  | resClose =>
    refine ⟨[], ?_, by simp, by simp, by simp, by simp⟩
    simp only [step]
    split
    · simp
    · simp only [written_terminate, List.append_nil]
      rfl
  | resError =>
    refine ⟨[], ?_, by simp, by simp, by simp, by simp⟩
    simp only [step, written_terminate, List.append_nil]
    rfl

/-- A sink marked closed stays marked closed. -/
theorem closed_step (s : StreamState) (i : StreamInput) (h : s.closed = true) :
    (s.step i).closed = true := by
  unfold closed at h ⊢
  cases i with
  | stdoutData chunk w =>
    simp only [step, clientClosed_safeWrite, responseEnded_safeWrite]
    revert h; cases s.clientClosed <;> cases s.responseEnded <;> simp
  | stderrData chunk w =>
    simp only [step, clientClosed_safeWrite, responseEnded_safeWrite]
    revert h; cases s.clientClosed <;> cases s.responseEnded <;> simp
  | childError e w => simp [step, responseEnded_safeEnd]
  | childClose code w => simp [step, responseEnded_safeEnd]
  | reqAborted => simp [step, terminateChildProcess]
  | resClose =>
    simp only [step]
    split
    · exact h
    · simp [terminateChildProcess]
  | resError => simp [step, terminateChildProcess]

/-- `responseEnded` is never reset. -/
theorem responseEnded_step (s : StreamState) (i : StreamInput)
    (h : s.responseEnded = true) : (s.step i).responseEnded = true := by
  cases i with
  | stdoutData chunk w => simp [step, responseEnded_safeWrite, h]
  | stderrData chunk w => simp [step, responseEnded_safeWrite, h]
  | childError e w => simp [step, responseEnded_safeEnd]
  | childClose code w => simp [step, responseEnded_safeEnd]
  | reqAborted => simp [step, terminateChildProcess, h]
  | resClose => simp [step, h]
  | resError => simp [step, terminateChildProcess, h]

/-- Once the sink is marked closed no input writes an event. -/
theorem written_foldl_of_closed (inputs : List StreamInput) :
    ∀ s : StreamState, s.closed = true → (inputs.foldl step s).written = s.written ∧
      (inputs.foldl step s).closed = true := by
  induction inputs with
  | nil => intro s h; exact ⟨rfl, h⟩
  | cons i is ih =>
    intro s h
    obtain ⟨extra, hw, _, _, hnil, _⟩ := written_step s i
    have := ih (s.step i) (closed_step s i h)
    rw [List.foldl_cons, this.1, hw, hnil h, List.append_nil]
    exact ⟨rfl, this.2⟩

/-- The events written by a run extend those written before it, without any
further `start`. -/
theorem written_foldl (inputs : List StreamInput) :
    ∀ s : StreamState, ∃ extra : List StreamEvent,
      (inputs.foldl step s).written = s.written ++ extra ∧ ∀ e ∈ extra, e.isStart = false := by
  induction inputs with
  | nil => intro s; exact ⟨[], by simp, by simp⟩
  | cons i is ih =>
    intro s
    obtain ⟨e1, hw, _, hs1, _, _⟩ := written_step s i
    obtain ⟨e2, hw2, hs2⟩ := ih (s.step i)
    refine ⟨e1 ++ e2, by rw [List.foldl_cons, hw2, hw, List.append_assoc], ?_⟩
    intro e he
    rcases List.mem_append.1 he with he | he
    · exact hs1 e he
    · exact hs2 e he

theorem terminalInv_step (s : StreamState) (i : StreamInput) (h : TerminalInv s) :
    TerminalInv (s.step i) := by
  obtain ⟨extra, hw, hlen, _, hclosed, hterm⟩ := written_step s i
  obtain ⟨h1, h2⟩ := h
  cases hre : s.responseEnded with
  | true =>
    have hc : s.closed = true := by simp [closed, hre]
    have hnil := hclosed hc
    rw [hnil, List.append_nil] at hw
    refine ⟨by rw [hw]; exact h1, ?_⟩
    intro hcon
    rw [responseEnded_step s i hre] at hcon
    exact absurd hcon (by simp)
  | false =>
    have h2' := h2 hre
    cases extra with
    | nil =>
      rw [List.append_nil] at hw
      exact ⟨by rw [hw]; exact h1, fun _ => by rw [hw]; exact h2'⟩
    | cons x xs =>
      have hxs : xs = [] := by
        cases xs with
        | nil => rfl
        | cons y ys => simp at hlen
      subst hxs
      refine ⟨?_, ?_⟩
      · rw [hw, List.dropLast_concat]; exact h2'
      · intro hre'
        rw [hw]
        intro e he
        rcases List.mem_append.1 he with he | he
        · exact h2' e he
        · exact hterm (by rw [hre, hre']) e he

theorem terminalInv_foldl (inputs : List StreamInput) :
    ∀ s : StreamState, TerminalInv s → TerminalInv (inputs.foldl step s) := by
  induction inputs with
  | nil => intro s h; exact h
  | cons i is ih => intro s h; exact ih _ (terminalInv_step s i h)

theorem endInv_step (s : StreamState) (i : StreamInput) (h : EndInv s) :
    EndInv (s.step i) := by
  unfold EndInv at h ⊢
  cases i with
  | stdoutData chunk w =>
    simp only [step, endCalls_safeWrite, responseEnded_safeWrite]
    exact h
  | stderrData chunk w =>
    simp only [step, endCalls_safeWrite, responseEnded_safeWrite]
    exact h
  | childError e w =>
    simp only [step, endCalls_safeEnd, responseEnded_safeEnd, endCalls_safeWrite,
      responseEnded_safeWrite, h]
    cases s.responseEnded <;> simp
  | childClose code w =>
    simp only [step, endCalls_safeEnd, responseEnded_safeEnd, endCalls_safeWrite,
      responseEnded_safeWrite, h]
    cases s.responseEnded <;> simp
  | reqAborted => simpa [step, terminateChildProcess, endCalls, List.count_append] using h
  | resClose =>
    cases hre : s.responseEnded with
    | true => simpa [step, hre] using h
    | false => simpa [step, hre, terminateChildProcess, endCalls, List.count_append] using h
  | resError => simpa [step, terminateChildProcess, endCalls, List.count_append] using h

theorem endInv_foldl (inputs : List StreamInput) :
    ∀ s : StreamState, EndInv s → EndInv (inputs.foldl step s) := by
  induction inputs with
  | nil => intro s h; exact h
  | cons i is ih => intro s h; exact ih _ (endInv_step s i h)

/-- A child `close` handled while the sink is open and the write succeeds
writes the `end` event and ends the response. -/
theorem step_childClose_open (s : StreamState) (code : Option Int) (h : s.closed = false) :
    (s.step (.childClose code false)).written
      = s.written ++ [.finish (batchResult (code.getD 1) s.stdout s.stderr s.workRoot)] ∧
    (s.step (.childClose code false)).closed = true := by
  refine ⟨?_, ?_⟩
  · simp [step, written_safeEnd, written_safeWrite, h]
  · simp [step, closed, responseEnded_safeEnd]

/-- A child `error` handled while the sink is open and the write succeeds
writes the `error` event and ends the response. -/
theorem step_childError_open (s : StreamState) (e : Str) (h : s.closed = false) :
    (s.step (.childError e false)).written = s.written ++ [.error e] ∧
    (s.step (.childError e false)).closed = true := by
  refine ⟨?_, ?_⟩
  · simp [step, written_safeEnd, written_safeWrite, h]
  · simp [step, closed, responseEnded_safeEnd]

/-- The state after `safeWrite({ type: "start", ... })`. -/
theorem start_state (workRoot : Str) (startThrows : Bool) :
    ((init workRoot).safeWrite (.start workRoot) startThrows).written
      = (if startThrows then [] else [.start workRoot]) ∧
    ((init workRoot).safeWrite (.start workRoot) startThrows).responseEnded = false ∧
    ((init workRoot).safeWrite (.start workRoot) startThrows).clientClosed = startThrows ∧
    ((init workRoot).safeWrite (.start workRoot) startThrows).endCalls = 0 := by
  have hw : (init workRoot).written = [] := rfl
  have hc : (init workRoot).closed = false := rfl
  have he : (init workRoot).endCalls = 0 := rfl
  refine ⟨?_, ?_, ?_, ?_⟩
  · rw [written_safeWrite, hw, hc]
    cases startThrows <;> simp
  · rw [responseEnded_safeWrite]; rfl
  · rw [clientClosed_safeWrite]
    cases startThrows <;> rfl
  · rw [endCalls_safeWrite, he]

theorem terminalInv_start (workRoot : Str) (startThrows : Bool) :
    TerminalInv ((init workRoot).safeWrite (.start workRoot) startThrows) := by
  obtain ⟨h1, _, _, _⟩ := start_state workRoot startThrows
  unfold TerminalInv
  rw [h1]
  cases startThrows <;> simp [StreamEvent.isTerminal]

theorem endInv_start (workRoot : Str) (startThrows : Bool) :
    EndInv ((init workRoot).safeWrite (.start workRoot) startThrows) := by
  obtain ⟨_, h2, _, h4⟩ := start_state workRoot startThrows
  unfold EndInv
  rw [h2, h4]
  rfl

end StreamState

open StreamState in
theorem streamSession_append (workRoot : Str) (startThrows : Bool)
    (before after : List StreamInput) :
    streamSession workRoot startThrows (before ++ after)
      = after.foldl step (streamSession workRoot startThrows before) := by
  simp [streamSession, List.foldl_append]

open StreamState in
theorem written_streamSession (workRoot : Str) (startThrows : Bool)
    (inputs : List StreamInput) :
    ∃ extra : List StreamEvent,
      (streamSession workRoot startThrows inputs).written
        = (if startThrows then [] else [.start workRoot]) ++ extra ∧
      (∀ e ∈ extra, e.isStart = false) ∧ (startThrows = true → extra = []) := by
  cases startThrows with
  | true =>
    obtain ⟨h1, _, h3, _⟩ := start_state workRoot true
    have hc : ((init workRoot).safeWrite (.start workRoot) true).closed = true := by
      simp [closed, h3]
    have h := (written_foldl_of_closed inputs _ hc).1
    refine ⟨[], ?_, by simp, by simp⟩
    rw [streamSession, h, h1]
    rfl
  | false =>
    obtain ⟨extra, hw, hs⟩ := written_foldl inputs
      ((init workRoot).safeWrite (.start workRoot) false)
    refine ⟨extra, ?_, hs, by simp⟩
    rw [streamSession, hw, (start_state workRoot false).1]

/-! ## C1: one start first, at most one terminal event last -/

open StreamState in
/-- C1 (amended): for every sequence of child and transport events after an
accepted request, whatever writes fail: the written events begin with the one
`start` event when the first write succeeds and are empty when it throws; no
later event is a `start`; no event but the last written is terminal, so there
is at most one terminal event (`end` or `error`, never both) and it is last;
and when a child `close` or `error` is handled while the sink is not marked
closed and its write succeeds, exactly one terminal event is written in the
whole run. -/
theorem stream_start_first_terminal_last (workRoot : Str) (startThrows : Bool)
    (inputs : List StreamInput) :
    ((streamSession workRoot startThrows inputs).written.head?
        = if startThrows then none else some (.start workRoot)) ∧
    (startThrows = true → (streamSession workRoot startThrows inputs).written = []) ∧
    (∀ e ∈ (streamSession workRoot startThrows inputs).written.tail, e.isStart = false) ∧
    (∀ e ∈ (streamSession workRoot startThrows inputs).written.dropLast,
        e.isTerminal = false) ∧
    (∀ (before after : List StreamInput) (ev : StreamInput),
        inputs = before ++ ev :: after →
        (streamSession workRoot startThrows before).closed = false →
        ((∃ code, ev = .childClose code false) ∨ (∃ e, ev = .childError e false)) →
        ((streamSession workRoot startThrows inputs).written.filter
            StreamEvent.isTerminal).length = 1) := by
  obtain ⟨extra, hw, hs, hnil⟩ := written_streamSession workRoot startThrows inputs
  refine ⟨?_, ?_, ?_, ?_, ?_⟩
  · rw [hw]
    cases startThrows with
    | true => simp [hnil rfl]
    | false => simp
  · intro h
    rw [hw, hnil h, h]
    simp
  · rw [hw]
    cases startThrows with
    | true => simp [hnil rfl]
    | false => simpa using hs
  · exact (terminalInv_foldl inputs _ (terminalInv_start workRoot startThrows)).1
  · intro before after ev hin hopen hev
    have hinv : TerminalInv (streamSession workRoot startThrows before) :=
      terminalInv_foldl before _ (terminalInv_start workRoot startThrows)
    have hre : (streamSession workRoot startThrows before).responseEnded = false := by
      simp only [closed, Bool.or_eq_false_iff] at hopen
      exact hopen.2
    have hnt := hinv.2 hre
    have hfil : (streamSession workRoot startThrows before).written.filter
        StreamEvent.isTerminal = [] := by
      rw [List.filter_eq_nil_iff]
      intro e he
      simp [hnt e he]
    have hrun : streamSession workRoot startThrows inputs
        = after.foldl step ((streamSession workRoot startThrows before).step ev) := by
      rw [hin, streamSession_append]
      rfl
    rcases hev with ⟨code, rfl⟩ | ⟨e, rfl⟩
    · obtain ⟨h1, h2⟩ := step_childClose_open _ code hopen
      rw [hrun, (written_foldl_of_closed after _ h2).1, h1, List.filter_append, hfil]
      simp [StreamEvent.isTerminal]
    · obtain ⟨h1, h2⟩ := step_childError_open _ e hopen
      rw [hrun, (written_foldl_of_closed after _ h2).1, h1, List.filter_append, hfil]
      simp [StreamEvent.isTerminal]

theorem stream_start_first_terminal_last_witness :
    ((streamSession "/w".toList false
        [.stdoutData [104, 105] false, .childError "boom".toList false,
          .childClose (some 1) false, .resClose]).written.filter
            StreamEvent.isTerminal).length = 1 :=
  (stream_start_first_terminal_last "/w".toList false
    [.stdoutData [104, 105] false, .childError "boom".toList false,
      .childClose (some 1) false, .resClose]).2.2.2.2
    [.stdoutData [104, 105] false] [.childClose (some 1) false, .resClose]
    (.childError "boom".toList false) rfl (by decide) (Or.inr ⟨_, rfl⟩)

/-- C1 as stated fails when a write throws: if the write of `start` throws,
nothing is ever written, so there is no `start` event; and if the write of
the `end` event throws while the sink is open, no terminal event is written
although the child `close` was handled. -/
theorem stream_start_first_terminal_last_counterexample :
    (streamSession "/w".toList true [.childClose (some 0) false]).written = [] ∧
    (streamSession "/w".toList false []).closed = false ∧
    (streamSession "/w".toList false [.childClose (some 0) true]).written
      = [.start "/w".toList] := by
  decide

/-! ## C7: disconnects and child termination -/

open StreamState in
/-- The three transport handlers mark the sink closed and call
`terminateChildProcess`: `aborted` and `error` always, `close` unless the
response was ended before. -/
theorem transport_disconnect_terminates (s : StreamState) (i : StreamInput)
    (hi : i = .reqAborted ∨ i = .resError ∨ (i = .resClose ∧ s.responseEnded = false)) :
    (s.step i).clientClosed = true ∧
    (s.step i).trace
      = s.trace ++ [.kill "SIGTERM".toList, .setTimeoutKill 1200 "SIGKILL".toList] := by
  rcases hi with rfl | rfl | ⟨rfl, h⟩
  · exact ⟨rfl, rfl⟩
  · exact ⟨rfl, rfl⟩
  · simp [step, h, terminateChildProcess]

/-- C7 fails on the code for a write failure: when `res.write` throws inside
`safeWrite` for the first stdout chunk, the sink is marked closed
(`clientClosed`) but no signal is sent to the child and no kill timer is set,
whereas a request abort in the same state does both. -/
theorem write_failure_requests_no_termination :
    (streamSession "/w".toList false [.stdoutData [104, 105] true]).clientClosed = true ∧
    (streamSession "/w".toList false [.stdoutData [104, 105] true]).responseEnded = false ∧
    (streamSession "/w".toList false [.stdoutData [104, 105] true]).trace
      = [.write (.start "/w".toList)] ∧
    (streamSession "/w".toList false [.reqAborted]).trace
      = [.write (.start "/w".toList), .kill "SIGTERM".toList,
          .setTimeoutKill 1200 "SIGKILL".toList] := by
  decide

/-! ## C8: a closed sink takes no further event -/

open StreamState in
/-- C8: once the sink is marked closed (`clientClosed` or `responseEnded`), no
later input, of whatever kind and in whatever number, writes an event: the
written events stay as they are and the sink stays marked closed; and over any
run of the handler `res.end()` is called at most once. -/
theorem closed_sink_is_silent (s : StreamState) (later : List StreamInput)
    (h : s.closed = true) (workRoot : Str) (startThrows : Bool)
    (inputs : List StreamInput) :
    (later.foldl step s).written = s.written ∧
    (later.foldl step s).closed = true ∧
    (streamSession workRoot startThrows inputs).endCalls ≤ 1 := by
  obtain ⟨h1, h2⟩ := written_foldl_of_closed later s h
  refine ⟨h1, h2, ?_⟩
  have hinv : EndInv (streamSession workRoot startThrows inputs) :=
    endInv_foldl inputs _ (endInv_start workRoot startThrows)
  unfold EndInv at hinv
  rw [hinv]
  split <;> simp

theorem closed_sink_is_silent_witness :
    ([StreamInput.stdoutData [104] false, .childClose (some 0) false, .resClose].foldl
        StreamState.step (streamSession "/w".toList false [.resError])).written
      = [.start "/w".toList] ∧
    ([StreamInput.stdoutData [104] false, .childClose (some 0) false, .resClose].foldl
        StreamState.step (streamSession "/w".toList false [.resError])).closed = true ∧
    (streamSession "/w".toList false
        [.childError "e".toList false, .childClose none false, .resClose]).endCalls ≤ 1 :=
  closed_sink_is_silent (streamSession "/w".toList false [.resError])
    [.stdoutData [104] false, .childClose (some 0) false, .resClose] (by decide)
    "/w".toList false [.childError "e".toList false, .childClose none false, .resClose]

/-! ## C9: relaying the chunks -/

theorem stdoutDataOf_append (a b : List StreamEvent) :
    stdoutDataOf (a ++ b) = stdoutDataOf a ++ stdoutDataOf b := by
  induction a with
  | nil => rfl
  | cons e es ih => cases e <;> simp [stdoutDataOf, ih]

theorem stderrDataOf_append (a b : List StreamEvent) :
    stderrDataOf (a ++ b) = stderrDataOf a ++ stderrDataOf b := by
  induction a with
  | nil => rfl
  | cons e es ih => cases e <;> simp [stderrDataOf, ih]

open StreamState in
/-- One chunk handled while the sink is open and the write succeeds. -/
theorem step_chunk_open (s : StreamState) (c : Chunk) (h : s.closed = false) :
    (s.step (chunkInput c)).written = s.written ++ [chunkEvent c] ∧
    (s.step (chunkInput c)).stdout = s.stdout ++ stdoutDataOf [chunkEvent c] ∧
    (s.step (chunkInput c)).stderr = s.stderr ++ stderrDataOf [chunkEvent c] ∧
    (s.step (chunkInput c)).closed = false ∧
    (s.step (chunkInput c)).workRoot = s.workRoot := by
  obtain ⟨isOut, bytes⟩ := c
  have hcc : s.clientClosed = false := by
    simp only [closed, Bool.or_eq_false_iff] at h; exact h.1
  have hre : s.responseEnded = false := by
    simp only [closed, Bool.or_eq_false_iff] at h; exact h.2
  cases isOut with
  | true =>
    have hc' : ({ s with stdout := s.stdout ++ bufferToString bytes } : StreamState).closed
        = false := h
    simp only [chunkInput, chunkEvent, step, if_true]
    refine ⟨?_, ?_, ?_, ?_, ?_⟩
    · rw [written_safeWrite, hc']; simp [written]
    · rw [(buffers_safeWrite _ _ _).1]; simp [stdoutDataOf]
    · rw [(buffers_safeWrite _ _ _).2.1]; simp [stderrDataOf]
    · simp [closed, clientClosed_safeWrite, responseEnded_safeWrite, hcc, hre]
    · rw [(buffers_safeWrite _ _ _).2.2]
  | false =>
    have hc' : ({ s with stderr := s.stderr ++ bufferToString bytes } : StreamState).closed
        = false := h
    simp only [chunkInput, chunkEvent, step, Bool.false_eq_true, if_false]
    refine ⟨?_, ?_, ?_, ?_, ?_⟩
    · rw [written_safeWrite, hc']; simp [written]
    · rw [(buffers_safeWrite _ _ _).1]; simp [stdoutDataOf]
    · rw [(buffers_safeWrite _ _ _).2.1]; simp [stderrDataOf]
    · simp [closed, clientClosed_safeWrite, responseEnded_safeWrite, hcc, hre]
    · rw [(buffers_safeWrite _ _ _).2.2]

open StreamState in
/-- A run of chunks handled while the sink is open and the writes succeed. -/
theorem foldl_chunks_open (chunks : List Chunk) : ∀ s : StreamState, s.closed = false →
    ((chunks.map chunkInput).foldl step s).written = s.written ++ chunks.map chunkEvent ∧
    ((chunks.map chunkInput).foldl step s).stdout
      = s.stdout ++ stdoutDataOf (chunks.map chunkEvent) ∧
    ((chunks.map chunkInput).foldl step s).stderr
      = s.stderr ++ stderrDataOf (chunks.map chunkEvent) ∧
    ((chunks.map chunkInput).foldl step s).closed = false ∧
    ((chunks.map chunkInput).foldl step s).workRoot = s.workRoot := by
  induction chunks with
  | nil => intro s h; simp [stdoutDataOf, stderrDataOf, h]
  | cons c cs ih =>
    intro s h
    obtain ⟨a1, a2, a3, a4, a5⟩ := step_chunk_open s c h
    obtain ⟨b1, b2, b3, b4, b5⟩ := ih (s.step (chunkInput c)) a4
    simp only [List.map_cons, List.foldl_cons]
    refine ⟨?_, ?_, ?_, b4, ?_⟩
    · rw [b1, a1]; simp
    · rw [b2, a2, List.append_assoc, ← stdoutDataOf_append]; rfl
    · rw [b3, a3, List.append_assoc, ← stderrDataOf_append]; rfl
    · rw [b5, a5]

open StreamState in
theorem streamSession_chunks (workRoot : Str) (chunks : List Chunk) :
    (streamSession workRoot false (chunks.map chunkInput)).written
      = .start workRoot :: chunks.map chunkEvent ∧
    (streamSession workRoot false (chunks.map chunkInput)).stdout
      = stdoutDataOf (chunks.map chunkEvent) ∧
    (streamSession workRoot false (chunks.map chunkInput)).stderr
      = stderrDataOf (chunks.map chunkEvent) ∧
    (streamSession workRoot false (chunks.map chunkInput)).closed = false ∧
    (streamSession workRoot false (chunks.map chunkInput)).workRoot = workRoot := by
  obtain ⟨h1, h2, h3, _⟩ := start_state workRoot false
  have hopen : ((init workRoot).safeWrite (.start workRoot) false).closed = false := by
    simp [closed, h2, h3]
  obtain ⟨b1, b2, b3, b4, b5⟩ := foldl_chunks_open chunks _ hopen
  have hb := buffers_safeWrite (init workRoot) (.start workRoot) false
  unfold streamSession
  refine ⟨?_, ?_, ?_, b4, ?_⟩
  · rw [b1, h1]; rfl
  · rw [b2, hb.1]; rfl
  · rw [b3, hb.2.1]; rfl
  · rw [b5, hb.2.2]; rfl

/-- C9 (amended): while the sink stays open, every stdout or stderr chunk is
emitted as one `stdout{data}` / `stderr{data}` event in arrival order, `data`
being the UTF-8 decoding of that chunk taken on its own (`chunk.toString()`);
the `end` event's `stdout` and `stderr` are the in-order concatenations of the
data of the `stdout` and `stderr` events emitted before it, and its `summary`
is `parseSummary` of that stdout; so two runs whose events carry the same
concatenated data and whose exit codes agree end with the same `end` event. -/
theorem stream_relays_chunks (workRoot : Str) (chunks : List Chunk) (code : Option Int) :
    (streamSession workRoot false
        (chunks.map chunkInput ++ [.childClose code false])).written
      = .start workRoot :: chunks.map chunkEvent ++
          [.finish
            { ok := code.getD 1 == 0
              exit_code := code.getD 1
              stdout := stdoutDataOf (chunks.map chunkEvent)
              stderr := stderrDataOf (chunks.map chunkEvent)
              summary := parseSummary (stdoutDataOf (chunks.map chunkEvent))
              work_root := workRoot }] ∧
    (∀ c ∈ chunks, chunkEvent c = .stdout (bufferToString c.2)
        ∨ chunkEvent c = .stderr (bufferToString c.2)) ∧
    (∀ chunks2 : List Chunk,
      stdoutDataOf (chunks2.map chunkEvent) = stdoutDataOf (chunks.map chunkEvent) →
      stderrDataOf (chunks2.map chunkEvent) = stderrDataOf (chunks.map chunkEvent) →
      (streamSession workRoot false
          (chunks2.map chunkInput ++ [.childClose code false])).written.getLast?
        = (streamSession workRoot false
          (chunks.map chunkInput ++ [.childClose code false])).written.getLast?) := by
  have key : ∀ cs : List Chunk,
      (streamSession workRoot false (cs.map chunkInput ++ [.childClose code false])).written
        = .start workRoot :: cs.map chunkEvent ++
          [.finish
            { ok := code.getD 1 == 0
              exit_code := code.getD 1
              stdout := stdoutDataOf (cs.map chunkEvent)
              stderr := stderrDataOf (cs.map chunkEvent)
              summary := parseSummary (stdoutDataOf (cs.map chunkEvent))
              work_root := workRoot }] := by
    intro cs
    obtain ⟨h1, h2, h3, h4, h5⟩ := streamSession_chunks workRoot cs
    rw [streamSession_append]
    simp only [List.foldl_cons, List.foldl_nil]
    rw [(StreamState.step_childClose_open _ code h4).1, h1, h2, h3, h5]
    rfl
  refine ⟨key chunks, ?_, ?_⟩
  · intro c _
    unfold chunkEvent
    split
    · exact Or.inl rfl
    · exact Or.inr rfl
  · intro chunks2 e1 e2
    rw [key chunks2, key chunks, e1, e2,
      List.getLast?_append_of_ne_nil _ (by simp), List.getLast?_append_of_ne_nil _ (by simp)]

theorem stream_relays_chunks_witness :
    (streamSession "/w".toList false
        ([(true, [104, 105]), (false, [33]), (true, [10])].map chunkInput
          ++ [.childClose (some 0) false])).written.getLast?
      = (streamSession "/w".toList false
        ([(false, [33]), (true, [104]), (true, [105, 10])].map chunkInput
          ++ [.childClose (some 0) false])).written.getLast? :=
  ((stream_relays_chunks "/w".toList [(false, [33]), (true, [104]), (true, [105, 10])]
    (some 0)).2.2 [(true, [104, 105]), (false, [33]), (true, [10])]
    (by decide) (by decide))

/-- C9 as stated fails at the byte level: the two bytes `C3 A9` of `é`
delivered as one stdout chunk give the data `é`, delivered as two chunks they
give two events whose data is U+FFFD, not the bytes received, and the `end`
events of the two runs differ in `stdout` although the child wrote the same
bytes. -/
theorem stream_relays_chunks_counterexample :
    streamBytes true [(true, [0xC3, 0xA9])]
      = streamBytes true [(true, [0xC3]), (true, [0xA9])] ∧
    chunkEvent (true, [0xC3, 0xA9]) = .stdout [Char.ofNat 0xE9] ∧
    chunkEvent (true, [0xC3]) = .stdout [Char.ofNat 0xFFFD] ∧
    chunkEvent (true, [0xA9]) = .stdout [Char.ofNat 0xFFFD] ∧
    (streamSession "/w".toList false
        ([(true, [0xC3, 0xA9])].map chunkInput ++ [.childClose (some 0) false])).written.getLast?
      ≠ (streamSession "/w".toList false
        ([(true, [0xC3]), (true, [0xA9])].map chunkInput
          ++ [.childClose (some 0) false])).written.getLast? := by
  decide

/-! ## C10: exit code and `ok` -/

theorem foldl_step_resolved (later : List ChildEvent) (code : Int) (out err : Str) :
    later.foldl ProcResult.step (.resolved code out err) = .resolved code out err := by
  induction later with
  | nil => rfl
  | cons e es ih => simpa [List.foldl_cons, ProcResult.step] using ih

theorem foldl_step_chunks (chunks : List Chunk) : ∀ out err : Str,
    (chunks.map chunkChildEvent).foldl ProcResult.step (.pending out err)
      = .pending (out ++ stdoutDataOf (chunks.map chunkEvent))
          (err ++ stderrDataOf (chunks.map chunkEvent)) := by
  induction chunks with
  | nil => intro out err; simp [stdoutDataOf, stderrDataOf]
  | cons c cs ih =>
    intro out err
    obtain ⟨isOut, bytes⟩ := c
    cases isOut with
    | true =>
      simp only [List.map_cons, List.foldl_cons, chunkChildEvent, chunkEvent, if_true,
        ProcResult.step, ih, stdoutDataOf, stderrDataOf, List.append_assoc]
    | false =>
      simp only [List.map_cons, List.foldl_cons, chunkChildEvent, chunkEvent,
        Bool.false_eq_true, if_false, ProcResult.step, ih, stdoutDataOf, stderrDataOf,
        List.append_assoc]

/-- `runProcess` on a run that closes: output up to `close`, exit code
`code ?? 1`. -/
theorem runProcess_completed (chunks : List Chunk) (code : Option Int)
    (later : List ChildEvent) :
    runProcess (chunks.map chunkChildEvent ++ .close code :: later)
      = .resolved (code.getD 1) (stdoutDataOf (chunks.map chunkEvent))
          (stderrDataOf (chunks.map chunkEvent)) := by
  unfold runProcess
  rw [List.foldl_append, foldl_step_chunks, List.foldl_cons]
  simp only [List.nil_append, ProcResult.step]
  exact foldl_step_resolved later _ _ _

/-- C10: for a Driver run that completes (its output chunks, then `close`), the
buffered endpoint answers with status 200 and the result object, and the
streaming endpoint, when the sink is open and the write succeeds, writes the
`end` event with the result object; in both the exit code is the code reported
by `close`, or 1 when that is `null`, `ok` is true exactly when this exit code
is 0, and the result carries stdout, stderr and `parseSummary` of stdout,
whether the exit code is zero or not. -/
theorem completed_run_result (sys : Sys) (body : RunBody) (keychain : List ChildEvent)
    (p : RunParams) (n : Int) (pre : List Action) (t : Str)
    (hp : readParams body = some p) (hv : validate p = .valid n)
    (ht : resolveToken sys p.requestedToken keychain = (pre, .token t))
    (chunks : List Chunk) (code : Option Int) (later : List ChildEvent)
    (workRoot : Str) (startThrows : Bool) (before : List StreamInput)
    (hopen : (streamSession workRoot startThrows before).closed = false) :
    runBatch sys body keychain (chunks.map chunkChildEvent ++ .close code :: later)
      = pre ++ [spawnDriver sys p n t,
          .json 200 (.result
            { ok := code.getD 1 == 0
              exit_code := code.getD 1
              stdout := stdoutDataOf (chunks.map chunkEvent)
              stderr := stderrDataOf (chunks.map chunkEvent)
              summary := parseSummary (stdoutDataOf (chunks.map chunkEvent))
              work_root := resolveWorkRoot sys p.workRoot })] ∧
    (streamSession workRoot startThrows (before ++ [.childClose code false])).written.getLast?
      = some (.finish
          { ok := code.getD 1 == 0
            exit_code := code.getD 1
            stdout := (streamSession workRoot startThrows before).stdout
            stderr := (streamSession workRoot startThrows before).stderr
            summary := parseSummary (streamSession workRoot startThrows before).stdout
            work_root := (streamSession workRoot startThrows before).workRoot }) ∧
    (code.getD 1 = match code with
      | some c => c
      | none => 1) ∧
    ((code.getD 1 == 0) = true ↔ code.getD 1 = 0) := by
  refine ⟨?_, ?_, ?_, ?_⟩
  · unfold runBatch
    simp only [hp, hv, ht, runProcess_completed, batchResult, List.append_assoc,
      List.singleton_append]
  · rw [streamSession_append]
    simp only [List.foldl_cons, List.foldl_nil]
    rw [(StreamState.step_childClose_open _ code hopen).1,
      List.getLast?_append_of_ne_nil _ (by simp)]
    rfl
  · cases code <;> rfl
  · simp

theorem completed_run_result_witness :
    runBatch ⟨"/s/run.sh".toList, "/cwd/runs".toList, "/repo".toList, []⟩
        ⟨.num (.int 2) ['2'], .str "echo hi".toList, .str "tok".toList, .null, .undefined⟩ []
        ([(true, [104, 105]), (false, [33])].map chunkChildEvent ++ .close none :: [])
      = [] ++ [spawnDriver ⟨"/s/run.sh".toList, "/cwd/runs".toList, "/repo".toList, []⟩
          ⟨.int 2, "echo hi".toList, "tok".toList, [], 1800⟩ 2 "tok".toList,
          .json 200 (.result
            { ok := (none : Option Int).getD 1 == 0
              exit_code := (none : Option Int).getD 1
              stdout := stdoutDataOf ([(true, [104, 105]), (false, [33])].map chunkEvent)
              stderr := stderrDataOf ([(true, [104, 105]), (false, [33])].map chunkEvent)
              summary := parseSummary
                (stdoutDataOf ([(true, [104, 105]), (false, [33])].map chunkEvent))
              work_root := resolveWorkRoot
                ⟨"/s/run.sh".toList, "/cwd/runs".toList, "/repo".toList, []⟩ [] })] :=
  (completed_run_result ⟨"/s/run.sh".toList, "/cwd/runs".toList, "/repo".toList, []⟩
    ⟨.num (.int 2) ['2'], .str "echo hi".toList, .str "tok".toList, .null, .undefined⟩ []
    ⟨.int 2, "echo hi".toList, "tok".toList, [], 1800⟩ 2 [] "tok".toList
    (by decide) (by decide) (by decide) [(true, [104, 105]), (false, [33])] none []
    "/w".toList false [] (by decide)).1

/-! ## C2: validation -/

open StreamState in
theorem trace_safeWrite (s : StreamState) (e : StreamEvent) (w : Bool)
    (h : ∀ a ∈ s.trace, a.isStreamAction = true) :
    ∀ a ∈ (s.safeWrite e w).trace, a.isStreamAction = true := by
  unfold safeWrite
  split
  · exact h
  · split
    · exact h
    · intro a ha
      rcases List.mem_append.1 ha with ha | ha
      · exact h a ha
      · simp at ha; rw [ha]; rfl

open StreamState in
theorem trace_safeEnd (s : StreamState) (h : ∀ a ∈ s.trace, a.isStreamAction = true) :
    ∀ a ∈ s.safeEnd.trace, a.isStreamAction = true := by
  unfold safeEnd
  split
  · exact h
  · intro a ha
    rcases List.mem_append.1 ha with ha | ha
    · exact h a ha
    · simp at ha; rw [ha]; rfl

open StreamState in
theorem trace_terminate (s : StreamState) (h : ∀ a ∈ s.trace, a.isStreamAction = true) :
    ∀ a ∈ s.terminateChildProcess.trace, a.isStreamAction = true := by
  intro a ha
  rcases List.mem_append.1 ha with ha | ha
  · exact h a ha
  · simp at ha
    rcases ha with ha | ha <;> (rw [ha]; rfl)

open StreamState in
theorem trace_step (s : StreamState) (i : StreamInput)
    (h : ∀ a ∈ s.trace, a.isStreamAction = true) :
    ∀ a ∈ (s.step i).trace, a.isStreamAction = true := by
  cases i with
  | stdoutData chunk w => exact trace_safeWrite _ _ _ h
  | stderrData chunk w => exact trace_safeWrite _ _ _ h
  | childError e w => exact trace_safeEnd _ (trace_safeWrite _ _ _ h)
  | childClose code w => exact trace_safeEnd _ (trace_safeWrite _ _ _ h)
  | reqAborted => exact trace_terminate _ h
  | resClose =>
    simp only [step]
    split
    · exact h
    · exact trace_terminate _ h
  | resError => exact trace_terminate _ h

open StreamState in
theorem trace_streamSession (workRoot : Str) (startThrows : Bool)
    (inputs : List StreamInput) :
    ∀ a ∈ (streamSession workRoot startThrows inputs).trace, a.isStreamAction = true := by
  have base : ∀ a ∈ ((init workRoot).safeWrite (.start workRoot) startThrows).trace,
      a.isStreamAction = true :=
    trace_safeWrite _ _ _ (by simp [init])
  have gen : ∀ (is : List StreamInput) (s : StreamState),
      (∀ a ∈ s.trace, a.isStreamAction = true) →
      ∀ a ∈ (is.foldl step s).trace, a.isStreamAction = true := by
    intro is
    induction is with
    | nil => intro s h; exact h
    | cons i is ih => intro s h; exact ih _ (trace_step s i h)
  exact gen inputs _ base

theorem acceptedCount_eq_some (x : JSNumber) (i : Int) :
    acceptedCount x = some i ↔ x = .int i ∧ 1 ≤ i ∧ i ≤ 100 := by
  cases x with
  | int j =>
    simp only [acceptedCount, JSNumber.asInteger, JSNumber.int.injEq]
    constructor
    · intro h
      split at h
      · exact absurd h (by simp)
      · simp only [Option.some.injEq] at h
        subst h
        exact ⟨rfl, by omega, by omega⟩
    · rintro ⟨rfl, h1, h2⟩
      rw [if_neg (by omega)]
  | negZero =>
    simp only [acceptedCount, JSNumber.asInteger]
    constructor
    · intro h; simp at h
    · rintro ⟨h, _⟩; cases h
  | nan => simp [acceptedCount, JSNumber.asInteger]
  | posInf => simp [acceptedCount, JSNumber.asInteger]
  | negInf => simp [acceptedCount, JSNumber.asInteger]
  | frac n m k => simp [acceptedCount, JSNumber.asInteger]

theorem acceptedCount_eq_none (x : JSNumber) :
    acceptedCount x = none ↔ ∀ i : Int, 1 ≤ i → i ≤ 100 → x ≠ .int i := by
  constructor
  · intro h i h1 h2 hx
    have := (acceptedCount_eq_some x i).2 ⟨hx, h1, h2⟩
    rw [h] at this
    exact absurd this (by simp)
  · intro h
    cases hx : acceptedCount x with
    | none => rfl
    | some i =>
      obtain ⟨h1, h2, h3⟩ := (acceptedCount_eq_some x i).1 hx
      exact absurd h1 (h i h2 h3)

theorem resolveToken_pre (sys : Sys) (requestedToken : Str) (keychain : List ChildEvent) :
    ∀ a ∈ (resolveToken sys requestedToken keychain).1, ∀ b, a ≠ .json 400 b := by
  unfold resolveToken
  split <;> simp

theorem readParams_eq_some (body : RunBody) (p : RunParams) (hp : readParams body = some p) :
    (body.count.or (.num (.int 0) ['0'])).toNumber = some p.count ∧
    (∃ raw, (body.commandTemplate.or (.str [])).toStr = some raw ∧
      p.commandTemplate = jsTrim raw) := by
  unfold readParams at hp
  simp only [Option.bind_eq_bind, Option.bind_eq_some, Option.pure_def, Option.some.injEq] at hp
  obtain ⟨c, hc, ct, hct, rt, _, wr, _, tr, _, rfl⟩ := hp
  exact ⟨hc, ct, hct, rfl⟩

theorem validate_invalid (p : RunParams)
    (h : (∀ i : Int, 1 ≤ i → i ≤ 100 → p.count ≠ .int i) ∨ p.commandTemplate = []) :
    ∃ msg, validate p = .invalid msg := by
  unfold validate
  cases hc : acceptedCount p.count with
  | none => exact ⟨_, rfl⟩
  | some n =>
    rcases h with h | h
    · rw [(acceptedCount_eq_none _).2 h] at hc
      exact absurd hc (by simp)
    · exact ⟨"commandTemplate is required".toList, by simp [h]⟩

theorem validate_valid (p : RunParams) (i : Int) (h1 : 1 ≤ i) (h2 : i ≤ 100)
    (hc : p.count = .int i) (ht : p.commandTemplate ≠ []) : validate p = .valid i := by
  unfold validate
  rw [(acceptedCount_eq_some _ i).2 ⟨hc, h1, h2⟩]
  simp [ht]

/-- C2 (amended): for every request whose first-line conversions do not throw,
let `count` be `Number(body.count || 0)` (it is 0 for a missing or null count,
and for a JSON number it is an integer in [1,100] exactly when that number is)
and `commandTemplate` be `String(body.commandTemplate || "").trim()`. If
`count` is not an integer in [1,100] or `commandTemplate` is empty, the
buffered and the streaming endpoint each perform exactly one action, the 400
response with the same error message: no process is spawned, no header set and
no event written. Conversely, if `count` is an integer in [1,100] and
`commandTemplate` is not empty, validation passes and neither endpoint answers
400. -/
theorem validation_before_spawn (sys : Sys) (body : RunBody) (p : RunParams)
    (hp : readParams body = some p) (keychain driver : List ChildEvent)
    (startThrows : Bool) (inputs : List StreamInput) :
    (body.count.or (.num (.int 0) ['0'])).toNumber = some p.count ∧
    (body.count = .undefined ∨ body.count = .null → p.count = .int 0) ∧
    (∀ x text, body.count = .num x text →
      ∀ i : Int, 1 ≤ i → i ≤ 100 → (p.count = .int i ↔ x = .int i)) ∧
    (∃ raw, (body.commandTemplate.or (.str [])).toStr = some raw ∧
      p.commandTemplate = jsTrim raw) ∧
    (((∀ i : Int, 1 ≤ i → i ≤ 100 → p.count ≠ .int i) ∨ p.commandTemplate = []) →
      ∃ msg, runBatch sys body keychain driver = [.json 400 (.error msg)] ∧
        runBatchStream sys body keychain startThrows inputs = [.json 400 (.error msg)]) ∧
    (∀ i : Int, 1 ≤ i → i ≤ 100 → p.count = .int i → p.commandTemplate ≠ [] →
      validate p = .valid i ∧
      (∀ b, Action.json 400 b ∉ runBatch sys body keychain driver) ∧
      (∀ b, Action.json 400 b ∉ runBatchStream sys body keychain startThrows inputs)) := by
  obtain ⟨r1, r2⟩ := readParams_eq_some body p hp
  refine ⟨r1, ?_, ?_, r2, ?_, ?_⟩
  · intro h
    rcases h with h | h <;> rw [h] at r1 <;>
      simpa [JSVal.or, JSVal.truthy, JSVal.toNumber] using r1.symm
  · intro x text hx i h1 h2
    rw [hx] at r1
    by_cases ht : x.truthy = true
    · have : p.count = x := by
        simpa [JSVal.or, JSVal.truthy, JSVal.toNumber, ht] using r1.symm
      rw [this]
    · have hp0 : p.count = .int 0 := by
        simpa [JSVal.or, JSVal.truthy, JSVal.toNumber, ht] using r1.symm
      rw [hp0]
      constructor
      · intro h; simp at h; omega
      · intro h
        rw [h] at ht
        simp [JSNumber.truthy] at ht
        omega
  · intro h
    obtain ⟨msg, hm⟩ := validate_invalid p h
    exact ⟨msg, by simp [runBatch, hp, hm], by simp [runBatchStream, hp, hm]⟩
  · intro i h1 h2 hc ht
    have hv := validate_valid p i h1 h2 hc ht
    have hpre := resolveToken_pre sys p.requestedToken keychain
    refine ⟨hv, ?_, ?_⟩
    · intro b hb
      unfold runBatch at hb
      simp only [hp, hv] at hb
      rcases htok : resolveToken sys p.requestedToken keychain with ⟨pre, out⟩
      rw [htok] at hb hpre
      cases out with
      | hang => exact hpre _ hb b rfl
      | failed e =>
        rcases List.mem_append.1 hb with hb | hb
        · exact hpre _ hb b rfl
        · simp at hb
      | token t =>
        simp only [List.mem_append, List.mem_singleton] at hb
        rcases hb with (hb | hb) | hb
        · exact hpre _ hb b rfl
        · simp [spawnDriver] at hb
        · cases hr : runProcess driver <;> rw [hr] at hb <;> simp at hb
    · intro b hb
      unfold runBatchStream at hb
      simp only [hp, hv] at hb
      rcases htok : resolveToken sys p.requestedToken keychain with ⟨pre, out⟩
      rw [htok] at hb hpre
      cases out with
      | hang => exact hpre _ hb b rfl
      | failed e =>
        rcases List.mem_append.1 hb with hb | hb
        · exact hpre _ hb b rfl
        · simp at hb
      | token t =>
        simp only [List.mem_append] at hb
        rcases hb with (hb | hb) | hb
        · exact hpre _ hb b rfl
        · simp [spawnDriver] at hb
        · split at hb
          · simp at hb
          · have := trace_streamSession _ _ _ _ hb
            simp [Action.isStreamAction] at this

theorem validation_before_spawn_witness :
    (∃ msg, runBatch ⟨"/s/run.sh".toList, "/cwd/runs".toList, "/repo".toList, []⟩
        ⟨.num (.frac false 3 1) "1.5".toList, .str "echo hi".toList, .null, .null, .undefined⟩
        [] [] = [.json 400 (.error msg)] ∧
      runBatchStream ⟨"/s/run.sh".toList, "/cwd/runs".toList, "/repo".toList, []⟩
        ⟨.num (.frac false 3 1) "1.5".toList, .str "echo hi".toList, .null, .null, .undefined⟩
        [] false [] = [.json 400 (.error msg)]) ∧
    validate ⟨.int 100, "echo hi".toList, "tok".toList, [], 1800⟩ = .valid 100 :=
  ⟨(validation_before_spawn ⟨"/s/run.sh".toList, "/cwd/runs".toList, "/repo".toList, []⟩
      ⟨.num (.frac false 3 1) "1.5".toList, .str "echo hi".toList, .null, .null, .undefined⟩
      ⟨.frac false 3 1, "echo hi".toList, [], [], 1800⟩ (by decide) [] [] false []).2.2.2.2.1
      (Or.inl (by intro i _ _ h; cases h)),
    ((validation_before_spawn ⟨"/s/run.sh".toList, "/cwd/runs".toList, "/repo".toList, []⟩
      ⟨.num (.int 100) "100".toList, .str " echo hi ".toList, .str "tok".toList, .null,
        .undefined⟩
      ⟨.int 100, "echo hi".toList, "tok".toList, [], 1800⟩ (by decide) [] [] false []).2.2.2.2.2
      100 (by decide) (by decide) rfl (by decide)).1⟩

/-- C2 as stated fails for a `count` that is not a number but converts to one:
with `count: "5"` (a string) both endpoints pass validation and spawn the
Driver with argument `5`, and no 400 is sent. And when a conversion of the
first lines throws (here `workRoot` is an object whose `toString` is not
callable) a request with `count: 0` gets no 400 either: the handler throws
before the checks. -/
theorem validation_before_spawn_counterexample :
    runBatch ⟨"/s/run.sh".toList, "/cwd/runs".toList, "/repo".toList, []⟩
        ⟨.str "5".toList, .str "echo hi".toList, .str "tok".toList, .null, .undefined⟩ [] []
      = [.spawn "/bin/bash".toList ["/s/run.sh".toList, "5".toList, "/cwd/runs".toList]
          [("AGENT_FACTORY_COMMAND".toList, "echo hi".toList),
            ("AGENT_FACTORY_CWD".toList, "/repo".toList),
            ("RUN_TIMEOUT_SECONDS".toList, "1800".toList),
            ("RUN_HEARTBEAT_SECONDS".toList, "15".toList),
            ("RAILWAY_TOKEN".toList, "tok".toList)]] ∧
    (runBatchStream ⟨"/s/run.sh".toList, "/cwd/runs".toList, "/repo".toList, []⟩
        ⟨.str "5".toList, .str "echo hi".toList, .str "tok".toList, .null, .undefined⟩ []
        false []).getLast? = some (.write (.start "/cwd/runs".toList)) ∧
    runBatch ⟨"/s/run.sh".toList, "/cwd/runs".toList, "/repo".toList, []⟩
        ⟨.num (.int 0) ['0'], .str "echo hi".toList, .null, .obj none, .undefined⟩ [] []
      = [.throwTypeError] ∧
    runBatchStream ⟨"/s/run.sh".toList, "/cwd/runs".toList, "/repo".toList, []⟩
        ⟨.num (.int 0) ['0'], .str "echo hi".toList, .null, .obj none, .undefined⟩ [] false []
      = [.throwTypeError] := by
  decide

/-! ## C13: the two endpoints start the Driver alike -/

theorem filter_isSpawn_streamSession (workRoot : Str) (startThrows : Bool)
    (inputs : List StreamInput) :
    (streamSession workRoot startThrows inputs).trace.filter Action.isSpawn = [] := by
  rw [List.filter_eq_nil_iff]
  intro a ha
  have := trace_streamSession workRoot startThrows inputs a ha
  cases a <;> simp [Action.isStreamAction, Action.isSpawn] at this ⊢

theorem resolveToken_cases (sys : Sys) (requestedToken : Str) (keychain : List ChildEvent) :
    (requestedToken ≠ [] ∧
      resolveToken sys requestedToken keychain = ([], .token requestedToken)) ∨
    (requestedToken = [] ∧
      resolveToken sys requestedToken keychain
        = ([.spawn "security".toList keychainArgs sys.processEnv],
            readKeychainToken keychain)) := by
  unfold resolveToken
  by_cases h : requestedToken = []
  · exact Or.inr ⟨h, by simp [h]⟩
  · exact Or.inl ⟨h, by simp [h]⟩

theorem filter_isSpawn_pre (sys : Sys) (requestedToken : Str) (keychain : List ChildEvent) :
    (resolveToken sys requestedToken keychain).1.filter Action.isSpawn
      = (resolveToken sys requestedToken keychain).1 := by
  rcases resolveToken_cases sys requestedToken keychain with ⟨_, h⟩ | ⟨_, h⟩ <;>
    simp [h, Action.isSpawn]

/-- The actions of the buffered handler for an accepted request. -/
theorem runBatch_accepted (sys : Sys) (body : RunBody) (keychain driver : List ChildEvent)
    (p : RunParams) (n : Int) (hp : readParams body = some p) (hv : validate p = .valid n) :
    runBatch sys body keychain driver
      = match resolveToken sys p.requestedToken keychain with
        | (pre, .hang) => pre
        | (pre, .failed e) => pre ++ [.json 500 (.error e)]
        | (pre, .token t) =>
          pre ++ [spawnDriver sys p n t] ++
            (match runProcess driver with
            | .pending _ _ => []
            | .rejected e => [.json 500 (.error e)]
            | .resolved code out err =>
              [.json 200 (.result (batchResult code out err (resolveWorkRoot sys p.workRoot)))]) := by
  simp only [runBatch, hp, hv]

/-- The actions of the streaming handler for an accepted request. -/
theorem runBatchStream_accepted (sys : Sys) (body : RunBody) (keychain : List ChildEvent)
    (startThrows : Bool) (inputs : List StreamInput)
    (p : RunParams) (n : Int) (hp : readParams body = some p) (hv : validate p = .valid n) :
    runBatchStream sys body keychain startThrows inputs
      = match resolveToken sys p.requestedToken keychain with
        | (pre, .hang) => pre
        | (pre, .failed e) => pre ++ [.json 500 (.error e)]
        | (pre, .token t) =>
          pre ++
            [.setHeader "Content-Type".toList "application/x-ndjson".toList,
              .setHeader "Cache-Control".toList "no-cache".toList,
              .setHeader "Connection".toList "keep-alive".toList,
              .flushHeaders,
              spawnDriver sys p n t] ++
            (if (spawnDriver sys p n t).spawnThrows then [.json 500 .spawnThrew]
              else (streamSession (resolveWorkRoot sys p.workRoot) startThrows inputs).trace) := by
  simp only [runBatchStream, hp, hv]

/-- The processes either handler spawns for an accepted request. -/
theorem spawns_accepted (sys : Sys) (body : RunBody) (keychain driver : List ChildEvent)
    (startThrows : Bool) (inputs : List StreamInput)
    (p : RunParams) (n : Int) (hp : readParams body = some p) (hv : validate p = .valid n) :
    (runBatch sys body keychain driver).filter Action.isSpawn
      = (resolveToken sys p.requestedToken keychain).1 ++
          (match (resolveToken sys p.requestedToken keychain).2 with
          | .token t => [spawnDriver sys p n t]
          | _ => []) ∧
    (runBatchStream sys body keychain startThrows inputs).filter Action.isSpawn
      = (resolveToken sys p.requestedToken keychain).1 ++
          (match (resolveToken sys p.requestedToken keychain).2 with
          | .token t => [spawnDriver sys p n t]
          | _ => []) := by
  have hpre := filter_isSpawn_pre sys p.requestedToken keychain
  rw [runBatch_accepted sys body keychain driver p n hp hv,
    runBatchStream_accepted sys body keychain startThrows inputs p n hp hv]
  rcases htok : resolveToken sys p.requestedToken keychain with ⟨pre, out⟩
  rw [htok] at hpre
  simp only at hpre
  cases out with
  | hang => simp [hpre]
  | failed e => simp [List.filter_append, hpre, Action.isSpawn]
  | token t =>
    refine ⟨?_, ?_⟩
    · simp only [List.filter_append, hpre]
      cases runProcess driver <;> simp [Action.isSpawn, spawnDriver]
    · simp only [List.filter_append, hpre]
      split <;> simp [Action.isSpawn, spawnDriver, filter_isSpawn_streamSession]

theorem filter_isRejection_streamSession (workRoot : Str) (startThrows : Bool)
    (inputs : List StreamInput) :
    (streamSession workRoot startThrows inputs).trace.filter Action.isRejection = [] := by
  rw [List.filter_eq_nil_iff]
  intro a ha
  have := trace_streamSession workRoot startThrows inputs a ha
  cases a <;> simp [Action.isStreamAction, Action.isRejection] at this ⊢

theorem filter_isRejection_pre (sys : Sys) (requestedToken : Str)
    (keychain : List ChildEvent) :
    (resolveToken sys requestedToken keychain).1.filter Action.isRejection = [] := by
  rcases resolveToken_cases sys requestedToken keychain with ⟨_, h⟩ | ⟨_, h⟩ <;>
    simp [h, Action.isRejection]

/-- An accepted request is not rejected by either handler. -/
theorem rejections_accepted (sys : Sys) (body : RunBody) (keychain driver : List ChildEvent)
    (startThrows : Bool) (inputs : List StreamInput)
    (p : RunParams) (n : Int) (hp : readParams body = some p) (hv : validate p = .valid n) :
    (runBatch sys body keychain driver).filter Action.isRejection = [] ∧
    (runBatchStream sys body keychain startThrows inputs).filter Action.isRejection = [] := by
  have hpre := filter_isRejection_pre sys p.requestedToken keychain
  rw [runBatch_accepted sys body keychain driver p n hp hv,
    runBatchStream_accepted sys body keychain startThrows inputs p n hp hv]
  rcases htok : resolveToken sys p.requestedToken keychain with ⟨pre, out⟩
  rw [htok] at hpre
  simp only at hpre
  cases out with
  | hang => simp [hpre]
  | failed e => simp [List.filter_append, hpre, Action.isRejection]
  | token t =>
    refine ⟨?_, ?_⟩
    · simp only [List.filter_append, hpre]
      cases runProcess driver <;> simp [Action.isRejection, spawnDriver]
    · simp only [List.filter_append, hpre]
      split <;> simp [Action.isRejection, spawnDriver, filter_isRejection_streamSession]

/-- The rejections of either handler: the exception when a conversion throws,
the 400 response when validation fails, none otherwise. -/
theorem rejections_eq (sys : Sys) (body : RunBody) (keychain driver : List ChildEvent)
    (startThrows : Bool) (inputs : List StreamInput) :
    (runBatch sys body keychain driver).filter Action.isRejection
      = (match readParams body with
        | none => [.throwTypeError]
        | some p =>
          match validate p with
          | .invalid msg => [.json 400 (.error msg)]
          | .valid _ => []) ∧
    (runBatchStream sys body keychain startThrows inputs).filter Action.isRejection
      = (match readParams body with
        | none => [.throwTypeError]
        | some p =>
          match validate p with
          | .invalid msg => [.json 400 (.error msg)]
          | .valid _ => []) := by
  cases hp : readParams body with
  | none => simp [runBatch, runBatchStream, hp, Action.isRejection]
  | some p =>
    cases hv : validate p with
    | invalid msg => simp [runBatch, runBatchStream, hp, hv, Action.isRejection]
    | valid n =>
      simp only [hv]
      exact rejections_accepted sys body keychain driver startThrows inputs p n hp hv

theorem runProcessEnv_eq_streamHandlerEnv (sys : Sys) (p : RunParams) (token : Str) :
    runProcessEnv sys (driverEnv sys p token) = streamHandlerEnv sys p token := by
  simp [runProcessEnv, driverEnv, streamHandlerEnv]

theorem envGet_append_single (env : List (Str × Str)) (k v name : Str) :
    envGet (env ++ [(k, v)]) name = if k = name then some v else envGet env name := by
  unfold envGet
  rw [List.reverse_append]
  simp only [List.reverse_cons, List.reverse_nil, List.nil_append, List.singleton_append,
    List.find?_cons]
  by_cases h : k = name <;> simp [h]

/-- The effective environment of the Driver: the five variables of the overlay
take their values from the request, every other name keeps the value it has in
`process.env`. -/
theorem envGet_driver (sys : Sys) (p : RunParams) (token : Str) :
    envGet (runProcessEnv sys (driverEnv sys p token)) "AGENT_FACTORY_COMMAND".toList
      = some p.commandTemplate ∧
    envGet (runProcessEnv sys (driverEnv sys p token)) "AGENT_FACTORY_CWD".toList
      = some sys.repoRoot ∧
    envGet (runProcessEnv sys (driverEnv sys p token)) "RUN_TIMEOUT_SECONDS".toList
      = some (natToDecimal p.runTimeoutSeconds.toNat) ∧
    envGet (runProcessEnv sys (driverEnv sys p token)) "RUN_HEARTBEAT_SECONDS".toList
      = some "15".toList ∧
    envGet (runProcessEnv sys (driverEnv sys p token)) "RAILWAY_TOKEN".toList
      = (if token ≠ [] then some token else envGet sys.processEnv "RAILWAY_TOKEN".toList) ∧
    (∀ name : Str, name ≠ "AGENT_FACTORY_COMMAND".toList → name ≠ "AGENT_FACTORY_CWD".toList →
      name ≠ "RUN_TIMEOUT_SECONDS".toList → name ≠ "RUN_HEARTBEAT_SECONDS".toList →
      name ≠ "RAILWAY_TOKEN".toList →
      envGet (runProcessEnv sys (driverEnv sys p token)) name = envGet sys.processEnv name) := by
  have shape : runProcessEnv sys (driverEnv sys p token)
      = ((((sys.processEnv ++ [("AGENT_FACTORY_COMMAND".toList, p.commandTemplate)])
          ++ [("AGENT_FACTORY_CWD".toList, sys.repoRoot)])
          ++ [("RUN_TIMEOUT_SECONDS".toList, natToDecimal p.runTimeoutSeconds.toNat)])
          ++ [("RUN_HEARTBEAT_SECONDS".toList, "15".toList)])
          ++ (if token ≠ [] then [("RAILWAY_TOKEN".toList, token)] else []) := by
    simp [runProcessEnv, driverEnv]
  have n1 : ¬ ("AGENT_FACTORY_CWD".toList = "AGENT_FACTORY_COMMAND".toList) := by decide
  have n2 : ¬ ("RUN_TIMEOUT_SECONDS".toList = "AGENT_FACTORY_COMMAND".toList) := by decide
  have n3 : ¬ ("RUN_HEARTBEAT_SECONDS".toList = "AGENT_FACTORY_COMMAND".toList) := by decide
  have n4 : ¬ ("RAILWAY_TOKEN".toList = "AGENT_FACTORY_COMMAND".toList) := by decide
  have n5 : ¬ ("RUN_TIMEOUT_SECONDS".toList = "AGENT_FACTORY_CWD".toList) := by decide
  have n6 : ¬ ("RUN_HEARTBEAT_SECONDS".toList = "AGENT_FACTORY_CWD".toList) := by decide
  have n7 : ¬ ("RAILWAY_TOKEN".toList = "AGENT_FACTORY_CWD".toList) := by decide
  have n8 : ¬ ("RUN_HEARTBEAT_SECONDS".toList = "RUN_TIMEOUT_SECONDS".toList) := by decide
  have n9 : ¬ ("RAILWAY_TOKEN".toList = "RUN_TIMEOUT_SECONDS".toList) := by decide
  have n10 : ¬ ("RAILWAY_TOKEN".toList = "RUN_HEARTBEAT_SECONDS".toList) := by decide
  rw [shape]
  by_cases ht : token = []
  · simp only [ht, ne_eq, not_true_eq_false, if_false, List.append_nil, envGet_append_single,
      n1, n2, n3, n5, n6, n8, if_true]
    refine ⟨trivial, trivial, trivial, trivial, ?_, ?_⟩
    · rw [if_neg (fun h => n10 h.symm), if_neg (fun h => n9 h.symm),
        if_neg (fun h => n7 h.symm), if_neg (fun h => n4 h.symm)]
    · intro name h1 h2 h3 h4 _
      rw [if_neg (fun h => h4 h.symm), if_neg (fun h => h3 h.symm),
        if_neg (fun h => h2 h.symm), if_neg (fun h => h1 h.symm)]
  · simp only [ht, ne_eq, not_false_eq_true, if_true, envGet_append_single,
      n1, n2, n3, n4, n5, n6, n7, n8, n9, n10, if_false]
    refine ⟨trivial, trivial, trivial, trivial, trivial, ?_⟩
    intro name h1 h2 h3 h4 h5
    rw [if_neg (fun h => h5 h.symm), if_neg (fun h => h4 h.symm),
      if_neg (fun h => h3 h.symm), if_neg (fun h => h2 h.symm), if_neg (fun h => h1 h.symm)]

theorem readParams_workRoot (body : RunBody) (p : RunParams) (hp : readParams body = some p) :
    (∃ raw, (body.workRoot.or (.str [])).toStr = some raw ∧ p.workRoot = jsTrim raw) ∧
    (∃ raw, (body.railwayToken.or (.str [])).toStr = some raw ∧
      p.requestedToken = jsTrim raw) ∧
    (∃ raw, (body.runTimeoutSeconds.nullish (.num (.int 1800) "1800".toList)).toNumber
        = some raw ∧ p.runTimeoutSeconds = clampTimeout raw) := by
  unfold readParams at hp
  simp only [Option.bind_eq_bind, Option.bind_eq_some, Option.pure_def, Option.some.injEq] at hp
  obtain ⟨c, _, ct, _, rt, hrt, wr, hwr, tr, htr, rfl⟩ := hp
  exact ⟨⟨wr, hwr, rfl⟩, ⟨rt, hrt, rfl⟩, ⟨tr, htr, rfl⟩⟩

/-- C13: for every request body, process environment and outcome of the
credential lookup, the buffered and the streaming endpoint reject alike (the
same exception, or the same 400 response with the same message, or no
rejection), spawn the same processes with the same arguments and environment,
and for an accepted request whose token lookup ends they spawn the Driver as
`/bin/bash [script, count, workRoot]`, `workRoot` being the trimmed explicit
value or the default when that is blank, with `process.env` overlaid with the
command template, the target directory, the timeout, heartbeat `15` and the
token when there is one: the environment `runProcess` merges for the buffered
handler and the one the streaming handler builds inline are the same. -/
theorem endpoints_agree (sys : Sys) (body : RunBody) (keychain driver : List ChildEvent)
    (startThrows : Bool) (inputs : List StreamInput) :
    (runBatch sys body keychain driver).filter Action.isRejection
      = (runBatchStream sys body keychain startThrows inputs).filter Action.isRejection ∧
    (runBatch sys body keychain driver).filter Action.isSpawn
      = (runBatchStream sys body keychain startThrows inputs).filter Action.isSpawn ∧
    (∀ (p : RunParams) (n : Int) (t : Str), readParams body = some p →
      validate p = .valid n → (resolveToken sys p.requestedToken keychain).2 = .token t →
      (∃ raw, (body.workRoot.or (.str [])).toStr = some raw ∧ p.workRoot = jsTrim raw) ∧
      Action.spawn "/bin/bash".toList
          [sys.batchScript, natToDecimal n.toNat,
            if p.workRoot ≠ [] then p.workRoot else sys.defaultWorkRoot]
          (runProcessEnv sys (driverEnv sys p t))
        ∈ runBatch sys body keychain driver ∧
      Action.spawn "/bin/bash".toList
          [sys.batchScript, natToDecimal n.toNat,
            if p.workRoot ≠ [] then p.workRoot else sys.defaultWorkRoot]
          (streamHandlerEnv sys p t)
        ∈ runBatchStream sys body keychain startThrows inputs ∧
      runProcessEnv sys (driverEnv sys p t) = streamHandlerEnv sys p t ∧
      envGet (streamHandlerEnv sys p t) "AGENT_FACTORY_COMMAND".toList
        = some p.commandTemplate ∧
      envGet (streamHandlerEnv sys p t) "AGENT_FACTORY_CWD".toList = some sys.repoRoot ∧
      envGet (streamHandlerEnv sys p t) "RUN_TIMEOUT_SECONDS".toList
        = some (natToDecimal p.runTimeoutSeconds.toNat) ∧
      envGet (streamHandlerEnv sys p t) "RUN_HEARTBEAT_SECONDS".toList = some "15".toList ∧
      (t ≠ [] → envGet (streamHandlerEnv sys p t) "RAILWAY_TOKEN".toList = some t)) := by
  obtain ⟨r1, r2⟩ := rejections_eq sys body keychain driver startThrows inputs
  refine ⟨by rw [r1, r2], ?_, ?_⟩
  · cases hp : readParams body with
    | none => simp [runBatch, runBatchStream, hp]
    | some p =>
      cases hv : validate p with
      | invalid msg => simp [runBatch, runBatchStream, hp, hv]
      | valid n =>
        obtain ⟨s1, s2⟩ :=
          spawns_accepted sys body keychain driver startThrows inputs p n hp hv
        rw [s1, s2]
  · intro p n t hp hv ht
    obtain ⟨s1, s2⟩ := spawns_accepted sys body keychain driver startThrows inputs p n hp hv
    obtain ⟨e1, e2, e3, e4, e5, _⟩ := envGet_driver sys p t
    have heq := runProcessEnv_eq_streamHandlerEnv sys p t
    have hmem : spawnDriver sys p n t ∈
        (resolveToken sys p.requestedToken keychain).1 ++
          (match (resolveToken sys p.requestedToken keychain).2 with
          | .token t => [spawnDriver sys p n t]
          | _ => []) := by
      rw [ht]
      simp
    have hsp : spawnDriver sys p n t = Action.spawn "/bin/bash".toList
          [sys.batchScript, natToDecimal n.toNat,
            if p.workRoot ≠ [] then p.workRoot else sys.defaultWorkRoot]
          (runProcessEnv sys (driverEnv sys p t)) := rfl
    refine ⟨(readParams_workRoot body p hp).1, ?_, ?_, heq, ?_, ?_, ?_, ?_, ?_⟩
    · rw [← hsp]
      have := hmem
      rw [← s1] at this
      exact (List.mem_filter.1 this).1
    · rw [← heq, ← hsp]
      have := hmem
      rw [← s2] at this
      exact (List.mem_filter.1 this).1
    · rw [← heq]; exact e1
    · rw [← heq]; exact e2
    · rw [← heq]; exact e3
    · rw [← heq]; exact e4
    · intro htne
      rw [← heq, e5, if_pos htne]

theorem endpoints_agree_witness :
    Action.spawn "/bin/bash".toList ["/s/run.sh".toList, "2".toList, "/cwd/runs".toList]
        (streamHandlerEnv ⟨"/s/run.sh".toList, "/cwd/runs".toList, "/repo".toList,
            [("RUN_HEARTBEAT_SECONDS".toList, "99".toList)]⟩
          ⟨.int 2, "echo hi".toList, "tok".toList, [], 1800⟩ "tok".toList)
      ∈ runBatchStream ⟨"/s/run.sh".toList, "/cwd/runs".toList, "/repo".toList,
            [("RUN_HEARTBEAT_SECONDS".toList, "99".toList)]⟩
          ⟨.num (.int 2) ['2'], .str "echo hi".toList, .str "tok".toList, .str "  ".toList,
            .undefined⟩ [] false [] :=
  ((endpoints_agree ⟨"/s/run.sh".toList, "/cwd/runs".toList, "/repo".toList,
      [("RUN_HEARTBEAT_SECONDS".toList, "99".toList)]⟩
    ⟨.num (.int 2) ['2'], .str "echo hi".toList, .str "tok".toList, .str "  ".toList,
      .undefined⟩ [] [] false []).2.2
    ⟨.int 2, "echo hi".toList, "tok".toList, [], 1800⟩ 2 "tok".toList
    (by decide) (by decide) (by decide)).2.2.1

/-! ## C11: the run timeout -/

theorem clampTimeout_of_integer (raw : JSNumber) (i : Int) (h : raw.asInteger = some i) :
    clampTimeout raw = if i < 60 then 60 else if 7200 < i then 7200 else i := by
  unfold clampTimeout
  rw [h]
  simp only
  split
  · omega
  · split <;> omega

theorem clampTimeout_bounds (raw : JSNumber) :
    60 ≤ clampTimeout raw ∧ clampTimeout raw ≤ 7200 := by
  unfold clampTimeout
  split <;> omega

/-- C11 (amended): for every request whose conversions do not throw, let `raw`
be `Number(runTimeoutSeconds ?? 1800)`: it is 1800 when the timeout is absent
or null, and the number itself when the timeout is a JSON number. The run
timeout is an integer in [60, 7200]: it is `raw` when `raw` is an integer
within [60,7200], 60 when `raw` is an integer below 60, 7200 when it is an
integer above 7200, and 1800 when `raw` is not an integer. Its decimal
rendering is the value of `RUN_TIMEOUT_SECONDS` in the environment of the
Driver, the same in the environment `runProcess` merges for the buffered
endpoint and in the one the streaming endpoint builds. -/
theorem run_timeout_clamped (sys : Sys) (body : RunBody) (p : RunParams)
    (hp : readParams body = some p) (token : Str) :
    (∃ raw, (body.runTimeoutSeconds.nullish (.num (.int 1800) "1800".toList)).toNumber
        = some raw ∧ p.runTimeoutSeconds = clampTimeout raw) ∧
    (body.runTimeoutSeconds = .undefined ∨ body.runTimeoutSeconds = .null →
      p.runTimeoutSeconds = 1800) ∧
    (∀ x text, body.runTimeoutSeconds = .num x text → p.runTimeoutSeconds = clampTimeout x) ∧
    (∀ (raw : JSNumber) (i : Int), raw.asInteger = some i →
      clampTimeout raw = if i < 60 then 60 else if 7200 < i then 7200 else i) ∧
    (∀ raw : JSNumber, raw.asInteger = none → clampTimeout raw = 1800) ∧
    60 ≤ p.runTimeoutSeconds ∧ p.runTimeoutSeconds ≤ 7200 ∧
    envGet (runProcessEnv sys (driverEnv sys p token)) "RUN_TIMEOUT_SECONDS".toList
      = some (natToDecimal p.runTimeoutSeconds.toNat) ∧
    envGet (streamHandlerEnv sys p token) "RUN_TIMEOUT_SECONDS".toList
      = some (natToDecimal p.runTimeoutSeconds.toNat) ∧
    stringToNumber (natToDecimal p.runTimeoutSeconds.toNat) = .int p.runTimeoutSeconds := by
  obtain ⟨raw, hraw, hclamp⟩ := (readParams_workRoot body p hp).2.2
  obtain ⟨hlo, hhi⟩ := clampTimeout_bounds raw
  rw [← hclamp] at hlo hhi
  have henv := (envGet_driver sys p token).2.2.1
  refine ⟨⟨raw, hraw, hclamp⟩, ?_, ?_, clampTimeout_of_integer, ?_, hlo, hhi, henv, ?_, ?_⟩
  · intro h
    rcases h with h | h <;> rw [h] at hraw <;>
      simp only [JSVal.nullish, JSVal.toNumber, Option.some.injEq] at hraw <;>
      rw [hclamp, ← hraw] <;> rfl
  · intro x text h
    rw [h] at hraw
    simp only [JSVal.nullish, JSVal.toNumber, Option.some.injEq] at hraw
    rw [hclamp, ← hraw]
  · intro r h
    unfold clampTimeout
    rw [h]
  · rw [← runProcessEnv_eq_streamHandlerEnv]; exact henv
  · have hnat : ((p.runTimeoutSeconds.toNat : Nat) : Int) = p.runTimeoutSeconds :=
      Int.toNat_of_nonneg (by omega)
    have hle : p.runTimeoutSeconds.toNat ≤ 2 ^ 53 := by
      have : p.runTimeoutSeconds.toNat ≤ 7200 := by omega
      exact le_trans this (by norm_num)
    rw [stringToNumber_natToDecimal _ hle, hnat]

theorem run_timeout_clamped_witness :
    envGet (streamHandlerEnv ⟨"/s/run.sh".toList, "/cwd/runs".toList, "/repo".toList, []⟩
        ⟨.int 2, "echo hi".toList, [], [], 7200⟩ [])
      "RUN_TIMEOUT_SECONDS".toList = some (natToDecimal (7200 : Int).toNat) :=
  (run_timeout_clamped ⟨"/s/run.sh".toList, "/cwd/runs".toList, "/repo".toList, []⟩
    ⟨.num (.int 2) ['2'], .str "echo hi".toList, .null, .null,
      .num (.int 99999) "99999".toList⟩
    ⟨.int 2, "echo hi".toList, [], [], 7200⟩ (by decide) []).2.2.2.2.2.2.2.2.1

/-- C11 as stated fails for a timeout that is not a number but converts to
one: `false` is not an integer and gives 60, not the default 1800; the strings
`"90"` and `""` give 90 and 60. -/
theorem run_timeout_clamped_counterexample :
    (readParams ⟨.num (.int 2) ['2'], .str "echo hi".toList, .null, .null,
        .bool false⟩).map (fun p => p.runTimeoutSeconds) = some 60 ∧
    (readParams ⟨.num (.int 2) ['2'], .str "echo hi".toList, .null, .null,
        .str "90".toList⟩).map (fun p => p.runTimeoutSeconds) = some 90 ∧
    (readParams ⟨.num (.int 2) ['2'], .str "echo hi".toList, .null, .null,
        .str []⟩).map (fun p => p.runTimeoutSeconds) = some 60 ∧
    (runBatch ⟨"/s/run.sh".toList, "/cwd/runs".toList, "/repo".toList, []⟩
        ⟨.num (.int 2) ['2'], .str "echo hi".toList, .str "tok".toList, .null, .bool false⟩
        [] [])
      = [.spawn "/bin/bash".toList ["/s/run.sh".toList, "2".toList, "/cwd/runs".toList]
          [("AGENT_FACTORY_COMMAND".toList, "echo hi".toList),
            ("AGENT_FACTORY_CWD".toList, "/repo".toList),
            ("RUN_TIMEOUT_SECONDS".toList, "60".toList),
            ("RUN_HEARTBEAT_SECONDS".toList, "15".toList),
            ("RAILWAY_TOKEN".toList, "tok".toList)]] := by
  decide

/-! ## C12: the token -/

theorem readKeychainToken_resolved (keychain : List ChildEvent) (code : Int) (out err : Str)
    (h : runProcess keychain = .resolved code out err) :
    readKeychainToken keychain = .token (if code ≠ 0 then [] else jsTrim out) := by
  unfold readKeychainToken
  rw [h]
  simp only
  split <;> rfl

theorem mem_driverEnv_token (sys : Sys) (p : RunParams) (t v : Str) :
    ("RAILWAY_TOKEN".toList, v) ∈ driverEnv sys p t ↔ t ≠ [] ∧ v = t := by
  have n1 : ¬ ("RAILWAY_TOKEN".toList = "AGENT_FACTORY_COMMAND".toList) := by decide
  have n2 : ¬ ("RAILWAY_TOKEN".toList = "AGENT_FACTORY_CWD".toList) := by decide
  have n3 : ¬ ("RAILWAY_TOKEN".toList = "RUN_TIMEOUT_SECONDS".toList) := by decide
  have n4 : ¬ ("RAILWAY_TOKEN".toList = "RUN_HEARTBEAT_SECONDS".toList) := by decide
  unfold driverEnv
  by_cases ht : t = []
  · simp [ht, n1, n2, n3, n4]
  · simp [ht, n1, n2, n3, n4]

theorem envGet_mem (env : List (Str × Str)) (name v : Str) (h : envGet env name = some v) :
    (name, v) ∈ env := by
  unfold envGet at h
  cases hf : env.reverse.find? (fun kv => kv.1 = name) with
  | none => rw [hf] at h; exact absurd h (by simp)
  | some kv =>
    rw [hf] at h
    simp only [Option.map_some', Option.some.injEq] at h
    have hm := List.mem_of_find?_eq_some hf
    have hk := List.find?_some hf
    simp only [decide_eq_true_eq] at hk
    rw [List.mem_reverse] at hm
    rw [← hk, ← h]
    exact hm

theorem hasNul_digits (s : Str) (h : ∀ c ∈ s, isDecDigit c = true) : hasNul s = false := by
  unfold hasNul
  rw [List.any_eq_false]
  intro c hc
  rcases isDecDigit_cases (h c hc) with h | h | h | h | h | h | h | h | h | h <;>
    (subst h; decide)

theorem hasNul_natToDecimal (n : Nat) : hasNul (natToDecimal n) = false :=
  hasNul_digits _ (natToDecimal_spec n).2.1

/-- When the strings of the server process hold no U+0000, the `spawn` of the
Driver throws exactly when the command template, the work root or the token
holds U+0000. -/
theorem spawnThrows_iff (sys : Sys) (p : RunParams) (n : Int) (t : Str)
    (hclean : sys.noNul = true) :
    (spawnDriver sys p n t).spawnThrows = true ↔
      hasNul p.commandTemplate = true ∨ hasNul p.workRoot = true ∨ hasNul t = true := by
  simp only [Sys.noNul, Bool.and_eq_true, Bool.not_eq_true', List.all_eq_true] at hclean
  obtain ⟨⟨⟨hs, hd⟩, hr⟩, henv⟩ := hclean
  have hbash : hasNul "/bin/bash".toList = false := by decide
  have hnil : hasNul [] = false := rfl
  have hget := envGet_driver sys p t
  simp only [runProcessEnv] at hget
  obtain ⟨g1, _, _, _, g5, _⟩ := hget
  simp only [spawnDriver, Action.spawnThrows, Bool.or_eq_true, List.any_eq_true, hbash,
    Bool.false_eq_true, false_or]
  constructor
  · rintro (⟨a, ha, hnul⟩ | ⟨kv, hkv, hk | hval⟩)
    · simp only [List.mem_cons, List.mem_singleton, List.not_mem_nil, or_false] at ha
      rcases ha with rfl | rfl | rfl
      · rw [hs] at hnul; exact absurd hnul (by simp)
      · rw [hasNul_natToDecimal] at hnul; exact absurd hnul (by simp)
      · unfold resolveWorkRoot at hnul
        split at hnul
        · exact Or.inr (Or.inl hnul)
        · rw [hd] at hnul; exact absurd hnul (by simp)
    · rcases List.mem_append.mp hkv with hm | hm
      · have := (henv kv hm).1
        rw [this] at hk; exact absurd hk (by simp)
      · unfold driverEnv at hm
        rcases List.mem_append.mp hm with hm | hm
        · simp only [List.mem_cons, List.mem_singleton, List.not_mem_nil, or_false] at hm
          rcases hm with rfl | rfl | rfl | rfl <;>
            (simp only at hk; exact absurd hk (by decide))
        · split at hm
          · simp only [List.mem_singleton] at hm
            subst hm
            simp only at hk
            exact absurd hk (by decide)
          · exact absurd hm (by simp)
    · cases hg : envGet (sys.processEnv ++ driverEnv sys p t) kv.1 with
      | none => rw [hg] at hval; exact absurd hval (by simp [hnil])
      | some v =>
        rw [hg] at hval
        simp only [Option.getD_some] at hval
        have hmem := envGet_mem _ _ _ hg
        rcases List.mem_append.mp hmem with hm | hm
        · have := (henv _ hm).2
          simp only at this
          rw [this] at hval; exact absurd hval (by simp)
        · unfold driverEnv at hm
          rcases List.mem_append.mp hm with hm | hm
          · simp only [List.mem_cons, List.mem_singleton, List.not_mem_nil, or_false,
              Prod.mk.injEq] at hm
            rcases hm with ⟨_, rfl⟩ | ⟨_, rfl⟩ | ⟨_, rfl⟩ | ⟨_, rfl⟩
            · exact Or.inl hval
            · rw [hr] at hval; exact absurd hval (by simp)
            · rw [hasNul_natToDecimal] at hval; exact absurd hval (by simp)
            · exact absurd hval (by decide)
          · split at hm
            · simp only [List.mem_singleton, Prod.mk.injEq] at hm
              obtain ⟨_, rfl⟩ := hm
              exact Or.inr (Or.inr hval)
            · exact absurd hm (by simp)
  · rintro (hc | hw | ht)
    · refine Or.inr ⟨("AGENT_FACTORY_COMMAND".toList, p.commandTemplate), ?_, Or.inr ?_⟩
      · simp [driverEnv]
      · simp only [g1, Option.getD_some]; exact hc
    · refine Or.inl ⟨resolveWorkRoot sys p.workRoot, by simp, ?_⟩
      have hne : p.workRoot ≠ [] := by
        intro h; rw [h, hnil] at hw; exact absurd hw (by simp)
      simp only [resolveWorkRoot, hne, ne_eq, not_false_eq_true, if_true]
      exact hw
    · have hne : t ≠ [] := by
        intro h; rw [h, hnil] at ht; exact absurd ht (by simp)
      refine Or.inr ⟨("RAILWAY_TOKEN".toList, t), ?_, Or.inr ?_⟩
      · simp [driverEnv, hne]
      · simp only [g5, hne, ne_eq, not_false_eq_true, if_true, Option.getD_some]; exact ht

/-- C12 (amended): for every valid request, the requested token is the trimmed
`String(railwayToken || "")`. When it is not empty it is the token used and the
credential store is not consulted. Otherwise `security` is run, and when that
process closes the token used is the empty string if its exit code is not 0
and its trimmed stdout if it is 0. The overlay of the Driver's environment
contains `RAILWAY_TOKEN` if and only if the token used is not empty, with that
token as its value. Whenever the token is resolved, empty or not, both
endpoints go on to call `spawn` for the Driver, and what the buffered endpoint
answers then depends on the Driver alone. The streaming endpoint goes on with
the event stream when `spawn` returns a child; when `spawn` throws, it calls
`res.status(500).json` after the headers and writes no event. With no U+0000
in the strings of the server process, `spawn` throws exactly when the command
template, the work root or the token holds U+0000, so never for an empty
token. When no token is requested and the `security` process cannot be
started, the token is not resolved and both endpoints answer with a 500 error
response. -/
theorem token_resolution (sys : Sys) (body : RunBody) (p : RunParams) (n : Int)
    (hp : readParams body = some p) (hv : validate p = .valid n)
    (keychain driver : List ChildEvent) (startThrows : Bool) (inputs : List StreamInput) :
    (∃ raw, (body.railwayToken.or (.str [])).toStr = some raw ∧
      p.requestedToken = jsTrim raw) ∧
    (p.requestedToken ≠ [] →
      resolveToken sys p.requestedToken keychain = ([], .token p.requestedToken)) ∧
    (p.requestedToken = [] → ∀ (code : Int) (out err : Str),
      runProcess keychain = .resolved code out err →
      resolveToken sys p.requestedToken keychain
        = ([.spawn "security".toList keychainArgs sys.processEnv],
            .token (if code ≠ 0 then [] else jsTrim out))) ∧
    (∀ t v : Str, ("RAILWAY_TOKEN".toList, v) ∈ driverEnv sys p t ↔ t ≠ [] ∧ v = t) ∧
    (∀ (pre : List Action) (t : Str),
      resolveToken sys p.requestedToken keychain = (pre, .token t) →
      runBatch sys body keychain driver
        = pre ++ [spawnDriver sys p n t] ++
            (match runProcess driver with
            | .pending _ _ => []
            | .rejected e => [.json 500 (.error e)]
            | .resolved code out err =>
              [.json 200
                (.result (batchResult code out err (resolveWorkRoot sys p.workRoot)))]) ∧
      runBatchStream sys body keychain startThrows inputs
        = pre ++
            [.setHeader "Content-Type".toList "application/x-ndjson".toList,
              .setHeader "Cache-Control".toList "no-cache".toList,
              .setHeader "Connection".toList "keep-alive".toList,
              .flushHeaders,
              spawnDriver sys p n t] ++
            (if (spawnDriver sys p n t).spawnThrows then [.json 500 .spawnThrew]
              else (streamSession (resolveWorkRoot sys p.workRoot) startThrows inputs).trace) ∧
      (sys.noNul = true →
        ((spawnDriver sys p n t).spawnThrows = true ↔
          hasNul p.commandTemplate = true ∨ hasNul p.workRoot = true ∨ hasNul t = true))) ∧
    (p.requestedToken = [] → ∀ e : Str, runProcess keychain = .rejected e →
      resolveToken sys p.requestedToken keychain
        = ([.spawn "security".toList keychainArgs sys.processEnv], .failed e)) ∧
    (∀ (pre : List Action) (e : Str),
      resolveToken sys p.requestedToken keychain = (pre, .failed e) →
      runBatch sys body keychain driver = pre ++ [.json 500 (.error e)] ∧
      runBatchStream sys body keychain startThrows inputs = pre ++ [.json 500 (.error e)]) := by
  refine ⟨(readParams_workRoot body p hp).2.1, ?_, ?_, mem_driverEnv_token sys p, ?_, ?_, ?_⟩
  · intro h
    rcases resolveToken_cases sys p.requestedToken keychain with ⟨_, h1⟩ | ⟨h0, _⟩
    · exact h1
    · exact absurd h0 h
  · intro h code out err hr
    rcases resolveToken_cases sys p.requestedToken keychain with ⟨h0, _⟩ | ⟨_, h1⟩
    · exact absurd h h0
    · rw [h1, readKeychainToken_resolved keychain code out err hr]
  · intro pre t ht
    rw [runBatch_accepted sys body keychain driver p n hp hv,
      runBatchStream_accepted sys body keychain startThrows inputs p n hp hv, ht]
    exact ⟨rfl, rfl, spawnThrows_iff sys p n t⟩
  · intro h e hr
    rcases resolveToken_cases sys p.requestedToken keychain with ⟨h0, _⟩ | ⟨_, h1⟩
    · exact absurd h h0
    · rw [h1]
      simp only [readKeychainToken, hr]
  · intro pre e ht
    rw [runBatch_accepted sys body keychain driver p n hp hv,
      runBatchStream_accepted sys body keychain startThrows inputs p n hp hv, ht]
    exact ⟨rfl, rfl⟩

theorem token_resolution_witness :
    resolveToken ⟨"/s/run.sh".toList, "/cwd/runs".toList, "/repo".toList, []⟩ []
        [.stdoutData [116, 111, 107, 10], .close (some 0)]
      = ([.spawn "security".toList keychainArgs []],
          .token (if (0 : Int) ≠ 0 then [] else jsTrim "tok\n".toList)) :=
  (token_resolution ⟨"/s/run.sh".toList, "/cwd/runs".toList, "/repo".toList, []⟩
    ⟨.num (.int 2) ['2'], .str "echo hi".toList, .null, .null, .undefined⟩
    ⟨.int 2, "echo hi".toList, [], [], 1800⟩ 2 (by decide) (by decide)
    [.stdoutData [116, 111, 107, 10], .close (some 0)] [] false []).2.2.1 rfl 0
    "tok\n".toList [] (by decide)

/-- C12 as stated fails when the credential store cannot be run: for a
request without token, if `security` fails to start (`error` event), both
endpoints answer with a 500 error response and never spawn the Driver, whereas
the same request with a token is served. -/
theorem token_resolution_counterexample :
    runBatch ⟨"/s/run.sh".toList, "/cwd/runs".toList, "/repo".toList, []⟩
        ⟨.num (.int 2) ['2'], .str "echo hi".toList, .null, .null, .undefined⟩
        [.error "Error: spawn security ENOENT".toList] [.close (some 0)]
      = [.spawn "security".toList keychainArgs [],
          .json 500 (.error "Error: spawn security ENOENT".toList)] ∧
    runBatchStream ⟨"/s/run.sh".toList, "/cwd/runs".toList, "/repo".toList, []⟩
        ⟨.num (.int 2) ['2'], .str "echo hi".toList, .null, .null, .undefined⟩
        [.error "Error: spawn security ENOENT".toList] false [.childClose (some 0) false]
      = [.spawn "security".toList keychainArgs [],
          .json 500 (.error "Error: spawn security ENOENT".toList)] ∧
    (runBatch ⟨"/s/run.sh".toList, "/cwd/runs".toList, "/repo".toList, []⟩
        ⟨.num (.int 2) ['2'], .str "echo hi".toList, .str "tok".toList, .null, .undefined⟩
        [.error "Error: spawn security ENOENT".toList] [.close (some 0)]).getLast?
      = some (.json 200 (.result
          (batchResult 0 [] [] "/cwd/runs".toList))) := by
  decide

/-- A command template holding U+0000 makes `spawn` throw: the streaming
endpoint has flushed its headers, calls `res.status(500).json` and writes no
event, whatever the child and the transport would have reported. -/
theorem runBatchStream_spawn_throws :
    runBatchStream ⟨"/s/run.sh".toList, "/cwd/runs".toList, "/repo".toList, []⟩
        ⟨.num (.int 2) ['2'], .str ['e', Char.ofNat 0], .str "tok".toList, .null, .undefined⟩
        [] false [.childClose (some 0) false]
      = [.setHeader "Content-Type".toList "application/x-ndjson".toList,
          .setHeader "Cache-Control".toList "no-cache".toList,
          .setHeader "Connection".toList "keep-alive".toList,
          .flushHeaders,
          .spawn "/bin/bash".toList ["/s/run.sh".toList, "2".toList, "/cwd/runs".toList]
            [("AGENT_FACTORY_COMMAND".toList, ['e', Char.ofNat 0]),
              ("AGENT_FACTORY_CWD".toList, "/repo".toList),
              ("RUN_TIMEOUT_SECONDS".toList, "1800".toList),
              ("RUN_HEARTBEAT_SECONDS".toList, "15".toList),
              ("RAILWAY_TOKEN".toList, "tok".toList)],
          .json 500 .spawnThrew] := by
  decide

/-! ## C16: the detector output -/

theorem length_consHead (c : Char) (ls : List Str) (h : ls ≠ []) :
    (consHead c ls).length = ls.length := by
  cases ls with
  | nil => exact absurd rfl h
  | cons a as => simp [consHead]

/-- A string splits into one piece exactly when it has no separator. -/
theorem splitOn_length_lt_two (s : Str) : (splitOn '=' s).length < 2 ↔ '=' ∉ s := by
  induction s with
  | nil => simp [splitOn]
  | cons c cs ih =>
    simp only [splitOn]
    by_cases hc : c = '='
    · subst hc
      have := splitOn_ne_nil '=' cs
      have hpos : 0 < (splitOn '=' cs).length := List.length_pos.2 this
      simp only [if_true, List.length_cons, List.mem_cons, true_or, not_true_eq_false,
        iff_false]
      omega
    · rw [if_neg hc, length_consHead _ _ (splitOn_ne_nil _ _), ih]
      have hc' : ¬ ('=' = c) := fun h => hc h.symm
      simp [hc']

theorem joinWith_consHead_tail (c : Char) (ls : List Str) (h : ls ≠ []) :
    joinWith ['='] (consHead c ls).tail = joinWith ['='] ls.tail := by
  rw [tail_consHead c ls h]

/-- Joining the pieces after the first gives back the text after the first
separator. -/
theorem joinWith_splitOn (s : Str) : joinWith ['='] (splitOn '=' s) = s := by
  induction s with
  | nil => rfl
  | cons c cs ih =>
    simp only [splitOn]
    by_cases hc : c = '='
    · subst hc
      simp only [if_true]
      cases hsp : splitOn '=' cs with
      | nil => exact absurd hsp (splitOn_ne_nil _ _)
      | cons a as =>
        rw [hsp] at ih
        simp [joinWith, ih]
    · rw [if_neg hc]
      cases hsp : splitOn '=' cs with
      | nil => exact absurd hsp (splitOn_ne_nil _ _)
      | cons a as =>
        rw [hsp] at ih
        cases as with
        | nil =>
          simp only [joinWith] at ih
          simp [consHead, joinWith, ih]
        | cons b bs =>
          simp only [joinWith] at ih
          simp only [consHead, joinWith, List.cons_append, ← ih]

theorem joinWith_tail_splitOn (s : Str) (h : '=' ∈ s) :
    joinWith ['='] (splitOn '=' s).tail = (s.dropWhile (fun c => c != '=')).drop 1 := by
  induction s with
  | nil => simp at h
  | cons c cs ih =>
    simp only [splitOn]
    by_cases hc : c = '='
    · subst hc
      simp [List.dropWhile_cons, joinWith_splitOn]
    · rw [if_neg hc, tail_consHead _ _ (splitOn_ne_nil _ _)]
      have hmem : '=' ∈ cs := by
        rcases List.mem_cons.1 h with h | h
        · exact absurd h.symm hc
        · exact h
      rw [ih hmem]
      simp [List.dropWhile_cons, hc]

theorem setRequirementLine_eq (m : StrMap) (line : Str) :
    setRequirementLine m line
      = if '=' ∈ line then (lineKey line, lineValue line) :: m else m := by
  unfold setRequirementLine
  simp only
  by_cases h : '=' ∈ line
  · have hlen : ¬ (splitOn '=' line).length < 2 := by
      rw [splitOn_length_lt_two]; simpa using h
    rw [if_neg hlen, if_pos h, splitOn_headD, joinWith_tail_splitOn line h]
    rfl
  · have hlen : (splitOn '=' line).length < 2 := (splitOn_length_lt_two line).2 h
    rw [if_pos hlen, if_neg h]

theorem foldl_setRequirementLine (lines : List Str) (m : StrMap) :
    lines.foldl setRequirementLine m
      = ((lines.reverse.filter (fun l => decide ('=' ∈ l))).map
          fun l => (lineKey l, lineValue l)) ++ m := by
  induction lines generalizing m with
  | nil => simp
  | cons l ls ih =>
    rw [List.foldl_cons, ih, setRequirementLine_eq]
    by_cases h : '=' ∈ l
    · simp [h, List.filter_append]
    · simp [h, List.filter_append]

theorem get_map_lines (key : Str) (ls : List Str) :
    StrMap.get (ls.map fun l => (lineKey l, lineValue l)) key
      = (ls.find? (fun l => decide (lineKey l = key))).map lineValue := by
  induction ls with
  | nil => simp [StrMap.get]
  | cons l rest ih =>
    simp only [List.map_cons, StrMap.get, List.find?_cons]
    by_cases h : lineKey l = key
    · simp [h]
    · simp [h, ih]

/-- `map.get(key)` after the loop of `parseRequirements`. -/
theorem get_foldl_setRequirementLine (key : Str) (text : Str) :
    StrMap.get ((splitLines text).foldl setRequirementLine []) key = lastValue key text := by
  rw [foldl_setRequirementLine, List.append_nil, get_map_lines]
  unfold lastValue
  rw [List.find?_filter]
  congr 2
  funext a
  simp

/-- C16: for every detector output, each of the six flags is true exactly when
the last line that has a `=` and whose trimmed key (the text before the first
`=`) is the flag's KEY has the trimmed value `true`, the value being all the
text after the first `=`; lines without `=` play no part; and
`railway_auth_source` and `provider` are the value of the last such line for
their key, or `none` when there is no such line or its value is empty. -/
theorem parseRequirements_spec (text : Str) :
    ((parseRequirements text).claude_installed = true
      ↔ lastValue "CLAUDE_INSTALLED".toList text = some "true".toList) ∧
    ((parseRequirements text).codex_installed = true
      ↔ lastValue "CODEX_INSTALLED".toList text = some "true".toList) ∧
    ((parseRequirements text).railway_installed = true
      ↔ lastValue "RAILWAY_INSTALLED".toList text = some "true".toList) ∧
    ((parseRequirements text).git_installed = true
      ↔ lastValue "GIT_INSTALLED".toList text = some "true".toList) ∧
    ((parseRequirements text).bun_installed = true
      ↔ lastValue "BUN_INSTALLED".toList text = some "true".toList) ∧
    ((parseRequirements text).railway_auth = true
      ↔ lastValue "RAILWAY_AUTH".toList text = some "true".toList) ∧
    (parseRequirements text).railway_auth_source
      = (match lastValue "RAILWAY_AUTH_SOURCE".toList text with
        | some v => if v = [] then "none".toList else v
        | none => "none".toList) ∧
    (parseRequirements text).provider
      = (match lastValue "PROVIDER".toList text with
        | some v => if v = [] then "none".toList else v
        | none => "none".toList) := by
  have hb : ∀ key : Str,
      parseBool (StrMap.get ((splitLines text).foldl setRequirementLine []) key) = true
        ↔ lastValue key text = some "true".toList := by
    intro key
    rw [get_foldl_setRequirementLine]
    cases lastValue key text with
    | none => simp [parseBool]
    | some v => simp [parseBool]
  have hs : ∀ key : Str,
      orNoneStr (StrMap.get ((splitLines text).foldl setRequirementLine []) key)
        = (match lastValue key text with
          | some v => if v = [] then "none".toList else v
          | none => "none".toList) := by
    intro key
    rw [get_foldl_setRequirementLine]
    cases lastValue key text <;> rfl
  exact ⟨hb _, hb _, hb _, hb _, hb _, hb _, hs _, hs _⟩

/-! ## The client's read loop -/

theorem utf8Feed_append (a b : List Byte) : ∀ st : Utf8State,
    utf8Feed st (a ++ b) =
      ((utf8Feed st a).1 ++ (utf8Feed (utf8Feed st a).2 b).1,
        (utf8Feed (utf8Feed st a).2 b).2) := by
  induction a with
  | nil => intro st; simp [utf8Feed]
  | cons x xs ih =>
    intro st
    rw [List.cons_append]
    simp only [utf8Feed]
    split
    · rw [ih]; simp
    · split
      · split
        · rw [ih]; simp
        · rw [ih]
      · rw [ih]; simp

theorem decode_append (d : TextDecoder) (a b : List Byte) :
    d.decode (a ++ b) =
      ((d.decode a).1 ++ ((d.decode a).2.decode b).1, ((d.decode a).2.decode b).2) := by
  simp only [TextDecoder.decode, utf8Feed_append]
  cases hb : d.bomSeen with
  | true => simp
  | false =>
    simp only [Bool.false_eq_true, if_false]
    cases h1 : (utf8Feed d.utf8 a).1 with
    | nil =>
      simp only [List.nil_append]
      cases h2 : (utf8Feed (utf8Feed d.utf8 a).2 b).1 <;> simp
    | cons c cs =>
      simp only [List.cons_append, if_true]
      split <;> simp

theorem decode_nil (d : TextDecoder) : (d.decode []).1 = [] := by
  simp only [TextDecoder.decode, utf8Feed]
  split
  · rfl
  · rfl

theorem dropLast_consHead (c : Char) (ls : List Str) (h : 2 ≤ ls.length) :
    (consHead c ls).dropLast = consHead c ls.dropLast := by
  match ls, h with
  | a :: b :: rest, _ => simp [consHead, List.dropLast]

theorem getLast?_consHead (c : Char) (ls : List Str) (h : 2 ≤ ls.length) :
    (consHead c ls).getLast? = ls.getLast? := by
  match ls, h with
  | a :: b :: rest, _ => simp [consHead, List.getLast?_cons_cons]

theorem splitOn_append (sep : Char) (a b : Str) :
    splitOn sep (a ++ b) =
      (splitOn sep a).dropLast ++ splitOn sep ((splitOn sep a).getLast?.getD [] ++ b) := by
  induction a with
  | nil => simp [splitOn]
  | cons c cs ih =>
    rw [List.cons_append]
    simp only [splitOn]
    by_cases hc : c = sep
    · simp only [hc, if_true]
      have hne := splitOn_ne_nil sep cs
      cases hs : splitOn sep cs with
      | nil => exact absurd hs hne
      | cons x xs =>
        rw [ih, hs]
        simp [List.dropLast, List.getLast?_cons_cons]
    · simp only [hc, if_false]
      rw [ih]
      match hs : splitOn sep cs with
      | [] => exact absurd hs (splitOn_ne_nil sep cs)
      | [x] =>
        simp [consHead, List.dropLast, splitOn, hc]
      | x :: y :: rest =>
        rw [dropLast_consHead _ _ (by simp), getLast?_consHead _ _ (by simp)]
        rw [consHead_append _ _ _ (by simp [List.dropLast])]

theorem sep_not_mem_of_mem_splitOn (sep : Char) (s : Str) :
    ∀ l ∈ splitOn sep s, sep ∉ l := by
  induction s with
  | nil => simp [splitOn]
  | cons c cs ih =>
    intro l hl
    simp only [splitOn] at hl
    by_cases hc : c = sep
    · simp only [hc, if_true, List.mem_cons] at hl
      rcases hl with rfl | hl
      · simp
      · exact ih l hl
    · simp only [hc, if_false] at hl
      rcases mem_consHead hl with rfl | ⟨l0, rfl, h0⟩ | h1
      · simpa using fun e => hc e.symm
      · intro hmem
        rcases List.mem_cons.mp hmem with h | h
        · exact hc h.symm
        · exact ih l0 h0 h
      · exact ih l h1

theorem splitOn_of_not_mem (sep : Char) (s : Str) (h : sep ∉ s) : splitOn sep s = [s] := by
  induction s with
  | nil => rfl
  | cons c cs ih =>
    have hc : c ≠ sep := fun e => h (by simp [e])
    have hcs : sep ∉ cs := fun e => h (List.mem_cons_of_mem _ e)
    simp [splitOn, hc, ih hcs, consHead]

theorem splitOn_append_sep (sep : Char) (s : Str) :
    splitOn sep (s ++ [sep]) = splitOn sep s ++ [[]] := by
  induction s with
  | nil => simp [splitOn]
  | cons c cs ih =>
    rw [List.cons_append]
    simp only [splitOn]
    split
    · rw [ih]; rfl
    · rw [ih, consHead_append _ _ _ (splitOn_ne_nil sep cs)]

theorem handLines_append (throws : Str → Bool) (xs ys : List Str) :
    handLines throws (xs ++ ys) =
      if (handLines throws xs).2 then handLines throws xs
      else ((handLines throws xs).1 ++ (handLines throws ys).1, (handLines throws ys).2) := by
  induction xs with
  | nil => simp [handLines]
  | cons x xs ih =>
    rw [List.cons_append]
    simp only [handLines]
    by_cases h1 : jsTrim x = []
    · simp only [h1, if_true]; exact ih
    · simp only [h1, if_false]
      by_cases h2 : throws (jsTrim x) = true
      · simp [h2]
      · simp only [h2, if_false, ih]
        cases h3 : (handLines throws xs).2 <;> simp [h3]

theorem handLines_fst (throws : Str → Bool) (ls : List Str) :
    (handLines throws ls).1 =
      throughFirstThrow throws ((ls.map jsTrim).filter (fun l => decide (l ≠ []))) := by
  induction ls with
  | nil => rfl
  | cons x xs ih =>
    simp only [handLines, List.map_cons]
    by_cases h1 : jsTrim x = []
    · simp [h1, ih]
    · rw [List.filter_cons_of_pos (by simpa using h1)]
      simp only [h1, if_false, throughFirstThrow]
      by_cases h2 : throws (jsTrim x) = true
      · simp [h2]
      · simp [h2, ih]

theorem handLines_of_no_throw (throws : Str → Bool) (ls : List Str)
    (h : ∀ l ∈ (ls.map jsTrim).filter (fun l => decide (l ≠ [])), throws l = false) :
    handLines throws ls = ((ls.map jsTrim).filter (fun l => decide (l ≠ [])), false) := by
  induction ls with
  | nil => rfl
  | cons x xs ih =>
    simp only [handLines, List.map_cons]
    by_cases h1 : jsTrim x = []
    · simp only [h1, if_true]
      rw [List.filter_cons_of_neg (by simp)]
      apply ih
      intro l hl
      apply h
      simp only [List.map_cons, h1]
      rw [List.filter_cons_of_neg (by simp)]
      exact hl
    · have hx : throws (jsTrim x) = false := by
        apply h
        simp only [List.map_cons]
        rw [List.filter_cons_of_pos (by simpa using h1)]
        exact List.mem_cons_self _ _
      have hxs := ih (by
        intro l hl
        apply h
        simp only [List.map_cons]
        rw [List.filter_cons_of_pos (by simpa using h1)]
        exact List.mem_cons_of_mem _ hl)
      rw [List.filter_cons_of_pos (by simpa using h1)]
      simp [h1, hx, hxs]

theorem foldl_read_of_thrown (throws : Str → Bool) (chunks : List (List Byte))
    (s : ReaderState) (h : s.thrown = true) :
    chunks.foldl (ReaderState.read throws) s = s := by
  induction chunks with
  | nil => rfl
  | cons c cs ih =>
    have : ReaderState.read throws s c = s := by simp [ReaderState.read, h]
    rw [List.foldl_cons, this, ih]

theorem dropLast_append_splitOn (sep : Char) (ls : List Str) (s : Str) :
    (ls ++ splitOn sep s).dropLast = ls ++ (splitOn sep s).dropLast ∧
    (ls ++ splitOn sep s).getLast? = (splitOn sep s).getLast? := by
  have hne := splitOn_ne_nil sep s
  constructor
  · exact List.dropLast_append_of_ne_nil _ hne
  · cases hs : splitOn sep s with
    | nil => exact absurd hs hne
    | cons x xs =>
      rw [List.getLast?_append]
      cases h : (x :: xs).getLast? with
      | none => simp at h
      | some l => rfl

/-- The read loop from any state: the lines handed over are those of the
buffer followed by the text still to be decoded. -/
theorem foldl_read (throws : Str → Bool) (chunks : List (List Byte)) :
    ∀ s : ReaderState, s.thrown = false → '\n' ∉ s.buffer →
      (chunks.foldl (ReaderState.read throws) s).handed =
        s.handed ++ (handLines throws
          (splitOn '\n' (s.buffer ++ (s.decoder.decode chunks.flatten).1)).dropLast).1 ∧
      (chunks.foldl (ReaderState.read throws) s).thrown =
        (handLines throws
          (splitOn '\n' (s.buffer ++ (s.decoder.decode chunks.flatten).1)).dropLast).2 ∧
      ((chunks.foldl (ReaderState.read throws) s).thrown = false →
        (chunks.foldl (ReaderState.read throws) s).buffer =
          (splitOn '\n' (s.buffer ++ (s.decoder.decode chunks.flatten).1)).getLast?.getD []) := by
  induction chunks with
  | nil =>
    intro s hs hb
    simp [decode_nil, splitOn_of_not_mem _ _ hb, handLines, hs]
  | cons c cs ih =>
    intro s hs hb
    rw [List.foldl_cons, List.flatten_cons, decode_append, ← List.append_assoc, splitOn_append]
    obtain ⟨hd, hl⟩ := dropLast_append_splitOn '\n'
      (splitOn '\n' (s.buffer ++ (s.decoder.decode c).1)).dropLast
      ((splitOn '\n' (s.buffer ++ (s.decoder.decode c).1)).getLast?.getD [] ++
        ((s.decoder.decode c).2.decode cs.flatten).1)
    rw [hd, hl, handLines_append]
    have hread : ReaderState.read throws s c =
        { decoder := (s.decoder.decode c).2,
          buffer := (splitOn '\n' (s.buffer ++ (s.decoder.decode c).1)).getLast?.getD [],
          handed := s.handed ++ (handLines throws
            (splitOn '\n' (s.buffer ++ (s.decoder.decode c).1)).dropLast).1,
          thrown := (handLines throws
            (splitOn '\n' (s.buffer ++ (s.decoder.decode c).1)).dropLast).2 } := by
      simp [ReaderState.read, hs]
    rw [hread]
    cases ht : (handLines throws (splitOn '\n' (s.buffer ++ (s.decoder.decode c).1)).dropLast).2 with
    | true =>
      rw [foldl_read_of_thrown _ _ _ rfl]
      simp [ht]
    | false =>
      have hbuf : '\n' ∉ (splitOn '\n' (s.buffer ++ (s.decoder.decode c).1)).getLast?.getD [] := by
        cases hlast : (splitOn '\n' (s.buffer ++ (s.decoder.decode c).1)).getLast? with
        | none => simp
        | some l =>
          exact sep_not_mem_of_mem_splitOn _ _ l (List.mem_of_getLast?_eq_some hlast)
      have := ih ⟨(s.decoder.decode c).2,
        (splitOn '\n' (s.buffer ++ (s.decoder.decode c).1)).getLast?.getD [],
        s.handed ++ (handLines throws
          (splitOn '\n' (s.buffer ++ (s.decoder.decode c).1)).dropLast).1, false⟩ rfl hbuf
      simp only [Bool.false_eq_true, if_false] at this ⊢
      obtain ⟨h1, h2, h3⟩ := this
      refine ⟨?_, h2, h3⟩
      rw [h1, List.append_assoc]

theorem readStream_spec (throws : Str → Bool) (chunks : List (List Byte)) :
    (readStream throws chunks).handed =
        (handLines throws (splitOn '\n' (decodeBody chunks.flatten)).dropLast).1 ∧
    (readStream throws chunks).thrown =
        (handLines throws (splitOn '\n' (decodeBody chunks.flatten)).dropLast).2 ∧
    ((readStream throws chunks).thrown = false →
      (readStream throws chunks).buffer =
        (splitOn '\n' (decodeBody chunks.flatten)).getLast?.getD []) := by
  have h := foldl_read throws chunks ReaderState.init rfl (by simp [ReaderState.init])
  simpa [readStream, decodeBody, ReaderState.init] using h

theorem splitOn_of_terminated (text : Str)
    (h : text = [] ∨ text.getLast? = some '\n') :
    splitOn '\n' text = (splitOn '\n' text).dropLast ++ [[]] := by
  rcases h with rfl | h
  · rfl
  · obtain ⟨ys, rfl⟩ := List.getLast?_eq_some_iff.mp h
    rw [splitOn_append_sep, List.dropLast_append_of_ne_nil _ (by simp)]
    simp

theorem wholeLines_of_terminated (text : Str)
    (h : text = [] ∨ text.getLast? = some '\n') :
    wholeLines text =
      (((splitOn '\n' text).dropLast).map jsTrim).filter (fun l => decide (l ≠ [])) := by
  have hs := splitOn_of_terminated text h
  unfold wholeLines
  conv_lhs => rw [hs]
  simp [jsTrim]

/-- C15 (amended): for every response body whose text consists of
newline-terminated lines and every way of cutting the body into chunks, the
non-blank trimmed lines the client's loop hands to `JSON.parse` are the
non-blank trimmed lines of the whole text split at its line feeds at once, up
to and including the first line on which the loop body throws; when the body
throws on no line, they are all of them, in order, and nothing is left in the
buffer. -/
theorem reassembly_chunk_independent (throws : Str → Bool) (chunks : List (List Byte))
    (hterm : decodeBody chunks.flatten = [] ∨
      (decodeBody chunks.flatten).getLast? = some '\n') :
    (readStream throws chunks).handed =
        throughFirstThrow throws (wholeLines (decodeBody chunks.flatten)) ∧
    ((∀ l ∈ wholeLines (decodeBody chunks.flatten), throws l = false) →
      (readStream throws chunks).handed = wholeLines (decodeBody chunks.flatten) ∧
      (readStream throws chunks).buffer = [] ∧
      (readStream throws chunks).thrown = false) := by
  obtain ⟨h1, h2, h3⟩ := readStream_spec throws chunks
  have hw := wholeLines_of_terminated _ hterm
  refine ⟨?_, ?_⟩
  · rw [h1, handLines_fst, hw]
  · intro hno
    rw [hw] at hno
    have hh := handLines_of_no_throw throws _ hno
    have ht : (readStream throws chunks).thrown = false := by rw [h2, hh]
    refine ⟨?_, ?_, ht⟩
    · rw [h1, hh, hw]
    · rw [h3 ht, splitOn_of_terminated _ hterm]
      simp

/-- C15, an instance: the body `{}\n[1]\n` arriving in three chunks that cut
both lines gives the client the lines `{}` and `[1]`. -/
theorem reassembly_chunk_independent_witness :
    (readStream lineThrows [[123], [125, 10, 91], [49, 93, 10]]).handed =
        throughFirstThrow lineThrows
          (wholeLines (decodeBody [[123], [125, 10, 91], [49, 93, 10]].flatten)) ∧
    (readStream lineThrows [[123], [125, 10, 91], [49, 93, 10]]).handed =
        ["\x7b\x7d".toList, "[1]".toList] :=
  ⟨(reassembly_chunk_independent lineThrows [[123], [125, 10, 91], [49, 93, 10]]
      (Or.inr (by decide))).1, by decide⟩

/-- C15 as stated fails when the loop body throws: in the body `x\n{}\n`, taken
in one chunk, `JSON.parse` throws on the line `x`, so the line `{}` is never
handed over although splitting the whole text gives both lines; the same
happens after an `error` event. -/
theorem reassembly_chunk_independent_counterexample :
    (decodeBody [120, 10, 123, 125, 10]).getLast? = some '\n' ∧
    wholeLines (decodeBody [120, 10, 123, 125, 10]) = ["x".toList, "\x7b\x7d".toList] ∧
    (readStream lineThrows [[120, 10, 123, 125, 10]]).handed = ["x".toList] ∧
    wholeLines (decodeBody [123, 34, 116, 121, 112, 101, 34, 58, 34, 101, 114, 114, 111,
      114, 34, 44, 34, 101, 114, 114, 111, 114, 34, 58, 34, 101, 34, 125, 10, 123, 125, 10]) =
      ["\x7b\"type\":\"error\",\"error\":\"e\"\x7d".toList, "\x7b\x7d".toList] ∧
    (readStream lineThrows [[123, 34, 116, 121, 112, 101, 34, 58, 34, 101, 114, 114, 111,
      114, 34, 44, 34, 101, 114, 114, 111, 114, 34, 58, 34, 101, 34, 125, 10, 123, 125,
      10]]).handed = ["\x7b\"type\":\"error\",\"error\":\"e\"\x7d".toList] := by
  decide

/-! ## JSON round trip: strings -/

theorem parseJsonStringAux_plain (c : Char) (t : Str) (h1 : c ≠ '"') (h2 : c ≠ '\\')
    (h3 : ¬ c.toNat < 0x20) :
    parseJsonStringAux (c :: t) none = consParsed c (parseJsonStringAux t none) := by
  rw [parseJsonStringAux.eq_def]
  simp [h1, h2, h3, flushPending]

theorem parseJsonStringAux_control (c : Char) (t : Str) (h : c.toNat < 0x20) :
    parseJsonStringAux (escapeJsonChar c ++ t) none =
      consParsed c (parseJsonStringAux t none) := by
  have hc : c = Char.ofNat c.toNat := (Char.ofNat_toNat c).symm
  generalize c.toNat = k at h hc
  subst hc
  interval_cases k <;> first
    | rfl
    | (rw [parseJsonStringAux.eq_def]
       simp [escapeJsonChar, unescapeJsonChar, flushPending])

theorem parseJsonStringAux_escapeChar (c : Char) (t : Str) :
    parseJsonStringAux (escapeJsonChar c ++ t) none =
      consParsed c (parseJsonStringAux t none) := by
  by_cases h : c.toNat < 0x20
  · exact parseJsonStringAux_control c t h
  · by_cases h1 : c = '"'
    · subst h1
      rw [parseJsonStringAux.eq_def]
      simp [escapeJsonChar, unescapeJsonChar, flushPending]
    · by_cases h2 : c = '\\'
      · subst h2
        rw [parseJsonStringAux.eq_def]
        simp [escapeJsonChar, unescapeJsonChar, flushPending]
      · have he : escapeJsonChar c = [c] := by
          have h8 : c.toNat ≠ 8 := by omega
          have h9 : c.toNat ≠ 9 := by omega
          have h10 : c.toNat ≠ 10 := by omega
          have h12 : c.toNat ≠ 12 := by omega
          have h13 : c.toNat ≠ 13 := by omega
          simp [escapeJsonChar, h1, h2, h8, h9, h10, h12, h13, h]
        rw [he]
        exact parseJsonStringAux_plain c t h1 h2 h

/-- Reading back an escaped string up to its closing quote. -/
theorem parseJsonString_escapeJson (s rest : Str) :
    parseJsonString (escapeJson s ++ '"' :: rest) = some (s, rest) := by
  unfold parseJsonString
  induction s with
  | nil =>
    rw [parseJsonStringAux.eq_def]
    simp [escapeJson, flushPending]
  | cons c cs ih =>
    rw [escapeJson, List.append_assoc, parseJsonStringAux_escapeChar, ih]
    rfl

theorem escapeJsonChar_no_break (c : Char) :
    ∀ x ∈ escapeJsonChar c, x ≠ '\n' ∧ x ≠ '\r' := by
  intro x hx
  unfold escapeJsonChar at hx
  split at hx
  · simp at hx; rcases hx with rfl | rfl <;> decide
  split at hx
  · simp at hx; rcases hx with rfl; decide
  split at hx
  · simp at hx; rcases hx with rfl | rfl <;> decide
  split at hx
  · simp at hx; rcases hx with rfl | rfl <;> decide
  split at hx
  · simp at hx; rcases hx with rfl | rfl <;> decide
  split at hx
  · simp at hx; rcases hx with rfl | rfl <;> decide
  split at hx
  · simp at hx; rcases hx with rfl | rfl <;> decide
  split at hx
  · rename_i h
    have hc : c = Char.ofNat c.toNat := (Char.ofNat_toNat c).symm
    generalize c.toNat = k at h hc hx
    subst hc
    interval_cases k <;> (simp [hexDigit] at hx; rcases hx with rfl | rfl | rfl | rfl | rfl <;> decide)
  · simp only [List.mem_singleton] at hx
    subst hx
    rename_i h8 h9 h10 h12 h13 h20
    constructor
    · intro e; subst e; exact h10 (by decide)
    · intro e; subst e; exact h13 (by decide)

/-! ## JSON round trip: numbers -/

theorem splitAtFirst_append (p : Char → Bool) (a b : Str) (c : Char)
    (ha : ∀ x ∈ a, p x = false) (hc : p c = true) :
    splitAtFirst p (a ++ c :: b) = (a, some b) := by
  induction a with
  | nil => simp [splitAtFirst, hc]
  | cons x xs ih =>
    have hx := ha x (List.mem_cons_self _ _)
    have ih' := ih (fun y hy => ha y (List.mem_cons_of_mem _ hy))
    simp [splitAtFirst, hx, ih']

theorem digit_not_e {c : Char} (h : isDecDigit c = true) :
    (c == 'e' || c == 'E') = false := by
  rcases isDecDigit_cases h with h | h | h | h | h | h | h | h | h | h <;> (subst h; decide)

theorem digit_not_dot {c : Char} (h : isDecDigit c = true) : (c == '.') = false := by
  rcases isDecDigit_cases h with h | h | h | h | h | h | h | h | h | h <;> (subst h; decide)

theorem digit_numberChar {c : Char} (h : isDecDigit c = true) : isJsonNumberChar c = true := by
  simp [isJsonNumberChar, h]

theorem splitAtFirst_mantText (ip : Str) (fo : Option Str)
    (hip : ∀ c ∈ ip, isDecDigit c = true) :
    splitAtFirst (fun c => c == '.') (mantText ip fo) = (ip, fo) := by
  cases fo with
  | none => exact splitAtFirst_none _ _ (fun c hc => digit_not_dot (hip c hc))
  | some f => exact splitAtFirst_append _ _ _ _ (fun c hc => digit_not_dot (hip c hc)) (by decide)

theorem splitAtFirst_bodyText (ip : Str) (fo eo : Option Str)
    (hip : ∀ c ∈ ip, isDecDigit c = true)
    (hf : ∀ f, fo = some f → ∀ c ∈ f, isDecDigit c = true) :
    splitAtFirst (fun c => c == 'e' || c == 'E') (bodyText ip fo eo) = (mantText ip fo, eo) := by
  have hm : ∀ c ∈ mantText ip fo, (c == 'e' || c == 'E') = false := by
    intro c hc
    cases fo with
    | none => exact digit_not_e (hip c hc)
    | some f =>
      simp only [mantText, List.mem_append, List.mem_cons] at hc
      rcases hc with hc | rfl | hc
      · exact digit_not_e (hip c hc)
      · decide
      · exact digit_not_e (hf f rfl c hc)
  cases eo with
  | none => exact splitAtFirst_none _ _ hm
  | some t => exact splitAtFirst_append _ _ _ _ hm (by decide)

theorem bodyText_ne_infinity (ip : Str) (fo eo : Option Str) (hne : ip ≠ [])
    (hip : ∀ c ∈ ip, isDecDigit c = true) : bodyText ip fo eo ≠ "Infinity".toList := by
  cases ip with
  | nil => exact absurd rfl hne
  | cons d ds =>
    have hd := hip d (List.mem_cons_self _ _)
    intro h
    have : d = 'I' := by
      cases fo <;> cases eo <;> simp [bodyText, mantText] at h <;> exact h.1
    subst this
    exact absurd hd (by decide)

/-- The value of a decimal literal given by its parts. -/
theorem parseUnsignedDecimal_bodyText (neg : Bool) (ip : Str) (fo eo : Option Str)
    (m : Nat) (e : Int) (hne : ip ≠ [])
    (hip : ∀ c ∈ ip, isDecDigit c = true)
    (hf : ∀ f, fo = some f → ∀ c ∈ f, isDecDigit c = true)
    (hm : digitsVal 10 (ip ++ fo.getD []) 0 = some m)
    (he : ∀ t, eo = some t → parseExponent t = some e) (he0 : eo = none → e = 0) :
    parseUnsignedDecimal neg (bodyText ip fo eo) =
      fromDecimal neg m (e - ((fo.getD []).length : Int)) := by
  unfold parseUnsignedDecimal
  rw [if_neg (bodyText_ne_infinity ip fo eo hne hip)]
  simp only [splitAtFirst_bodyText ip fo eo hip hf, splitAtFirst_mantText ip fo hip]
  cases fo with
  | none =>
    simp only [Option.getD_none, List.append_nil] at hm
    cases eo with
    | none => simp [parseDigits, hne, hm, he0 rfl]
    | some t => simp [parseDigits, hne, hm, he t rfl]
  | some f =>
    simp only [Option.getD_some] at hm
    cases eo with
    | none => simp [hne, hm, he0 rfl]
    | some t => simp [hne, hm, he t rfl]

/-- The JSON number grammar on a decimal literal given by its parts. -/
theorem isJsonUnsigned_bodyText (ip : Str) (fo eo : Option Str)
    (hip : ∀ c ∈ ip, isDecDigit c = true)
    (hf : ∀ f, fo = some f → ∀ c ∈ f, isDecDigit c = true)
    (hint : isJsonInt ip = true)
    (hfrac : ∀ f, fo = some f → f ≠ [])
    (hexp : ∀ t, eo = some t → isJsonExp t = true) :
    isJsonUnsigned (bodyText ip fo eo) = true := by
  unfold isJsonUnsigned
  simp only [splitAtFirst_bodyText ip fo eo hip hf, splitAtFirst_mantText ip fo hip, hint]
  cases fo with
  | none =>
    cases eo with
    | none => simp
    | some t => simp [hexp t rfl]
  | some f =>
    have h1 : allDigits f = true := by
      simp only [allDigits, Bool.and_eq_true, Bool.not_eq_true', List.all_eq_true]
      exact ⟨by simpa using hfrac f rfl, hf f rfl⟩
    cases eo with
    | none => simp [h1]
    | some t => simp [h1, hexp t rfl]

theorem natDigitsAux_head (fuel : Nat) : ∀ (n : Nat) (acc : Str), n < fuel → 0 < n →
    ∃ d ds, natDigitsAux fuel n acc = d :: ds ∧ d ≠ '0' := by
  induction fuel with
  | zero => intro n acc h; omega
  | succ fuel ih =>
    intro n acc h h0
    by_cases hz : n / 10 = 0
    · refine ⟨Char.ofNat (48 + n % 10), acc, by simp [natDigitsAux, hz], ?_⟩
      have h1 : n % 10 = n := by omega
      have h2 : n < 10 := by omega
      rw [h1]
      interval_cases n <;> decide
    · obtain ⟨d, ds, h1, h2⟩ := ih (n / 10) (Char.ofNat (48 + n % 10) :: acc) (by omega) (by omega)
      exact ⟨d, ds, by simp [natDigitsAux, hz, h1], h2⟩

theorem natToDecimal_head (n : Nat) (h : 0 < n) :
    ∃ d ds, natToDecimal n = d :: ds ∧ d ≠ '0' :=
  natDigitsAux_head (n + 1) n [] (Nat.lt_succ_self n) h

theorem digitsVal_append (base : Nat) (a b : Str) : ∀ acc : Nat,
    digitsVal base (a ++ b) acc = (digitsVal base a acc).bind (digitsVal base b) := by
  induction a with
  | nil => intro acc; simp [digitsVal]
  | cons c cs ih =>
    intro acc
    simp only [List.cons_append, digitsVal]
    cases digitIn base c with
    | none => rfl
    | some d => exact ih _

theorem digitsVal_zeros (z : Nat) : ∀ v : Nat,
    digitsVal 10 (List.replicate z '0') v = some (v * 10 ^ z) := by
  induction z with
  | zero => intro v; simp [digitsVal]
  | succ z ih =>
    intro v
    have h0 : digitIn 10 '0' = some 0 := by decide
    simp only [List.replicate_succ, digitsVal, h0, ih]
    congr 1
    rw [pow_succ]
    ring

theorem isDecDigit_replicate_zero (z : Nat) : ∀ c ∈ List.replicate z '0', isDecDigit c = true := by
  intro c hc
  have := List.eq_of_mem_replicate hc
  subst this
  decide

theorem allDigits_of (s : Str) (hne : s ≠ []) (h : ∀ c ∈ s, isDecDigit c = true) :
    allDigits s = true := by
  simp only [allDigits, Bool.and_eq_true, Bool.not_eq_true', List.all_eq_true]
  exact ⟨by simpa using hne, h⟩

theorem isJsonInt_of (d : Char) (ds : Str) (hd : d ≠ '0')
    (h : ∀ c ∈ d :: ds, isDecDigit c = true) : isJsonInt (d :: ds) = true := by
  simp only [isJsonInt, Bool.and_eq_true, Bool.or_eq_true]
  refine ⟨allDigits_of _ (by simp) h, Or.inr ?_⟩
  simp [hd]

theorem parseExponent_signed (e : Int) :
    parseExponent ((if 0 ≤ e then '+' else '-') :: natToDecimal e.natAbs) = some e ∧
    isJsonExp ((if 0 ≤ e then '+' else '-') :: natToDecimal e.natAbs) = true ∧
    ∀ c ∈ (if 0 ≤ e then '+' else '-') :: natToDecimal e.natAbs, isJsonNumberChar c = true := by
  obtain ⟨hne, hdig, hv⟩ := natToDecimal_spec e.natAbs
  have hall := allDigits_of _ hne hdig
  by_cases h : 0 ≤ e
  · simp only [h, if_true, parseExponent, isJsonExp, parseDigits, if_neg hne, hv, hall]
    refine ⟨?_, trivial, ?_⟩
    · simp only [Option.map_some', Option.some.injEq]
      exact Int.natAbs_of_nonneg h
    · intro c hc
      rcases List.mem_cons.mp hc with rfl | hc
      · decide
      · exact digit_numberChar (hdig c hc)
  · simp only [h, if_false, parseExponent, isJsonExp, parseDigits, if_neg hne, hv, hall]
    refine ⟨?_, trivial, ?_⟩
    · show some (-((e.natAbs : Nat) : Int)) = some e
      congr 1
      omega
    · intro c hc
      rcases List.mem_cons.mp hc with rfl | hc
      · decide
      · exact digit_numberChar (hdig c hc)

/-- The text of Number::toString for the digits of `s` and the exponent `q`,
taken apart: its integer part, fraction and exponent obey the JSON grammar and
denote `s × 10 ^ q`. -/
theorem formatDecimal_parts (neg : Bool) (s : Nat) (hs : 0 < s) (q : Int) :
    ∃ (ip : Str) (fo eo : Option Str) (m : Nat) (e : Int),
      formatDecimal (natToDecimal s) (q + (natToDecimal s).length) = bodyText ip fo eo ∧
      ip ≠ [] ∧
      (∀ c ∈ ip, isDecDigit c = true) ∧
      (∀ f, fo = some f → f ≠ [] ∧ ∀ c ∈ f, isDecDigit c = true) ∧
      isJsonInt ip = true ∧
      digitsVal 10 (ip ++ fo.getD []) 0 = some m ∧
      (∀ t, eo = some t → parseExponent t = some e ∧ isJsonExp t = true ∧
        ∀ c ∈ t, isJsonNumberChar c = true) ∧
      (eo = none → e = 0) ∧
      fromDecimal neg m (e - ((fo.getD []).length : Int)) = fromDecimal neg s q := by
  obtain ⟨_, hdig, hv⟩ := natToDecimal_spec s
  obtain ⟨d0, dr, hds, hd0⟩ := natToDecimal_head s hs
  rw [hds] at hdig hv ⊢
  have hlen : ((d0 :: dr).length : Int) = (dr.length : Int) + 1 := by simp
  unfold formatDecimal
  by_cases h1 : ((d0 :: dr).length : Int) ≤ q + (d0 :: dr).length ∧ q + (d0 :: dr).length ≤ 21
  · -- plain digits followed by zeros
    rw [if_pos h1]
    have hq : 0 ≤ q := by omega
    have hz : (q + ((d0 :: dr).length : Int) - ((d0 :: dr).length : Int)).toNat = q.toNat := by
      congr 1; omega
    rw [hz]
    refine ⟨d0 :: dr ++ List.replicate q.toNat '0', none, none, s * 10 ^ q.toNat, 0, rfl,
      by simp, ?_, by simp, ?_, ?_, by simp, fun _ => rfl, ?_⟩
    · intro c hc
      rcases List.mem_append.mp hc with hc | hc
      · exact hdig c hc
      · exact isDecDigit_replicate_zero _ c hc
    · rw [List.cons_append]
      apply isJsonInt_of _ _ hd0
      intro c hc
      rw [← List.cons_append] at hc
      rcases List.mem_append.mp hc with hc | hc
      · exact hdig c hc
      · exact isDecDigit_replicate_zero _ c hc
    · simp only [Option.getD_none, List.append_nil]
      rw [digitsVal_append, hv]
      exact digitsVal_zeros _ _
    · simp [fromDecimal, hq]
  · rw [if_neg h1]
    by_cases h2 : 0 < q + ((d0 :: dr).length : Int) ∧ q + ((d0 :: dr).length : Int) ≤ 21
    · -- a decimal point inside the digits
      rw [if_pos h2]
      have hn : (q + ((d0 :: dr).length : Int)).toNat < (d0 :: dr).length := by omega
      have hn1 : 1 ≤ (q + ((d0 :: dr).length : Int)).toNat := by omega
      generalize hN : (q + ((d0 :: dr).length : Int)).toNat = N at hn hn1
      obtain ⟨N', rfl⟩ : ∃ N', N = N' + 1 := ⟨N - 1, by omega⟩
      have htake : (d0 :: dr).take (N' + 1) = d0 :: dr.take N' := rfl
      have hmem_take : ∀ c ∈ (d0 :: dr).take (N' + 1), isDecDigit c = true :=
        fun c hc => hdig c (List.mem_of_mem_take hc)
      have hmem_drop : ∀ c ∈ (d0 :: dr).drop (N' + 1), isDecDigit c = true :=
        fun c hc => hdig c (List.mem_of_mem_drop hc)
      refine ⟨(d0 :: dr).take (N' + 1), some ((d0 :: dr).drop (N' + 1)), none, s, 0, rfl,
        by simp, hmem_take, ?_, ?_, ?_, by simp, fun _ => rfl, ?_⟩
      · intro f hf
        simp only [Option.some.injEq] at hf
        subst hf
        refine ⟨?_, hmem_drop⟩
        intro hnil
        have := congrArg List.length hnil
        simp only [List.length_drop, List.length_nil] at this
        omega
      · rw [htake]
        apply isJsonInt_of _ _ hd0
        rw [← htake]
        exact hmem_take
      · simp only [Option.getD_some, List.take_append_drop]
        exact hv
      · simp only [Option.getD_some, List.length_drop]
        congr 1
        omega
    · rw [if_neg h2]
      by_cases h3 : -6 < q + ((d0 :: dr).length : Int) ∧ q + ((d0 :: dr).length : Int) ≤ 0
      · -- zeros after the decimal point
        rw [if_pos h3]
        refine ⟨['0'], some (List.replicate (-(q + ((d0 :: dr).length : Int))).toNat '0' ++
          d0 :: dr), none, s, 0, rfl, by simp, ?_, ?_, by decide, ?_, by simp,
          fun _ => rfl, ?_⟩
        · intro c hc
          simp only [List.mem_singleton] at hc
          subst hc; decide
        · intro f hf
          simp only [Option.some.injEq] at hf
          subst hf
          refine ⟨by simp, ?_⟩
          intro c hc
          rcases List.mem_append.mp hc with hc | hc
          · exact isDecDigit_replicate_zero _ c hc
          · exact hdig c hc
        · simp only [Option.getD_some, List.singleton_append]
          have h0 : digitIn 10 '0' = some 0 := by decide
          simp only [digitsVal, h0]
          rw [digitsVal_append, digitsVal_zeros]
          simpa using hv
        · simp only [Option.getD_some, List.length_append, List.length_replicate]
          congr 1
          push_cast
          omega
      · -- exponent notation
        rw [if_neg h3]
        obtain ⟨hpe, hje, hce⟩ := parseExponent_signed (q + ((d0 :: dr).length : Int) - 1)
        cases dr with
        | nil =>
          refine ⟨[d0], none,
            some ((if 0 ≤ q + (([d0] : Str).length : Int) - 1 then '+' else '-') ::
              natToDecimal (q + (([d0] : Str).length : Int) - 1).natAbs), s,
            q + (([d0] : Str).length : Int) - 1, rfl, by simp, hdig,
            by simp, isJsonInt_of _ _ hd0 hdig, by simpa using hv, ?_, by simp, ?_⟩
          · intro t ht
            simp only [Option.some.injEq] at ht
            subst ht
            exact ⟨hpe, hje, hce⟩
          · simp
        | cons d1 dr =>
          refine ⟨[d0], some (d1 :: dr),
            some ((if 0 ≤ q + ((d0 :: d1 :: dr).length : Int) - 1 then '+' else '-') ::
              natToDecimal (q + ((d0 :: d1 :: dr).length : Int) - 1).natAbs), s,
            q + ((d0 :: d1 :: dr).length : Int) - 1, ?_, by simp, ?_,
            ?_, ?_, by simpa using hv, ?_, by simp, ?_⟩
          · simp [bodyText, mantText]
          · intro c hc
            exact hdig c (by simp only [List.mem_singleton] at hc; simp [hc])
          · intro f hf
            simp only [Option.some.injEq] at hf
            subst hf
            exact ⟨by simp, fun c hc => hdig c (List.mem_cons_of_mem _ hc)⟩
          · exact isJsonInt_of _ _ hd0 (fun c hc =>
              hdig c (by simp only [List.mem_singleton] at hc; simp [hc]))
          · intro t ht
            simp only [Option.some.injEq] at ht
            subst ht
            exact ⟨hpe, hje, hce⟩
          · simp only [Option.getD_some, List.length_cons]
            congr 1
            push_cast
            omega

theorem takeWhile_append_stop {α : Type} (p : α → Bool) (a b : List α)
    (ha : ∀ x ∈ a, p x = true) (hb : ∀ c, b.head? = some c → p c = false) :
    (a ++ b).takeWhile p = a ∧ (a ++ b).dropWhile p = b := by
  induction a with
  | nil =>
    cases b with
    | nil => simp
    | cons c cs => simp [List.takeWhile_cons, List.dropWhile_cons, hb c rfl]
  | cons x xs ih =>
    have hx := ha x (List.mem_cons_self _ _)
    have ih' := ih (fun y hy => ha y (List.mem_cons_of_mem _ hy))
    simp [List.takeWhile_cons, List.dropWhile_cons, hx, ih'.1, ih'.2]

/-- A number token in front of a character that cannot continue it is read as
that number. -/
theorem parseValue_number (fuel : Nat) (c : Char) (cs rest : Str) (x : JSNumber)
    (htok : jsonNumber (c :: cs) = some x)
    (hchars : ∀ y ∈ c :: cs, isJsonNumberChar y = true)
    (hhead : isDecDigit c = true ∨ c = '-')
    (hrest : ∀ y, rest.head? = some y → isJsonNumberChar y = false) :
    parseValue (fuel + 1) (c :: cs ++ rest) = some (.num x, rest) := by
  obtain ⟨ht, hd⟩ := takeWhile_append_stop isJsonNumberChar (c :: cs) rest hchars hrest
  rw [List.cons_append] at ht hd
  have hsp : isJsonSpace c = false := by
    rcases hhead with h | h
    · rcases isDecDigit_cases h with h | h | h | h | h | h | h | h | h | h <;> (subst h; decide)
    · subst h; decide
  have hskip : skipJsonSpace (c :: (cs ++ rest)) = c :: (cs ++ rest) := by
    simp [skipJsonSpace, List.dropWhile_cons, hsp]
  have h1 : c ≠ '"' ∧ c ≠ '{' ∧ c ≠ '[' ∧ c ≠ 't' ∧ c ≠ 'f' ∧ c ≠ 'n' := by
    rcases hhead with h | h
    · rcases isDecDigit_cases h with h | h | h | h | h | h | h | h | h | h <;> (subst h; decide)
    · subst h; decide
  obtain ⟨ha, hb, hc, hd1, he, hf⟩ := h1
  rw [List.cons_append, parseValue, hskip]
  simp only [ha, hb, hc, if_false, ht, hd, htok, List.isPrefixOf, hd1, he, hf, beq_iff_eq,
    Bool.false_and, Bool.false_eq_true, List.cons.injEq, false_and]
  simp [List.isPrefixOf, hd1.symm, he.symm, hf.symm]

theorem bodyText_chars (ip : Str) (fo eo : Option Str)
    (hip : ∀ c ∈ ip, isDecDigit c = true)
    (hf : ∀ f, fo = some f → ∀ c ∈ f, isDecDigit c = true)
    (he : ∀ t, eo = some t → ∀ c ∈ t, isJsonNumberChar c = true) :
    ∀ c ∈ bodyText ip fo eo, isJsonNumberChar c = true := by
  have hm : ∀ c ∈ mantText ip fo, isJsonNumberChar c = true := by
    intro c hc
    cases fo with
    | none => exact digit_numberChar (hip c hc)
    | some f =>
      simp only [mantText, List.mem_append, List.mem_cons] at hc
      rcases hc with hc | rfl | hc
      · exact digit_numberChar (hip c hc)
      · decide
      · exact digit_numberChar (hf f rfl c hc)
  intro c hc
  cases eo with
  | none => exact hm c hc
  | some t =>
    simp only [bodyText, List.mem_append, List.mem_cons] at hc
    rcases hc with hc | rfl | hc
    · exact hm c hc
    · decide
    · exact he t rfl c hc

theorem bodyText_head (ip : Str) (fo eo : Option Str) (hne : ip ≠ [])
    (hip : ∀ c ∈ ip, isDecDigit c = true) :
    ∃ d ds, bodyText ip fo eo = d :: ds ∧ isDecDigit d = true := by
  cases ip with
  | nil => exact absurd rfl hne
  | cons d ds =>
    have hd := hip d (List.mem_cons_self _ _)
    cases fo <;> cases eo <;> exact ⟨d, _, by simp [bodyText, mantText]; rfl, hd⟩

theorem numberChar_not_break {c : Char} (h : isJsonNumberChar c = true) :
    c ≠ '\n' ∧ c ≠ '\r' := by
  constructor <;> (intro e; subst e; exact absurd h (by decide))

/-- The text Number::toString gives for `± s × 10 ^ q`, in front of a character
that cannot continue a number, is read back by `JSON.parse` as the Number value
of `± s × 10 ^ q`. -/
theorem parseValue_formatDecimal (fuel : Nat) (neg : Bool) (s : Nat) (hs : 0 < s) (q : Int)
    (rest : Str) (hrest : ∀ y, rest.head? = some y → isJsonNumberChar y = false) :
    parseValue (fuel + 1)
        (((if neg then ['-'] else []) ++
          formatDecimal (natToDecimal s) (q + (natToDecimal s).length)) ++ rest) =
      some (.num (fromDecimal neg s q), rest) ∧
    ∀ c ∈ (if neg then ['-'] else []) ++
        formatDecimal (natToDecimal s) (q + (natToDecimal s).length),
      isJsonNumberChar c = true := by
  obtain ⟨ip, fo, eo, m, e, hfmt, hne, hip, hfo, hint, hm, heo, he0, hval⟩ :=
    formatDecimal_parts neg s hs q
  rw [hfmt]
  have hf : ∀ f, fo = some f → ∀ c ∈ f, isDecDigit c = true := fun f h => (hfo f h).2
  have hchars := bodyText_chars ip fo eo hip hf (fun t h => (heo t h).2.2)
  obtain ⟨d, ds, hbody, hd⟩ := bodyText_head ip fo eo hne hip
  have hgram := isJsonUnsigned_bodyText ip fo eo hip hf hint (fun f h => (hfo f h).1)
    (fun t h => (heo t h).2.1)
  have hvalue := fun sign => parseUnsignedDecimal_bodyText sign ip fo eo m e hne hip hf hm
    (fun t h => (heo t h).1) he0
  have hdm : d ≠ '-' := by
    intro h; subst h; exact absurd hd (by decide)
  cases neg with
  | true =>
    simp only [if_true, List.singleton_append]
    have hall : ∀ c ∈ '-' :: bodyText ip fo eo, isJsonNumberChar c = true := by
      intro c hc
      rcases List.mem_cons.mp hc with rfl | hc
      · decide
      · exact hchars c hc
    refine ⟨?_, hall⟩
    apply parseValue_number fuel '-' _ rest _ _ hall (Or.inr rfl) hrest
    simp only [jsonNumber, if_true, hgram]
    rw [hvalue true, hval]
  | false =>
    simp only [Bool.false_eq_true, if_false, List.nil_append]
    refine ⟨?_, hchars⟩
    rw [hbody] at hchars hgram ⊢
    apply parseValue_number fuel d ds rest _ _ hchars (Or.inl hd) hrest
    have hv := hvalue false
    rw [hbody] at hv
    simp only [jsonNumber, if_neg hdm, hgram, if_true]
    rw [hv, hval]

/-! ## Doubles are their own Number value -/

theorem scalePow2_le_iff (a b : Nat) (hb : 0 < b) (e : Int) :
    (scalePow2 a b e).2 ≤ (scalePow2 a b e).1 ↔ (2 : ℚ) ^ e ≤ (a : ℚ) / b := by
  have hbq : (0 : ℚ) < b := by exact_mod_cast hb
  unfold scalePow2
  by_cases h : 0 ≤ e
  · rw [if_pos h]
    obtain ⟨t, rfl⟩ := Int.eq_ofNat_of_zero_le h
    simp only [Int.toNat_ofNat, zpow_natCast]
    rw [le_div_iff₀ hbq]
    constructor
    · intro h
      have : ((b * 2 ^ t : Nat) : ℚ) ≤ a := by exact_mod_cast h
      push_cast at this
      linarith
    · intro h
      have : ((b * 2 ^ t : Nat) : ℚ) ≤ a := by push_cast; linarith
      exact_mod_cast this
  · rw [if_neg h]
    obtain ⟨t, rfl⟩ : ∃ t : Nat, e = -(t : Int) := ⟨(-e).toNat, by omega⟩
    simp only [neg_neg, Int.toNat_ofNat, zpow_neg, zpow_natCast]
    have hp : (0 : ℚ) < 2 ^ t := by positivity
    rw [le_div_iff₀ hbq, inv_mul_le_iff₀ hp]
    constructor
    · intro h
      have : ((b : Nat) : ℚ) ≤ ((a * 2 ^ t : Nat) : ℚ) := by exact_mod_cast h
      push_cast at this
      linarith
    · intro h
      have : ((b : Nat) : ℚ) ≤ ((a * 2 ^ t : Nat) : ℚ) := by push_cast; linarith
      exact_mod_cast this

theorem zpow_two_unique (x : ℚ) (e E : Int) (h1 : (2 : ℚ) ^ e ≤ x) (h2 : x < (2 : ℚ) ^ (e + 1))
    (h3 : (2 : ℚ) ^ E ≤ x) (h4 : x < (2 : ℚ) ^ (E + 1)) : e = E := by
  have ha : e < E + 1 :=
    (zpow_lt_zpow_iff_right₀ (by norm_num : (1 : ℚ) < 2)).mp (lt_of_le_of_lt h1 h4)
  have hb : E < e + 1 :=
    (zpow_lt_zpow_iff_right₀ (by norm_num : (1 : ℚ) < 2)).mp (lt_of_le_of_lt h3 h2)
  omega

theorem bitLen_rat (n : Nat) (h0 : 0 < n) :
    (2 : ℚ) ^ ((bitLen n : Int) - 1) ≤ n ∧ (n : ℚ) < (2 : ℚ) ^ (bitLen n : Int) := by
  obtain ⟨ha, hb, hc⟩ := bitLen_spec n h0
  constructor
  · have : ((bitLen n : Int) - 1) = ((bitLen n - 1 : Nat) : Int) := by omega
    rw [this, zpow_natCast]
    exact_mod_cast ha
  · rw [zpow_natCast]
    exact_mod_cast hb

/-- The exponent `roundToDouble` computes is the binary exponent of `a / b`. -/
theorem exponent_eq (a b : Nat) (ha : 0 < a) (hb : 0 < b) (E : Int)
    (h1 : (2 : ℚ) ^ E ≤ (a : ℚ) / b) (h2 : (a : ℚ) / b < (2 : ℚ) ^ (E + 1)) :
    (if (scalePow2 a b ((bitLen a : Int) - (bitLen b : Int))).2 ≤
        (scalePow2 a b ((bitLen a : Int) - (bitLen b : Int))).1
      then (bitLen a : Int) - (bitLen b : Int)
      else (bitLen a : Int) - (bitLen b : Int) - 1) = E := by
  have hbq : (0 : ℚ) < b := by exact_mod_cast hb
  have haq : (0 : ℚ) < a := by exact_mod_cast ha
  obtain ⟨ha1, ha2⟩ := bitLen_rat a ha
  obtain ⟨hb1, hb2⟩ := bitLen_rat b hb
  have h2ne : (2 : ℚ) ≠ 0 := by norm_num
  -- a / b < 2 ^ (e0 + 1)
  have hup : (a : ℚ) / b < (2 : ℚ) ^ ((bitLen a : Int) - (bitLen b : Int) + 1) := by
    have : ((bitLen a : Int) - (bitLen b : Int) + 1) = (bitLen a : Int) - ((bitLen b : Int) - 1) := by
      ring
    rw [this, zpow_sub₀ h2ne, div_lt_div_iff₀ hbq (zpow_pos (by norm_num) _)]
    calc (a : ℚ) * 2 ^ ((bitLen b : Int) - 1) < 2 ^ (bitLen a : Int) * 2 ^ ((bitLen b : Int) - 1) :=
          mul_lt_mul_of_pos_right ha2 (zpow_pos (by norm_num) _)
      _ ≤ 2 ^ (bitLen a : Int) * b :=
          mul_le_mul_of_nonneg_left hb1 (le_of_lt (zpow_pos (by norm_num) _))
  -- 2 ^ (e0 - 1) ≤ a / b
  have hlow : (2 : ℚ) ^ ((bitLen a : Int) - (bitLen b : Int) - 1) ≤ (a : ℚ) / b := by
    have : ((bitLen a : Int) - (bitLen b : Int) - 1) = ((bitLen a : Int) - 1) - (bitLen b : Int) := by
      ring
    rw [this, zpow_sub₀ h2ne, div_le_div_iff₀ (zpow_pos (by norm_num) _) hbq]
    calc (2 : ℚ) ^ ((bitLen a : Int) - 1) * b ≤ a * b :=
          mul_le_mul_of_nonneg_right ha1 (le_of_lt hbq)
      _ ≤ a * 2 ^ (bitLen b : Int) :=
          mul_le_mul_of_nonneg_left (le_of_lt hb2) (le_of_lt haq)
  by_cases ht : (scalePow2 a b ((bitLen a : Int) - (bitLen b : Int))).2 ≤
      (scalePow2 a b ((bitLen a : Int) - (bitLen b : Int))).1
  · rw [if_pos ht]
    exact zpow_two_unique _ _ _ ((scalePow2_le_iff a b hb _).mp ht) hup h1 h2
  · rw [if_neg ht]
    have hlt : (a : ℚ) / b < (2 : ℚ) ^ ((bitLen a : Int) - (bitLen b : Int)) := by
      rw [← not_le]
      exact fun h => ht ((scalePow2_le_iff a b hb _).mpr h)
    refine zpow_two_unique _ _ _ hlow ?_ h1 h2
    have : ((bitLen a : Int) - (bitLen b : Int) - 1 + 1) = (bitLen a : Int) - (bitLen b : Int) := by
      ring
    rw [this]
    exact hlt

theorem roundHalfEven_mul (z d : Nat) (hd : 0 < d) : roundHalfEven (z * d) d = z := by
  simp [roundHalfEven, Nat.mul_div_cancel _ hd, hd]

theorem normDyadic_strip (neg : Bool) (m k : Nat) : ∀ j : Nat,
    normDyadic neg (m * 2 ^ j) (j + k) = normDyadic neg m k := by
  intro j
  induction j with
  | zero => simp
  | succ j ih =>
    have h1 : m * 2 ^ (j + 1) % 2 = 0 := by
      rw [pow_succ, ← Nat.mul_assoc]; exact Nat.mul_mod_left _ _
    have h2 : m * 2 ^ (j + 1) / 2 = m * 2 ^ j := by
      rw [pow_succ, ← Nat.mul_assoc]; exact Nat.mul_div_cancel _ (by norm_num)
    have h3 : j + 1 + k = (j + k) + 1 := by omega
    rw [h3]
    simp only [normDyadic, h1, if_true, h2, ih]

theorem normDyadic_odd (neg : Bool) (m k : Nat) (hm : m % 2 = 1) (hk : 1 ≤ k) :
    normDyadic neg m k = .frac neg m k := by
  obtain ⟨k', rfl⟩ : ∃ k', k = k' + 1 := ⟨k - 1, by omega⟩
  simp [normDyadic, hm]

/-- An odd multiple of `2 ^ (-k)` with at most 53 bits and `k ≤ 1074`, written
as any fraction, is its own Number value. -/
theorem roundToDouble_frac (neg : Bool) (num k c : Nat) (hodd : num % 2 = 1)
    (hnum : num < 2 ^ 53) (hk1 : 1 ≤ k) (hk : k ≤ 1074) (hc : 0 < c) :
    roundToDouble neg (num * c) (2 ^ k * c) = .frac neg num k := by
  have hn0 : 0 < num := by omega
  have ha : 0 < num * c := Nat.mul_pos hn0 hc
  have hb : 0 < 2 ^ k * c := Nat.mul_pos (Nat.pow_pos (by norm_num)) hc
  have hcq : (0 : ℚ) < c := by exact_mod_cast hc
  have hval : ((num * c : Nat) : ℚ) / ((2 ^ k * c : Nat) : ℚ) = (num : ℚ) / 2 ^ k := by
    push_cast
    field_simp
    ring
  obtain ⟨hl1, hl2⟩ := bitLen_rat num hn0
  obtain ⟨_, hbl, hbl1⟩ := bitLen_spec num hn0
  have hL : bitLen num ≤ 53 := by
    by_contra hcon
    obtain ⟨hge, _, _⟩ := bitLen_spec num hn0
    have : 2 ^ 53 ≤ 2 ^ (bitLen num - 1) := Nat.pow_le_pow_right (by norm_num) (by omega)
    omega
  have h2ne : (2 : ℚ) ≠ 0 := by norm_num
  have hp2 : (0 : ℚ) < 2 ^ k := by positivity
  have h1 : (2 : ℚ) ^ ((bitLen num : Int) - 1 - k) ≤ ((num * c : Nat) : ℚ) / ((2 ^ k * c : Nat) : ℚ) := by
    rw [hval, zpow_sub₀ h2ne, zpow_natCast]
    exact div_le_div_of_nonneg_right hl1 (le_of_lt hp2)
  have h2 : ((num * c : Nat) : ℚ) / ((2 ^ k * c : Nat) : ℚ) < (2 : ℚ) ^ ((bitLen num : Int) - 1 - k + 1) := by
    have : ((bitLen num : Int) - 1 - k + 1) = (bitLen num : Int) - k := by ring
    rw [hval, this, zpow_sub₀ h2ne]
    simp only [zpow_natCast] at hl2 ⊢
    exact div_lt_div_of_pos_right hl2 hp2
  have hexp := exponent_eq (num * c) (2 ^ k * c) ha hb _ h1 h2
  have hnz : ¬ (num * c = 0 ∨ 2 ^ k * c = 0) := by omega
  obtain ⟨t, ht, hkt⟩ : ∃ t : Nat,
      max ((bitLen num : Int) - 1 - k - 52) (-1074) = -(t : Int) ∧ k ≤ t := by
    refine ⟨(-(max ((bitLen num : Int) - 1 - k - 52) (-1074))).toNat, ?_, ?_⟩ <;> omega
  have ht0 : 1 ≤ t := by omega
  unfold roundToDouble
  rw [if_neg hnz]
  simp only []
  rw [hexp, ht]
  have hneg : ¬ (0 ≤ -(t : Int)) := by omega
  have hsc : scalePow2 (num * c) (2 ^ k * c) (-(t : Int)) = (num * c * 2 ^ t, 2 ^ k * c) := by
    simp [scalePow2, hneg]
  have hfac : num * c * 2 ^ t = (num * 2 ^ (t - k)) * (2 ^ k * c) := by
    have : 2 ^ t = 2 ^ (t - k) * 2 ^ k := by
      rw [← pow_add]; congr 1; omega
    rw [this]; ring
  rw [hsc]
  simp only [hfac, roundHalfEven_mul _ _ hb]
  have hm0 : ¬ (num * 2 ^ (t - k) = 0) := by
    have : 0 < 2 ^ (t - k) := Nat.pow_pos (by norm_num)
    exact Nat.ne_of_gt (Nat.mul_pos hn0 this)
  rw [if_neg hm0, if_neg hneg]
  have htn : (-(-(t : Int))).toNat = (t - k) + k := by omega
  rw [htn, normDyadic_strip, normDyadic_odd neg num k hodd hk1]

set_option exponentiation.threshold 2000 in
/-- An integer below `2 ^ 1024` with at most 53 significant bits is its own
Number value. -/
theorem roundToDouble_int (neg : Bool) (n : Nat) (h0 : 0 < n) (hlt : n < 2 ^ 1024)
    (hd : n < 2 ^ 53 ∨ n % 2 ^ (bitLen n - 53) = 0) :
    roundToDouble neg n 1 = .int (signedInt neg n) := by
  obtain ⟨hl1, hl2⟩ := bitLen_rat n h0
  obtain ⟨hge, hbl, hbl1⟩ := bitLen_spec n h0
  have h1 : (2 : ℚ) ^ ((bitLen n : Int) - 1) ≤ ((n : Nat) : ℚ) / ((1 : Nat) : ℚ) := by
    simpa using hl1
  have h2 : ((n : Nat) : ℚ) / ((1 : Nat) : ℚ) < (2 : ℚ) ^ ((bitLen n : Int) - 1 + 1) := by
    simpa using hl2
  have hexp := exponent_eq n 1 h0 (by norm_num) _ h1 h2
  have hnz : ¬ (n = 0 ∨ (1 : Nat) = 0) := by omega
  have hp : max ((bitLen n : Int) - 1 - 52) (-1074) = (bitLen n : Int) - 53 := by
    rw [max_eq_left (by omega)]; ring
  unfold roundToDouble
  rw [if_neg hnz]
  simp only []
  rw [hexp, hp]
  by_cases hL : bitLen n ≤ 53
  · by_cases hL53 : bitLen n = 53
    · have hz : (bitLen n : Int) - 53 = 0 := by omega
      rw [hz]
      have hsc : scalePow2 n 1 0 = (n, 1) := by simp [scalePow2]
      simp only [hsc, roundHalfEven_one]
      have hn : ¬ (n = 0) := by omega
      have h3 : ¬ (2 ^ 1024 ≤ n * 2 ^ (0 : Int).toNat) := by simpa using hlt
      rw [if_neg hn, if_pos (le_refl _), if_neg h3]
      simp
    · obtain ⟨t, ht, ht1⟩ : ∃ t : Nat, (bitLen n : Int) - 53 = -(t : Int) ∧ 1 ≤ t :=
        ⟨53 - bitLen n, by omega, by omega⟩
      rw [ht]
      have hneg : ¬ (0 ≤ -(t : Int)) := by omega
      have hsc : scalePow2 n 1 (-(t : Int)) = (n * 2 ^ t, 1) := by simp [scalePow2, hneg]
      simp only [hsc, roundHalfEven_one]
      have hm0 : ¬ (n * 2 ^ t = 0) := by
        have : 0 < 2 ^ t := Nat.pow_pos (by norm_num)
        exact Nat.ne_of_gt (Nat.mul_pos h0 this)
      rw [if_neg hm0, if_neg hneg]
      have htn : (-(-(t : Int))).toNat = t := by omega
      rw [htn, normDyadic_mul_pow]
  · have hbig : ¬ n < 2 ^ 53 := by
      have : 2 ^ 53 ≤ 2 ^ (bitLen n - 1) := Nat.pow_le_pow_right (by norm_num) (by omega)
      omega
    have hdiv : n % 2 ^ (bitLen n - 53) = 0 := by
      rcases hd with h | h
      · exact absurd h hbig
      · exact h
    obtain ⟨z, hz⟩ : ∃ z, n = z * 2 ^ (bitLen n - 53) :=
      ⟨n / 2 ^ (bitLen n - 53), by
        have := Nat.div_add_mod n (2 ^ (bitLen n - 53))
        rw [hdiv] at this
        rw [Nat.mul_comm]; omega⟩
    have hpos : (0 : Int) ≤ (bitLen n : Int) - 53 := by omega
    have htn : ((bitLen n : Int) - 53).toNat = bitLen n - 53 := by omega
    have hsc : scalePow2 n 1 ((bitLen n : Int) - 53) = (n, 2 ^ (bitLen n - 53)) := by
      simp [scalePow2, hpos, htn]
    rw [hsc]
    simp only []
    rw [if_pos hpos, htn]
    generalize bitLen n - 53 = T at hz
    have hTpos : 0 < 2 ^ T := Nat.pow_pos (by norm_num : 0 < 2)
    have hr : roundHalfEven n (2 ^ T) = z := by
      rw [hz]
      exact roundHalfEven_mul z (2 ^ T) hTpos
    rw [hr]
    have hz0 : ¬ (z = 0) := by
      intro h; rw [h] at hz; omega
    have h3 : ¬ (2 ^ 1024 ≤ z * 2 ^ T) := by
      rw [← hz]; exact Nat.not_le.mpr hlt
    rw [if_neg hz0, if_neg h3, ← hz]

/-! ## Number::toString finds digits for every double -/

theorem ltPow10_iff (a b : Nat) (hb : 0 < b) (n : Int) :
    ltPow10 a b n = true ↔ (a : ℚ) / b < (10 : ℚ) ^ n := by
  have hbq : (0 : ℚ) < b := by exact_mod_cast hb
  unfold ltPow10
  by_cases h : 0 ≤ n
  · rw [if_pos h]
    obtain ⟨t, rfl⟩ := Int.eq_ofNat_of_zero_le h
    simp only [Int.toNat_ofNat, zpow_natCast, decide_eq_true_eq]
    rw [div_lt_iff₀ hbq]
    constructor
    · intro h
      have : ((a : Nat) : ℚ) < ((10 ^ t * b : Nat) : ℚ) := by exact_mod_cast h
      push_cast at this
      exact this
    · intro h
      have : ((a : Nat) : ℚ) < ((10 ^ t * b : Nat) : ℚ) := by push_cast; exact h
      exact_mod_cast this
  · rw [if_neg h]
    obtain ⟨t, rfl⟩ : ∃ t : Nat, n = -(t : Int) := ⟨(-n).toNat, by omega⟩
    simp only [neg_neg, Int.toNat_ofNat, zpow_neg, zpow_natCast, decide_eq_true_eq]
    have hp : (0 : ℚ) < 10 ^ t := by positivity
    rw [div_lt_iff₀ hbq, lt_inv_mul_iff₀ hp]
    constructor
    · intro h
      have : ((a * 10 ^ t : Nat) : ℚ) < ((b : Nat) : ℚ) := by exact_mod_cast h
      push_cast at this
      linarith
    · intro h
      have : ((a * 10 ^ t : Nat) : ℚ) < ((b : Nat) : ℚ) := by push_cast; linarith
      exact_mod_cast this

theorem decadeFrom_spec (a b : Nat) : ∀ (fuel : Nat) (n : Int),
    ltPow10 a b (n + fuel) = true → ltPow10 a b (n - 1) = false →
    ltPow10 a b (decadeFrom fuel n a b) = true ∧
    ltPow10 a b (decadeFrom fuel n a b - 1) = false := by
  intro fuel
  induction fuel with
  | zero =>
    intro n h1 h2
    simp only [decadeFrom]
    exact ⟨by simpa using h1, h2⟩
  | succ fuel ih =>
    intro n h1 h2
    simp only [decadeFrom]
    by_cases h : ltPow10 a b n = true
    · rw [if_pos h]; exact ⟨h, h2⟩
    · rw [if_neg h]
      apply ih
      · have : n + 1 + (fuel : Int) = n + ((fuel + 1 : Nat) : Int) := by push_cast; ring
        rw [this]; exact h1
      · have : n + 1 - 1 = n := by ring
        rw [this]; simpa using h

/-- The decade of a value in the range of the finite doubles. -/
theorem decade_spec (a b : Nat) (hb : 0 < b) (hlow : (10 : ℚ) ^ (-325 : Int) ≤ (a : ℚ) / b)
    (hhigh : (a : ℚ) / b < (10 : ℚ) ^ (316 : Int)) :
    (10 : ℚ) ^ (decade a b - 1) ≤ (a : ℚ) / b ∧ (a : ℚ) / b < (10 : ℚ) ^ (decade a b) := by
  have h1 : ltPow10 a b (-324 + ((640 : Nat) : Int)) = true := by
    rw [ltPow10_iff a b hb]
    have : (-324 + ((640 : Nat) : Int)) = 316 := by norm_num
    rw [this]; exact hhigh
  have h2 : ltPow10 a b (-324 - 1) = false := by
    rw [← Bool.not_eq_true, ltPow10_iff a b hb, not_lt]
    have : (-324 - 1 : Int) = -325 := by norm_num
    rw [this]; exact hlow
  obtain ⟨h3, h4⟩ := decadeFrom_spec a b 640 (-324) h1 h2
  constructor
  · rw [← Bool.not_eq_true, ltPow10_iff a b hb, not_lt] at h4
    exact h4
  · exact (ltPow10_iff a b hb _).mp h3

theorem digitsWith_isSome_of_lo (x : JSNumber) (neg : Bool) (a b : Nat) (n : Int) (k : Nat)
    (h : isDigitsOf x neg k
      ((scalePow10 a b (n - (k : Int))).1 / (scalePow10 a b (n - (k : Int))).2)
      (n - (k : Int)) = true) :
    (digitsWith x neg a b n k).isSome = true := by
  unfold digitsWith
  simp only [h, Bool.true_and, if_true]
  split_ifs <;> rfl

theorem shortestFrom_isSome (x : JSNumber) (neg : Bool) (a b : Nat) (n : Int) :
    ∀ (fuel k k0 : Nat), k ≤ k0 → k0 < k + fuel →
      (digitsWith x neg a b n k0).isSome = true →
      (shortestFrom x neg a b n fuel k).isSome = true := by
  intro fuel
  induction fuel with
  | zero => intro k k0 h1 h2; omega
  | succ fuel ih =>
    intro k k0 h1 h2 h3
    simp only [shortestFrom]
    cases hk : digitsWith x neg a b n k with
    | some r => rfl
    | none =>
      have hne : k ≠ k0 := by
        intro e; subst e; rw [hk] at h3; exact absurd h3 (by simp)
      exact ih (k + 1) k0 (by omega) (by omega) h3

theorem digitsWith_sound (x : JSNumber) (neg : Bool) (a b : Nat) (n : Int) (k s : Nat)
    (q : Int) (h : digitsWith x neg a b n k = some (s, q)) :
    isDigitsOf x neg k s q = true := by
  unfold digitsWith at h
  simp only [] at h
  generalize (if (scalePow10 a b (n - (k : Int))).1 / (scalePow10 a b (n - (k : Int))).2 + 1 =
      10 ^ k then ((10 ^ (k - 1), n - (k : Int) + 1) : Nat × Int)
    else ((scalePow10 a b (n - (k : Int))).1 / (scalePow10 a b (n - (k : Int))).2 + 1,
      n - (k : Int))) = hi at h
  generalize (scalePow10 a b (n - (k : Int))).1 / (scalePow10 a b (n - (k : Int))).2 = lo at h
  obtain ⟨hs, hq⟩ := hi
  simp only [Bool.and_eq_true] at h
  split_ifs at h with h1 h2 h3 h4 h5 h6 <;>
    (simp only [Option.some.injEq, Prod.mk.injEq] at h
     obtain ⟨rfl, rfl⟩ := h
     first | exact h1.1 | exact h1.2 | assumption)

theorem shortestFrom_sound (x : JSNumber) (neg : Bool) (a b : Nat) (n : Int) (s : Nat)
    (q : Int) : ∀ (fuel k : Nat), shortestFrom x neg a b n fuel k = some (s, q) →
      0 < s ∧ fromDecimal neg s q = x := by
  intro fuel
  induction fuel with
  | zero => intro k h; simp [shortestFrom] at h
  | succ fuel ih =>
    intro k h
    simp only [shortestFrom] at h
    cases hk : digitsWith x neg a b n k with
    | some r =>
      rw [hk] at h
      simp only [Option.some.injEq] at h
      subst h
      have := digitsWith_sound x neg a b n k s q hk
      simp only [isDigitsOf, Bool.and_eq_true, decide_eq_true_eq] at this
      refine ⟨?_, this.2⟩
      have hp : 0 < 10 ^ (k - 1) := Nat.pow_pos (by norm_num : 0 < 10)
      omega
    | none =>
      rw [hk] at h
      exact ih (k + 1) h

set_option exponentiation.threshold 2000 in
theorem shortestDigits_frac (neg : Bool) (num k : Nat) (hodd : num % 2 = 1)
    (hnum : num < 2 ^ 53) (hk1 : 1 ≤ k) (hk : k ≤ 1074) :
    (shortestDigits (.frac neg num k)).isSome = true := by
  have hn0 : 0 < num := by omega
  have hb : 0 < 2 ^ k := Nat.pow_pos (by norm_num : 0 < 2)
  have hcast : (((2 ^ k : Nat)) : ℚ) = (2 : ℚ) ^ k := by push_cast; rfl
  have hp2 : (0 : ℚ) < 2 ^ k := by positivity
  have hnq : (1 : ℚ) ≤ num := by exact_mod_cast hn0
  have hnq53 : (num : ℚ) < 2 ^ 53 := by exact_mod_cast hnum
  have h2k : (2 : ℚ) ^ k ≤ 2 ^ 1074 := pow_le_pow_right₀ (by norm_num) hk
  have h2k1 : (1 : ℚ) ≤ 2 ^ k := one_le_pow₀ (by norm_num)
  have h2k10 : (2 : ℚ) ^ k < 10 ^ k := pow_lt_pow_left₀ (by norm_num) (by norm_num) (by omega)
  -- bounds on the value
  have hx1 : (1 : ℚ) / 2 ^ k ≤ (num : ℚ) / 2 ^ k := div_le_div_of_nonneg_right hnq (le_of_lt hp2)
  have hlow : (10 : ℚ) ^ (-325 : Int) ≤ (num : ℚ) / ((2 ^ k : Nat) : ℚ) := by
    rw [hcast]
    refine le_trans ?_ hx1
    have h1 : (10 : ℚ) ^ (-325 : Int) ≤ 1 / 2 ^ 1074 := by norm_num
    refine le_trans h1 ?_
    exact one_div_le_one_div_of_le hp2 h2k
  have hx2 : (num : ℚ) / 2 ^ k < 2 ^ 53 := by
    rw [div_lt_iff₀ hp2]
    calc (num : ℚ) < 2 ^ 53 := hnq53
      _ ≤ 2 ^ 53 * 2 ^ k := le_mul_of_one_le_right (by positivity) h2k1
  have hhigh : (num : ℚ) / ((2 ^ k : Nat) : ℚ) < (10 : ℚ) ^ (316 : Int) := by
    rw [hcast]
    refine lt_trans hx2 ?_
    norm_num
  obtain ⟨hd1, hd2⟩ := decade_spec num (2 ^ k) hb hlow hhigh
  rw [hcast] at hd1 hd2
  obtain ⟨n, hn⟩ : ∃ n, n = decade num (2 ^ k) := ⟨_, rfl⟩
  rw [← hn] at hd1 hd2
  -- the decade lies between 1 - k and 17
  have hnk : -(k : Int) < n := by
    have h1 : (10 : ℚ) ^ (-(k : Int)) < (10 : ℚ) ^ n := by
      refine lt_of_lt_of_le ?_ (le_of_lt (lt_of_le_of_lt hx1 hd2))
      rw [zpow_neg, zpow_natCast, one_div]
      exact inv_strictAnti₀ hp2 h2k10
    exact (zpow_lt_zpow_iff_right₀ (by norm_num : (1 : ℚ) < 10)).mp h1
  have hn17 : n ≤ 17 := by
    have h1 : (10 : ℚ) ^ (n - 1) < (10 : ℚ) ^ (16 : Int) := by
      refine lt_of_le_of_lt hd1 (lt_trans hx2 ?_)
      norm_num
    have := (zpow_lt_zpow_iff_right₀ (by norm_num : (1 : ℚ) < 10)).mp h1
    omega
  obtain ⟨k0, hk0⟩ : ∃ k0 : Nat, (k0 : Int) = n + k := ⟨(n + k).toNat, by omega⟩
  have hq : n - (k0 : Int) = -(k : Int) := by omega
  have hneg : ¬ (0 ≤ -(k : Int)) := by omega
  have hpow : 10 ^ k = 2 ^ k * 5 ^ k := by
    rw [← Nat.mul_pow]
  have hsc : scalePow10 num (2 ^ k) (-(k : Int)) = (num * 10 ^ k, 2 ^ k) := by
    simp [scalePow10, hneg]
  have hlo : num * 10 ^ k / 2 ^ k = num * 5 ^ k := by
    rw [hpow, Nat.mul_comm (2 ^ k) (5 ^ k), ← Nat.mul_assoc]
    exact Nat.mul_div_cancel _ hb
  have hSq : ((num * 5 ^ k : Nat) : ℚ) = (num : ℚ) / 2 ^ k * 10 ^ k := by
    have : (10 : ℚ) ^ k = 2 ^ k * 5 ^ k := by rw [← mul_pow]; norm_num
    rw [this]
    push_cast
    field_simp
    ring
  have h10ne : (10 : ℚ) ≠ 0 := by norm_num
  have h10k : (0 : ℚ) < 10 ^ k := by positivity
  unfold shortestDigits
  simp only [JSNumber.magnitude]
  rw [← hn]
  apply shortestFrom_isSome _ _ _ _ _ 1100 1 k0 (by omega) (by omega)
  apply digitsWith_isSome_of_lo
  rw [hq, hsc]
  simp only [hlo, isDigitsOf, Bool.and_eq_true, decide_eq_true_eq]
  refine ⟨⟨?_, ?_⟩, ?_⟩
  · have h1 : ((10 ^ (k0 - 1) : Nat) : ℚ) ≤ ((num * 5 ^ k : Nat) : ℚ) := by
      rw [hSq]
      have he : (((k0 - 1 : Nat)) : Int) = (n - 1) + k := by omega
      have : ((10 ^ (k0 - 1) : Nat) : ℚ) = (10 : ℚ) ^ (n - 1) * 10 ^ k := by
        push_cast
        rw [← zpow_natCast, he, zpow_add₀ h10ne, zpow_natCast]
      rw [this]
      exact mul_le_mul_of_nonneg_right hd1 (le_of_lt h10k)
    exact_mod_cast h1
  · have h1 : ((num * 5 ^ k : Nat) : ℚ) < ((10 ^ k0 : Nat) : ℚ) := by
      rw [hSq]
      have : ((10 ^ k0 : Nat) : ℚ) = (10 : ℚ) ^ n * 10 ^ k := by
        push_cast
        rw [← zpow_natCast, hk0, zpow_add₀ h10ne, zpow_natCast]
      rw [this]
      exact mul_lt_mul_of_pos_right hd2 h10k
    exact_mod_cast h1
  · have hk' : (-(-(k : Int))).toNat = k := by omega
    simp only [fromDecimal, if_neg hneg, hk']
    rw [hpow]
    exact roundToDouble_frac neg num k (5 ^ k) hodd hnum hk1 hk (Nat.pow_pos (by norm_num))

set_option exponentiation.threshold 2000 in
theorem shortestDigits_int (i : Int) (hi : i ≠ 0) (hlt : i.natAbs < 2 ^ 1024)
    (hd : i.natAbs < 2 ^ 53 ∨ i.natAbs % 2 ^ (bitLen i.natAbs - 53) = 0) :
    (shortestDigits (.int i)).isSome = true := by
  have ha0 : 0 < i.natAbs := Int.natAbs_pos.mpr hi
  have haq : (1 : ℚ) ≤ (i.natAbs : ℚ) := by exact_mod_cast ha0
  have haq2 : (i.natAbs : ℚ) < 2 ^ 1024 := by exact_mod_cast hlt
  have hlow : (10 : ℚ) ^ (-325 : Int) ≤ (i.natAbs : ℚ) / ((1 : Nat) : ℚ) := by
    simp only [Nat.cast_one, div_one]
    refine le_trans ?_ haq
    norm_num
  have hhigh : (i.natAbs : ℚ) / ((1 : Nat) : ℚ) < (10 : ℚ) ^ (316 : Int) := by
    simp only [Nat.cast_one, div_one]
    refine lt_trans haq2 ?_
    norm_num
  obtain ⟨hd1, hd2⟩ := decade_spec i.natAbs 1 (by norm_num) hlow hhigh
  simp only [Nat.cast_one, div_one] at hd1 hd2
  obtain ⟨n, hn⟩ : ∃ n, n = decade i.natAbs 1 := ⟨_, rfl⟩
  rw [← hn] at hd1 hd2
  have hn1 : 0 < n := by
    have h1 : (10 : ℚ) ^ (0 : Int) < (10 : ℚ) ^ n := by
      refine lt_of_le_of_lt ?_ hd2
      simpa using haq
    exact (zpow_lt_zpow_iff_right₀ (by norm_num : (1 : ℚ) < 10)).mp h1
  have hn309 : n ≤ 309 := by
    have h1 : (10 : ℚ) ^ (n - 1) < (10 : ℚ) ^ (309 : Int) := by
      refine lt_of_le_of_lt hd1 (lt_trans haq2 ?_)
      norm_num
    have := (zpow_lt_zpow_iff_right₀ (by norm_num : (1 : ℚ) < 10)).mp h1
    omega
  obtain ⟨k0, hk0⟩ : ∃ k0 : Nat, (k0 : Int) = n := ⟨n.toNat, by omega⟩
  have hq : n - (k0 : Int) = 0 := by omega
  have hsc : scalePow10 i.natAbs 1 0 = (i.natAbs, 1) := by simp [scalePow10]
  unfold shortestDigits
  simp only [JSNumber.magnitude, if_neg hi]
  rw [← hn]
  apply shortestFrom_isSome _ _ _ _ _ 1100 1 k0 (by omega) (by omega)
  apply digitsWith_isSome_of_lo
  rw [hq, hsc]
  simp only [Nat.div_one, isDigitsOf, Bool.and_eq_true, decide_eq_true_eq]
  refine ⟨⟨?_, ?_⟩, ?_⟩
  · have h1 : ((10 ^ (k0 - 1) : Nat) : ℚ) ≤ ((i.natAbs : Nat) : ℚ) := by
      have he : (((k0 - 1 : Nat)) : Int) = n - 1 := by omega
      have : ((10 ^ (k0 - 1) : Nat) : ℚ) = (10 : ℚ) ^ (n - 1) := by
        push_cast
        rw [← zpow_natCast, he]
      rw [this]
      exact hd1
    exact_mod_cast h1
  · have h1 : ((i.natAbs : Nat) : ℚ) < ((10 ^ k0 : Nat) : ℚ) := by
      have : ((10 ^ k0 : Nat) : ℚ) = (10 : ℚ) ^ n := by
        push_cast
        rw [← zpow_natCast, hk0]
      rw [this]
      exact hd2
    exact_mod_cast h1
  · simp only [fromDecimal, le_refl, if_true, Int.toNat_zero, pow_zero, Nat.mul_one]
    rw [roundToDouble_int _ _ ha0 hlt hd]
    congr 1
    by_cases hneg : i < 0
    · simp only [signedInt, hneg, decide_True, if_true]
      omega
    · simp only [signedInt, hneg, decide_False, Bool.false_eq_true, if_false]
      omega

/-! ## JSON round trip: values and members -/

theorem shortestDigits_sound (x : JSNumber) (neg : Bool) (a b s : Nat) (q : Int)
    (hm : x.magnitude = some (neg, a, b)) (h : shortestDigits x = some (s, q)) :
    0 < s ∧ fromDecimal neg s q = x := by
  unfold shortestDigits at h
  rw [hm] at h
  exact shortestFrom_sound x neg a b _ s q _ _ h

theorem shortestDigits_isSome (x : JSNumber) (hx : x.isPlainDouble = true)
    (h0 : x ≠ .int 0) : (shortestDigits x).isSome = true := by
  cases x with
  | int i =>
    simp only [JSNumber.isPlainDouble, Bool.and_eq_true, Bool.or_eq_true,
      decide_eq_true_eq] at hx
    exact shortestDigits_int i (fun e => h0 (by rw [e])) hx.1 hx.2
  | frac neg num k =>
    simp only [JSNumber.isPlainDouble, Bool.and_eq_true, decide_eq_true_eq] at hx
    exact shortestDigits_frac neg num k hx.1.1.1 hx.1.1.2 hx.1.2 hx.2
  | nan => exact absurd hx (by simp [JSNumber.isPlainDouble])
  | posInf => exact absurd hx (by simp [JSNumber.isPlainDouble])
  | negInf => exact absurd hx (by simp [JSNumber.isPlainDouble])
  | negZero => exact absurd hx (by simp [JSNumber.isPlainDouble])

/-- A finite double other than `-0`, written by `JSON.stringify` in front of a
character that cannot continue a number, is read back as itself. -/
theorem parseValue_num (fuel : Nat) (x : JSNumber) (hx : x.isPlainDouble = true) (rest : Str)
    (hrest : ∀ y, rest.head? = some y → isJsonNumberChar y = false) :
    parseValue (fuel + 1) ((Json.num x).stringify ++ rest) = some (.num x, rest) ∧
    ∀ c ∈ (Json.num x).stringify, isJsonNumberChar c = true := by
  by_cases h0 : x = .int 0
  · subst h0
    have hs : (Json.num (.int 0)).stringify = ['0'] := by decide
    rw [hs]
    refine ⟨?_, by decide⟩
    exact parseValue_number fuel '0' [] rest (.int 0) (by decide) (by decide)
      (Or.inl (by decide)) hrest
  · have hsome := shortestDigits_isSome x hx h0
    obtain ⟨⟨s, q⟩, hsq⟩ := Option.isSome_iff_exists.mp hsome
    have hmag : ∃ neg a b, x.magnitude = some (neg, a, b) := by
      cases x with
      | int i =>
        have hi : i ≠ 0 := fun e => h0 (by rw [e])
        exact ⟨decide (i < 0), i.natAbs, 1, by simp [JSNumber.magnitude, hi]⟩
      | frac neg num k => exact ⟨_, _, _, rfl⟩
      | nan => exact absurd hx (by simp [JSNumber.isPlainDouble])
      | posInf => exact absurd hx (by simp [JSNumber.isPlainDouble])
      | negInf => exact absurd hx (by simp [JSNumber.isPlainDouble])
      | negZero => exact absurd hx (by simp [JSNumber.isPlainDouble])
    obtain ⟨neg, a, b, hm⟩ := hmag
    obtain ⟨hs0, hval⟩ := shortestDigits_sound x neg a b s q hm hsq
    have htext : (Json.num x).stringify =
        (if neg then ['-'] else []) ++
          formatDecimal (natToDecimal s) (q + (natToDecimal s).length) := by
      cases x with
      | int i => simp only [Json.stringify, JSNumber.isFinite, if_true, numberToString, hm, hsq]
      | frac n2 num k =>
        simp only [Json.stringify, JSNumber.isFinite, if_true, numberToString, hm, hsq]
      | nan => exact absurd hx (by simp [JSNumber.isPlainDouble])
      | posInf => exact absurd hx (by simp [JSNumber.isPlainDouble])
      | negInf => exact absurd hx (by simp [JSNumber.isPlainDouble])
      | negZero => exact absurd hx (by simp [JSNumber.isPlainDouble])
    rw [htext]
    have := parseValue_formatDecimal fuel neg s hs0 q rest hrest
    rw [hval] at this
    exact this

/-- A string written by `JSON.stringify` is read back as itself. -/
theorem parseValue_str (fuel : Nat) (s rest : Str) :
    parseValue (fuel + 1) (quoteJson s ++ rest) = some (.str s, rest) := by
  have h : quoteJson s ++ rest = '"' :: (escapeJson s ++ '"' :: rest) := by
    simp [quoteJson]
  rw [h, parseValue]
  simp [skipJsonSpace, List.dropWhile_cons, isJsonSpace, parseJsonString_escapeJson]

theorem parseValue_bool (fuel : Nat) (b : Bool) (rest : Str) :
    parseValue (fuel + 1) ((Json.bool b).stringify ++ rest) = some (.bool b, rest) := by
  cases b
  · rw [parseValue]
    simp [Json.stringify, skipJsonSpace, List.dropWhile_cons, isJsonSpace, List.isPrefixOf]
  · rw [parseValue]
    simp [Json.stringify, skipJsonSpace, List.dropWhile_cons, isJsonSpace, List.isPrefixOf]

/-- One member `"k":value` followed by a comma or the closing brace. -/
theorem parseMembers_step (fuel : Nat) (acc : List (Str × Json)) (k vtext : Str) (v : Json)
    (c : Char) (rest : Str)
    (hv : parseValue fuel (vtext ++ c :: rest) = some (v, c :: rest))
    (hc : c = ',' ∨ c = '}') :
    parseMembers (fuel + 1) acc (quoteJson k ++ ':' :: (vtext ++ c :: rest)) =
      if c = ',' then parseMembers fuel (acc ++ [(k, v)]) rest
      else some (.obj (acc ++ [(k, v)]), rest) := by
  have h : quoteJson k ++ ':' :: (vtext ++ c :: rest) =
      '"' :: (escapeJson k ++ '"' :: ':' :: (vtext ++ c :: rest)) := by
    simp [quoteJson]
  rw [h, parseMembers]
  have hsp : isJsonSpace c = false := by
    rcases hc with rfl | rfl <;> decide
  rcases hc with rfl | rfl
  · simp [skipJsonSpace, List.dropWhile_cons, isJsonSpace, parseJsonString_escapeJson, hv]
  · simp [skipJsonSpace, List.dropWhile_cons, isJsonSpace, parseJsonString_escapeJson, hv]

/-- An object that is not empty: after `{` come its members. -/
theorem parseValue_object (fuel : Nat) (k t : Str) :
    parseValue (fuel + 1) ('{' :: (quoteJson k ++ t)) = parseMembers fuel [] (quoteJson k ++ t) := by
  rw [parseValue]
  simp [skipJsonSpace, List.dropWhile_cons, isJsonSpace, quoteJson]

theorem parseValue_flat (v : Json) (hv : v.isFlat = true) (fuel : Nat) (hf : 1 ≤ fuel)
    (c : Char) (rest : Str) (hc : c = ',' ∨ c = '}') :
    parseValue fuel (v.stringify ++ c :: rest) = some (v, c :: rest) := by
  obtain ⟨f, rfl⟩ : ∃ f, fuel = f + 1 := ⟨fuel - 1, by omega⟩
  cases v with
  | str s => simpa [Json.stringify] using parseValue_str f s (c :: rest)
  | bool b => exact parseValue_bool f b (c :: rest)
  | num x =>
    refine (parseValue_num f x hv (c :: rest) ?_).1
    intro y hy
    simp only [List.head?_cons, Option.some.injEq] at hy
    subst hy
    rcases hc with rfl | rfl <;> decide
  | null => exact absurd hv (by simp [Json.isFlat])
  | arr items => exact absurd hv (by simp [Json.isFlat])
  | obj members => exact absurd hv (by simp [Json.isFlat])

/-- The members of an object written by `JSON.stringify`, up to its closing
brace, are read back in order when each value is. -/
theorem parseMembers_list (need : Nat) : ∀ (ms : List (Str × Json)),
    ms ≠ [] →
    (∀ m ∈ ms, ∀ fuel, need ≤ fuel → ∀ (c : Char) (rest : Str), c = ',' ∨ c = '}' →
      parseValue fuel (m.2.stringify ++ c :: rest) = some (m.2, c :: rest)) →
    ∀ (fuel : Nat) (acc : List (Str × Json)) (rest : Str), need + ms.length ≤ fuel →
      parseMembers fuel acc (stringifyMembers ms ++ '}' :: rest) =
        some (.obj (acc ++ ms), rest) := by
  intro ms
  induction ms with
  | nil => intro h; exact absurd rfl h
  | cons m tl ih =>
    intro _ hval fuel acc rest hfuel
    obtain ⟨k, v⟩ := m
    obtain ⟨f, rfl⟩ : ∃ f, fuel = f + 1 := ⟨fuel - 1, by simp at hfuel; omega⟩
    have hlen : need + tl.length ≤ f := by simp at hfuel; omega
    cases tl with
    | nil =>
      have hv := hval (k, v) (List.mem_cons_self _ _) f (by omega) '}' rest (Or.inr rfl)
      have := parseMembers_step f acc k v.stringify v '}' rest hv (Or.inr rfl)
      simp only [stringifyMembers, List.append_assoc, List.cons_append]
      rw [this]
      simp
    | cons m2 tl2 =>
      have hv := hval (k, v) (List.mem_cons_self _ _) f (by simp at hlen; omega) ','
        (stringifyMembers (m2 :: tl2) ++ '}' :: rest) (Or.inl rfl)
      have := parseMembers_step f acc k v.stringify v ','
        (stringifyMembers (m2 :: tl2) ++ '}' :: rest) hv (Or.inl rfl)
      simp only [stringifyMembers, List.append_assoc, List.cons_append]
      rw [this]
      simp only [if_true]
      rw [ih (by simp) (fun m hm => hval m (List.mem_cons_of_mem _ hm)) f (acc ++ [(k, v)])
        rest hlen]
      simp

/-- An object that is not empty, written by `JSON.stringify`, is read back as
itself when each of its values is. -/
theorem parseValue_obj (need : Nat) (ms : List (Str × Json)) (hne : ms ≠ [])
    (hval : ∀ m ∈ ms, ∀ fuel, need ≤ fuel → ∀ (c : Char) (rest : Str), c = ',' ∨ c = '}' →
      parseValue fuel (m.2.stringify ++ c :: rest) = some (m.2, c :: rest))
    (fuel : Nat) (hfuel : need + ms.length + 1 ≤ fuel) (rest : Str) :
    parseValue fuel ((Json.obj ms).stringify ++ rest) = some (.obj ms, rest) := by
  obtain ⟨f, rfl⟩ : ∃ f, fuel = f + 1 := ⟨fuel - 1, by omega⟩
  have hmem := parseMembers_list need ms hne hval f [] rest (by omega)
  have htext : (Json.obj ms).stringify ++ rest = '{' :: (stringifyMembers ms ++ '}' :: rest) := by
    simp [Json.stringify]
  rw [htext]
  obtain ⟨k, t, hk⟩ : ∃ k t, stringifyMembers ms ++ '}' :: rest = quoteJson k ++ t := by
    match ms, hne with
    | [(k, v)], _ => exact ⟨k, _, by rw [stringifyMembers, List.append_assoc]⟩
    | (k, v) :: m2 :: tl, _ => exact ⟨k, _, by rw [stringifyMembers, List.append_assoc]⟩
  rw [hk, parseValue_object, ← hk, hmem]
  simp

/-! ## JSON round trip: events -/

theorem escapeJson_no_break (s : Str) : ∀ c ∈ escapeJson s, c ≠ '\n' ∧ c ≠ '\r' := by
  induction s with
  | nil => simp [escapeJson]
  | cons x xs ih =>
    intro c hc
    simp only [escapeJson, List.mem_append] at hc
    rcases hc with hc | hc
    · exact escapeJsonChar_no_break x c hc
    · exact ih c hc

theorem quoteJson_no_break (s : Str) : ∀ c ∈ quoteJson s, c ≠ '\n' ∧ c ≠ '\r' := by
  intro c hc
  simp only [quoteJson, List.mem_cons, List.mem_append, List.not_mem_nil, or_false] at hc
  rcases hc with rfl | hc | rfl
  · decide
  · exact escapeJson_no_break s c hc
  · decide

theorem stringify_flat_no_break (v : Json) (hv : v.isFlat = true) :
    ∀ c ∈ v.stringify, c ≠ '\n' ∧ c ≠ '\r' := by
  cases v with
  | str s => simpa [Json.stringify] using quoteJson_no_break s
  | bool b =>
    intro c hc
    cases b <;> simp [Json.stringify] at hc <;>
      rcases hc with rfl | rfl | rfl | rfl | hc <;> first | decide | (subst hc; decide)
  | num x =>
    intro c hc
    exact numberChar_not_break ((parseValue_num 0 x hv [] (by simp)).2 c hc)
  | null => exact absurd hv (by simp [Json.isFlat])
  | arr items => exact absurd hv (by simp [Json.isFlat])
  | obj members => exact absurd hv (by simp [Json.isFlat])

theorem stringifyMembers_no_break : ∀ (ms : List (Str × Json)),
    (∀ m ∈ ms, ∀ c ∈ m.2.stringify, c ≠ '\n' ∧ c ≠ '\r') →
    ∀ c ∈ stringifyMembers ms, c ≠ '\n' ∧ c ≠ '\r'
  | [], _ => by simp [stringifyMembers]
  | [(k, v)], h => by
    intro c hc
    simp only [stringifyMembers, List.mem_append, List.mem_cons] at hc
    rcases hc with hc | rfl | hc
    · exact quoteJson_no_break k c hc
    · decide
    · exact h (k, v) (List.mem_cons_self _ _) c hc
  | (k, v) :: m2 :: tl, h => by
    intro c hc
    simp only [stringifyMembers, List.mem_append, List.mem_cons] at hc
    rcases hc with hc | rfl | hc | rfl | hc
    · exact quoteJson_no_break k c hc
    · decide
    · exact h (k, v) (List.mem_cons_self _ _) c hc
    · decide
    · exact stringifyMembers_no_break (m2 :: tl)
        (fun m hm => h m (List.mem_cons_of_mem _ hm)) c hc

theorem stringify_obj_no_break (ms : List (Str × Json))
    (h : ∀ m ∈ ms, ∀ c ∈ m.2.stringify, c ≠ '\n' ∧ c ≠ '\r') :
    ∀ c ∈ (Json.obj ms).stringify, c ≠ '\n' ∧ c ≠ '\r' := by
  intro c hc
  simp only [Json.stringify, List.mem_cons, List.mem_append, List.not_mem_nil, or_false] at hc
  rcases hc with rfl | hc | rfl
  · decide
  · exact stringifyMembers_no_break ms h c hc
  · decide

/-- The members of the payload of an event: each value is flat, or the summary
object with three flat values. -/
theorem event_members (e : StreamEvent) (he : e.numbersFinite = true) :
    ∃ ms : List (Str × Json), e.toJson = .obj ms ∧ ms ≠ [] ∧ ms.length ≤ 7 ∧
      ∀ m ∈ ms, m.2.isFlat = true ∨
        ∃ ss : List (Str × Json), m.2 = .obj ss ∧ ss ≠ [] ∧ ss.length = 3 ∧
          ∀ s ∈ ss, s.2.isFlat = true := by
  cases e with
  | start w =>
    refine ⟨_, rfl, by simp, by simp, ?_⟩
    intro m hm
    simp only [List.mem_cons, List.mem_singleton, List.not_mem_nil, or_false] at hm
    rcases hm with rfl | rfl <;> exact Or.inl rfl
  | stdout d =>
    refine ⟨_, rfl, by simp, by simp, ?_⟩
    intro m hm
    simp only [List.mem_cons, List.mem_singleton, List.not_mem_nil, or_false] at hm
    rcases hm with rfl | rfl <;> exact Or.inl rfl
  | stderr d =>
    refine ⟨_, rfl, by simp, by simp, ?_⟩
    intro m hm
    simp only [List.mem_cons, List.mem_singleton, List.not_mem_nil, or_false] at hm
    rcases hm with rfl | rfl <;> exact Or.inl rfl
  | error msg =>
    refine ⟨_, rfl, by simp, by simp, ?_⟩
    intro m hm
    simp only [List.mem_cons, List.mem_singleton, List.not_mem_nil, or_false] at hm
    rcases hm with rfl | rfl <;> exact Or.inl rfl
  | finish r =>
    simp only [StreamEvent.numbersFinite, Bool.and_eq_true] at he
    obtain ⟨⟨⟨h1, h2⟩, h3⟩, h4⟩ := he
    refine ⟨_, rfl, by simp, by simp, ?_⟩
    intro m hm
    simp only [List.mem_cons, List.mem_singleton, List.not_mem_nil, or_false] at hm
    rcases hm with rfl | rfl | rfl | rfl | rfl | rfl | rfl
    · exact Or.inl rfl
    · exact Or.inl rfl
    · exact Or.inl h1
    · exact Or.inl rfl
    · exact Or.inl rfl
    · refine Or.inr ⟨_, rfl, by simp, by simp, ?_⟩
      intro s hs
      simp only [List.mem_cons, List.mem_singleton, List.not_mem_nil, or_false] at hs
      rcases hs with rfl | rfl | rfl
      · exact h2
      · exact h3
      · exact h4
    · exact Or.inl rfl

/-- The payload of an event, written by `JSON.stringify`, is read back as
itself. -/
theorem parseValue_event (e : StreamEvent) (he : e.numbersFinite = true) (fuel : Nat)
    (hfuel : 13 ≤ fuel) (rest : Str) :
    parseValue fuel (e.toJson.stringify ++ rest) = some (e.toJson, rest) := by
  obtain ⟨ms, hms, hne, hlen, hmem⟩ := event_members e he
  rw [hms]
  apply parseValue_obj 5 ms hne _ fuel (by omega) rest
  intro m hm f hf c rest2 hc
  rcases hmem m hm with hflat | ⟨ss, hss, hsne, hslen, hsflat⟩
  · exact parseValue_flat m.2 hflat f (by omega) c rest2 hc
  · rw [hss]
    apply parseValue_obj 1 ss hsne _ f (by omega) (c :: rest2)
    intro s hs f2 hf2 c2 rest3 hc2
    exact parseValue_flat s.2 (hsflat s hs) f2 hf2 c2 rest3 hc2

theorem event_no_break (e : StreamEvent) (he : e.numbersFinite = true) :
    ∀ c ∈ e.toJson.stringify, c ≠ '\n' ∧ c ≠ '\r' := by
  obtain ⟨ms, hms, hne, hlen, hmem⟩ := event_members e he
  rw [hms]
  apply stringify_obj_no_break
  intro m hm
  rcases hmem m hm with hflat | ⟨ss, hss, hsne, hslen, hsflat⟩
  · exact stringify_flat_no_break m.2 hflat
  · rw [hss]
    exact stringify_obj_no_break ss (fun s hs => stringify_flat_no_break s.2 (hsflat s hs))

theorem event_text_shape (e : StreamEvent) :
    ∃ body : Str, e.toJson.stringify = '{' :: (body ++ ['}']) ∧ 5 ≤ body.length := by
  cases e <;>
    exact ⟨_, by simp only [StreamEvent.toJson, Json.stringify]; rfl,
      by simp [stringifyMembers, quoteJson]; omega⟩

/-- C14 (amended): for every `StreamEvent` of every variant whose numbers (the
exit code and the three counts of the summary) are finite, the text the
server's NDJSON writer produces, `JSON.stringify(payload)` followed by a line
feed, is exactly one line without a line feed or carriage return inside, and
the client's decoding of that line, `JSON.parse(rawLine.trim())`, gives the
payload back, whatever characters its strings contain. -/
theorem ndjson_round_trip (e : StreamEvent) (he : e.numbersFinite = true) :
    splitOn '\n' (writeNdjson e.toJson) = [e.toJson.stringify, []] ∧
    '\r' ∉ e.toJson.stringify ∧
    decodeLine e.toJson.stringify = some e.toJson := by
  have hnb := event_no_break e he
  obtain ⟨body, hbody, hlen⟩ := event_text_shape e
  refine ⟨?_, fun h => (hnb _ h).2 rfl, ?_⟩
  · unfold writeNdjson
    rw [splitOn_append_sep, splitOn_of_not_mem _ _ (fun h => (hnb _ h).1 rfl)]
    rfl
  · unfold decodeLine
    have htrim : jsTrim e.toJson.stringify = e.toJson.stringify := by
      apply jsTrim_eq_self
      · intro c hc
        rw [hbody] at hc
        simp only [List.head?_cons, Option.some.injEq] at hc
        subst hc; decide
      · intro c hc
        rw [hbody, ← List.cons_append, List.getLast?_append] at hc
        change some '}' = some c at hc
        injection hc with hc
        subst hc; decide
    rw [htrim]
    unfold jsonParse
    have hfuel : 13 ≤ 2 * e.toJson.stringify.length + 2 := by
      rw [hbody]
      simp only [List.length_cons, List.length_append, List.length_nil]
      omega
    have hp := parseValue_event e he _ hfuel []
    rw [List.append_nil] at hp
    rw [hp]
    rfl

set_option exponentiation.threshold 2000 in
/-- C14, an instance: an `end` event whose output has a leading blank, a line
feed, quotes and a trailing blank, with exit code 0 and the summary
`{ total: 3, success: 2.5, failed: 0 }`. -/
theorem ndjson_round_trip_witness :
    (StreamEvent.finish ⟨true, 0, " a\n\"b\" \n".toList, [],
      ⟨.int 3, .frac false 5 1, .int 0⟩, "/w".toList⟩).numbersFinite = true ∧
    (splitOn '\n' (writeNdjson (StreamEvent.finish ⟨true, 0, " a\n\"b\" \n".toList, [],
        ⟨.int 3, .frac false 5 1, .int 0⟩, "/w".toList⟩).toJson) =
      [(StreamEvent.finish ⟨true, 0, " a\n\"b\" \n".toList, [],
        ⟨.int 3, .frac false 5 1, .int 0⟩, "/w".toList⟩).toJson.stringify, []] ∧
    '\r' ∉ (StreamEvent.finish ⟨true, 0, " a\n\"b\" \n".toList, [],
        ⟨.int 3, .frac false 5 1, .int 0⟩, "/w".toList⟩).toJson.stringify ∧
    decodeLine (StreamEvent.finish ⟨true, 0, " a\n\"b\" \n".toList, [],
        ⟨.int 3, .frac false 5 1, .int 0⟩, "/w".toList⟩).toJson.stringify =
      some (StreamEvent.finish ⟨true, 0, " a\n\"b\" \n".toList, [],
        ⟨.int 3, .frac false 5 1, .int 0⟩, "/w".toList⟩).toJson) :=
  ⟨by decide, ndjson_round_trip _ (by decide)⟩

set_option maxRecDepth 100000 in
/-- C14 as stated fails for a summary count that is not finite: when the Driver prints
`SUMMARY TOTAL=Infinity`, the `end` event carries `summary.total = Infinity`,
which `JSON.stringify` writes as `null`; the client's decoding of the line
succeeds but its `summary.total` is `null`, so the event read is not the event
written. -/
theorem ndjson_round_trip_counterexample :
    parseSummary "SUMMARY TOTAL=Infinity".toList = ⟨.posInf, .int 0, .int 0⟩ ∧
    (StreamEvent.finish ⟨true, 0, "SUMMARY TOTAL=Infinity".toList, [],
      ⟨.posInf, .int 0, .int 0⟩, "/w".toList⟩).toJson.stringify =
      ("\x7b\"type\":\"end\",\"ok\":true,\"exit_code\":0,\"stdout\":\"SUMMARY TOTAL=Infinity\"," ++
        "\"stderr\":\"\",\"summary\":\x7b\"total\":null,\"success\":0,\"failed\":0\x7d," ++
        "\"work_root\":\"/w\"\x7d").toList ∧
    ((((StreamEvent.finish ⟨true, 0, "SUMMARY TOTAL=Infinity".toList, [],
      ⟨.posInf, .int 0, .int 0⟩, "/w".toList⟩).toJson.get "summary".toList).bind
        (Json.get "total".toList)).map Json.isNull) = some false ∧
    (((decodeLine (StreamEvent.finish ⟨true, 0, "SUMMARY TOTAL=Infinity".toList, [],
      ⟨.posInf, .int 0, .int 0⟩, "/w".toList⟩).toJson.stringify).bind
        (Json.get "summary".toList)).bind (Json.get "total".toList)).map Json.isNull =
      some true ∧
    decodeLine (StreamEvent.finish ⟨true, 0, "SUMMARY TOTAL=Infinity".toList, [],
      ⟨.posInf, .int 0, .int 0⟩, "/w".toList⟩).toJson.stringify ≠
      some (StreamEvent.finish ⟨true, 0, "SUMMARY TOTAL=Infinity".toList, [],
      ⟨.posInf, .int 0, .int 0⟩, "/w".toList⟩).toJson := by
  refine ⟨by decide, by decide, by decide, by decide, ?_⟩
  intro h
  have h2 := congrArg (fun o : Option Json =>
    ((o.bind (Json.get "summary".toList)).bind (Json.get "total".toList)).map Json.isNull) h
  revert h2
  decide

end AgentFactory
